import Mathlib

/-!
# Shaderlay: preset parser and shader preprocessor

A shallow embedding of `slang_parser.cpp` and `shader_compiler.cpp`.

* A `std::string` is a list of characters (`Str`), one character for every
  `char`; the code looks at ASCII characters only.
* The member `preset_` of `SlangParser` is passed explicitly: every member
  function takes the preset and returns the preset it leaves behind.
* A call that does not return normally (a C++ exception leaving the function,
  or behaviour the C++ standard leaves undefined) is reported as a `Fault`
  next to the preset as it stood when the call was left.
* `float` values are not computed: a float is kept as the text that denotes it.
* Memory is not bounded: a vector can grow to any size below `INT_MAX`.
* A loop of the source that is not a plain iteration over a list is a
  function with a number of rounds (`fuel`) that is large enough for it.
* The counter of `findMatchingParen` is an `int` in the source and an integer
  without bound here: it can overflow only on a line that holds `2^31 - 1`
  opening parentheses.
-/

namespace Shaderlay

/-! ## Strings -/

/-- A `std::string`, as its sequence of characters. -/
abbrev Str := List Char

/-- Reasons for which a call does not return normally. -/
inductive Fault where
  /-- `std::invalid_argument`, thrown by `std::stoi` and `std::stof`. -/
  | invalid_argument
  /-- `std::out_of_range`, thrown by `std::stoi`. -/
  | out_of_range
  /-- The `emplace_back` loop can not finish: allocation fails in the end. -/
  | bad_alloc
  /-- A library precondition is violated (`front()` of an empty string). -/
  | undefined_behavior
  deriving DecidableEq

/-- The value `std::string::npos`, the largest `size_t`. -/
def npos : Nat := 2 ^ 64 - 1

/-- The call `str.substr(pos, len)`; every call site has `pos ≤ str.size()`,
so the `std::out_of_range` case of `substr` does not arise. -/
def substr (str : Str) (pos len : Nat) : Str :=
  (str.drop pos).take len

/-- The call `str.replace(pos, len, s)`. -/
def replace (str : Str) (pos len : Nat) (s : Str) : Str :=
  str.take pos ++ s ++ str.drop (pos + len)

/-- The call `str.front()`; `none` stands for the call on an empty string,
whose behaviour is undefined. -/
def front (str : Str) : Option Char :=
  str.head?

/-- The call `str.back()`; `none` stands for the call on an empty string. -/
def back (str : Str) : Option Char :=
  str.getLast?

/-- The call `str.find(ch)` for a character. -/
def find_char (ch : Char) : Str → Option Nat
  | [] => none
  | c :: cs => if c = ch then some 0 else (find_char ch cs).map (· + 1)

/-- Search for `pat` in a suffix of a string; `i` is the position of the
suffix in the whole string. -/
def findFrom (pat : Str) : Str → Nat → Option Nat
  | [], i => if pat.isEmpty then some i else none
  | c :: cs, i => if pat.isPrefixOf (c :: cs) then some i else findFrom pat cs (i + 1)

/-- The call `str.find(pat, pos)`; `none` is `npos`. -/
def find (str pat : Str) (pos : Nat) : Option Nat :=
  if str.length < pos then none else findFrom pat (str.drop pos) pos

/-- The call `str.find_first_not_of(set)`. -/
def find_first_not_of (set : Str) : Str → Option Nat
  | [] => none
  | c :: cs => if set.elem c then (find_first_not_of set cs).map (· + 1) else some 0

/-- The call `str.find_last_not_of(set)`. -/
def find_last_not_of (set : Str) : Str → Option Nat
  | [] => none
  | c :: cs =>
    match find_last_not_of set cs with
    | some i => some (i + 1)
    | none => if set.elem c then none else some 0

/-- The function `SlangParser::trim`. -/
def trim (str : Str) : Str :=
  match find_first_not_of " \t\r\n".toList str with
  | none => []
  | some start =>
    match find_last_not_of " \t\r\n".toList str with
    | none => []
    | some stop => substr str start (stop - start + 1)

/-- One call `std::getline(stream, line)` on the unread part of a stream: the
line and the rest of the stream, or `none` when nothing is left to read. -/
def getline (stream : Str) : Option (Str × Str) :=
  match stream with
  | [] => none
  | _ :: _ => some (stream.takeWhile (· ≠ '\n'), (stream.dropWhile (· ≠ '\n')).drop 1)

/-- The lines that `while (std::getline(stream, line))` reads, in order. -/
def getLines : Str → List Str
  | [] => []
  | c :: cs =>
    if c = '\n' then [] :: getLines cs
    else
      match getLines cs with
      | [] => [[c]]
      | l :: ls => (c :: l) :: ls

/-! ## Numeric conversion -/

/-- The largest `int`. -/
def INT_MAX : Nat := 2147483647

/-- The function `isspace` of the C locale. -/
def isspace (c : Char) : Bool :=
  c = ' ' || c = '\t' || c = '\n' || c = '\x0b' || c = '\x0c' || c = '\r'

/-- The value of a decimal digit. -/
def digitValue (c : Char) : Nat :=
  c.toNat - '0'.toNat

/-- The number a run of decimal digits denotes. -/
def decimal (ds : Str) : Nat :=
  ds.foldl (fun n c => 10 * n + digitValue c) 0

/-- The call `std::stoi(str)`: white space is skipped, then an optional sign
and the longest run of decimal digits are read. Without a digit the call
throws `std::invalid_argument`; a value outside `int` throws
`std::out_of_range`. -/
def stoi (str : Str) : Except Fault Int :=
  let s := str.dropWhile isspace
  let negative := s.head? = some '-'
  let s := if s.head? = some '-' ∨ s.head? = some '+' then s.drop 1 else s
  let ds := s.takeWhile Char.isDigit
  if ds.isEmpty then .error .invalid_argument
  else
    let v : Int := if negative then -(decimal ds : Int) else (decimal ds : Int)
    if v < -(INT_MAX : Int) - 1 ∨ (INT_MAX : Int) < v then .error .out_of_range
    else .ok v

/-- A `float`, kept as a text that denotes it: `FloatVal.mk t` is the float
that `strtof` reads from `t`. Rounding is not computed. -/
structure FloatVal where
  text : Str
  deriving DecidableEq

/-- Case-insensitive test that `s` begins with the lower-case word `word`. -/
def startsWithNoCase (word s : Str) : Bool :=
  word.isPrefixOf (s.map Char.toLower)

/-- The call `std::stof(str)`: white space and an optional sign are skipped;
a conversion is performed when a digit, a point followed by a digit, `inf`
or `nan` follows, and `std::invalid_argument` is thrown otherwise. The
`std::out_of_range` case of results outside `float` is not computed. -/
def stof (str : Str) : Except Fault FloatVal :=
  let s := str.dropWhile isspace
  let s := if s.head? = some '-' ∨ s.head? = some '+' then s.drop 1 else s
  let converts :=
    match s with
    | [] => false
    | c :: cs =>
      c.isDigit || (c = '.' && (cs.head?.map Char.isDigit).getD false)
        || startsWithNoCase "inf".toList s || startsWithNoCase "nan".toList s
  if converts then .ok ⟨str⟩ else .error .invalid_argument

/-- The call `std::regex_search(key, match, std::regex(pre + "(\\d+)"))` for a
literal `pre`: the first place of `key` where `pre` stands directly before a
decimal digit is found, and `match[1]`, the longest run of digits there, is
returned; `none` when the search fails. -/
def regex_search (pre : Str) : Str → Option Str
  | [] => none
  | c :: cs =>
    if pre.isPrefixOf (c :: cs) && !(((c :: cs).drop pre.length).takeWhile Char.isDigit).isEmpty then
      some (((c :: cs).drop pre.length).takeWhile Char.isDigit)
    else regex_search pre cs

/-! ## The preset (`slang_parser.h`) -/

/-- The enumeration `ScaleType`. -/
inductive ScaleType where
  | Source
  | Viewport
  | Absolute
  deriving DecidableEq

/-- The record `SlangShader` with its default member initialisers. -/
structure SlangShader where
  path : Str := []
  filterLinear : Bool := true
  scaleType : ScaleType := ScaleType.Source
  scale : FloatVal := ⟨"1.0".toList⟩
  frameCountMod : Int := 0
  floatFramebuffer : Bool := false
  srgbFramebuffer : Bool := false
  deriving DecidableEq

/-- An element of the member array `parameters` of `SlangPreset`. -/
structure Parameter where
  name : Str := []
  defaultValue : FloatVal := ⟨"0.0".toList⟩
  minimum : FloatVal := ⟨"0.0".toList⟩
  maximum : FloatVal := ⟨"1.0".toList⟩
  step : FloatVal := ⟨"0.01".toList⟩
  deriving DecidableEq

/-- The record `SlangPreset` with its default member initialisers. -/
structure SlangPreset where
  shaderCount : Int := 0
  shaders : List SlangShader := []
  parameters : List Parameter := List.replicate 32 {}
  parameterCount : Int := 0
  deriving DecidableEq

/-- The data member of the class `SlangParser`. -/
structure SlangParser where
  preset_ : SlangPreset := {}
  deriving DecidableEq

/-! ## The preset parser (`slang_parser.cpp`) -/

/-- The loop `while (static_cast<int>(shaders.size()) <= index)
shaders.emplace_back();`, run for at most `fuel` rounds. -/
def growLoop : Nat → List SlangShader → Nat → List SlangShader
  | 0, shaders, _ => shaders
  | fuel + 1, shaders, index =>
    if shaders.length ≤ index then growLoop fuel (shaders ++ [{}]) index else shaders

/-- The `emplace_back` loop of the four `parse…Line` functions. For
`index = INT_MAX` the loop condition holds for every `int`, the loop is never
left and ends in a failed allocation (the entries appended until then are not
kept in the model); below that, `index + 1` rounds are enough. -/
def ensureIndex (shaders : List SlangShader) (index : Nat) : Except Fault (List SlangShader) :=
  if INT_MAX ≤ index then .error .bad_alloc else .ok (growLoop (index + 1) shaders index)

/-- The assignment `shaders[index].field = …`, as an update `f` of the entry. -/
def assignAt (shaders : List SlangShader) (index : Nat) (f : SlangShader → SlangShader) :
    List SlangShader :=
  match shaders[index]? with
  | some s => shaders.set index (f s)
  | none => shaders

/-- The part the four `parse…Line` functions share: search the key for
`pre(\d+)`, convert the digits with `std::stoi`, grow `shaders`, and run the
assignment `assign` on the preset with the grown sequence. -/
def withIndex (pre : Str) (preset : SlangPreset) (key : Str)
    (assign : List SlangShader → Nat → SlangPreset × Option Fault) : SlangPreset × Option Fault :=
  match regex_search pre key with
  | none => (preset, none)
  | some digits =>
    match stoi digits with
    | .error e => (preset, some e)
    | .ok index =>
      match ensureIndex preset.shaders index.toNat with
      | .error e => (preset, some e)
      | .ok shaders => assign shaders index.toNat

/-- The function `SlangParser::parseShaderLine`. -/
def parseShaderLine (preset : SlangPreset) (key value : Str) : SlangPreset × Option Fault :=
  withIndex "shader".toList preset key fun shaders index =>
    ({ preset with shaders := assignAt shaders index fun s => { s with path := value } }, none)

/-- The function `SlangParser::parseFilterLine`. -/
def parseFilterLine (preset : SlangPreset) (key value : Str) : SlangPreset × Option Fault :=
  withIndex "filter_linear".toList preset key fun shaders index =>
    ({ preset with
        shaders := assignAt shaders index fun s =>
          { s with filterLinear := decide (value = "true".toList) } }, none)

/-- The function `SlangParser::parseScaleLine`. -/
def parseScaleLine (preset : SlangPreset) (key value : Str) : SlangPreset × Option Fault :=
  withIndex "scale_type".toList preset key fun shaders index =>
    if value = "source".toList then
      ({ preset with
          shaders := assignAt shaders index fun s => { s with scaleType := ScaleType.Source } }, none)
    else if value = "viewport".toList then
      ({ preset with
          shaders := assignAt shaders index fun s => { s with scaleType := ScaleType.Viewport } }, none)
    else if value = "absolute".toList then
      ({ preset with
          shaders := assignAt shaders index fun s => { s with scaleType := ScaleType.Absolute } }, none)
    else ({ preset with shaders := shaders }, none)

/-- The function `SlangParser::parseScaleValueLine`; when `std::stof` throws,
`shaders` has already been grown. -/
def parseScaleValueLine (preset : SlangPreset) (key value : Str) : SlangPreset × Option Fault :=
  withIndex "scale".toList preset key fun shaders index =>
    match stof value with
    | .error e => ({ preset with shaders := shaders }, some e)
    | .ok x => ({ preset with shaders := assignAt shaders index fun s => { s with scale := x } }, none)

/-- The first half of `SlangParser::parseLine`: the key and the value on the
two sides of the first `=`; `none` when the line has no `=`. -/
def splitKeyValue (line : Str) : Option (Str × Str) :=
  match find_char '=' line with
  | none => none
  | some equalPos => some (trim (substr line 0 equalPos), trim (substr line (equalPos + 1) npos))

/-- The quote removal of `SlangParser::parseLine`:
`if (value.front() == '"' && value.back() == '"') value = value.substr(1, value.length() - 2);`
with `value.length() - 2` computed in `size_t`. -/
def stripQuotes (value : Str) : Except Fault Str :=
  match front value with
  | none => .error .undefined_behavior
  | some f =>
    if f = '"' && back value == some '"' then
      .ok (substr value 1 ((value.length + 2 ^ 64 - 2) % 2 ^ 64))
    else .ok value

/-- The `if` / `else if` chain of `SlangParser::parseLine`. -/
def dispatch (preset : SlangPreset) (key value : Str) : SlangPreset × Option Fault :=
  if key = "shaders".toList then
    match stoi value with
    | .error e => (preset, some e)
    | .ok n => ({ preset with shaderCount := n }, none)
  else if find key "shader".toList 0 = some 0 then parseShaderLine preset key value
  else if find key "filter_linear".toList 0 = some 0 then parseFilterLine preset key value
  else if find key "scale_type".toList 0 = some 0 then parseScaleLine preset key value
  else if find key "scale".toList 0 = some 0 then parseScaleValueLine preset key value
  else (preset, none)

/-- The function `SlangParser::parseLine`. -/
def parseLine (preset : SlangPreset) (line : Str) : SlangPreset × Option Fault :=
  match splitKeyValue line with
  | none => (preset, none)
  | some (key, value) =>
    match stripQuotes value with
    | .error e => (preset, some e)
    | .ok value => dispatch preset key value

/-- The `while (std::getline(stream, line))` loop of
`SlangParser::parseSlangPreset`, over the lines the stream yields. A fault
ends the loop: the exception leaves `parseSlangPreset`. -/
def parseLines : SlangPreset → List Str → SlangPreset × Option Fault
  | preset, [] => (preset, none)
  | preset, line :: rest =>
    if (trim line).isEmpty || (trim line).head? = some '#' then parseLines preset rest
    else
      match parseLine preset (trim line) with
      | (preset, none) => parseLines preset rest
      | (preset, some e) => (preset, some e)

/-- The function `SlangParser::parseSlangPreset`: `preset_` is reset, the
lines are parsed, and the result tells whether `shaders` is non-empty. The
parser the call leaves behind comes first. -/
def parseSlangPreset (self : SlangParser) (presetContent : Str) :
    SlangParser × Except Fault Bool :=
  let self : SlangParser := { self with preset_ := {} }
  match parseLines self.preset_ (getLines presetContent) with
  | (preset, none) => ({ self with preset_ := preset }, .ok (!preset.shaders.isEmpty))
  | (preset, some e) => ({ self with preset_ := preset }, .error e)

/-- The function `SlangParser::getPreset`. -/
def getPreset (self : SlangParser) : SlangPreset :=
  self.preset_

/-! ## The shader preprocessor (`shader_compiler.cpp`) -/

/-- The enumeration `ShaderType`. -/
inductive ShaderType where
  | Vertex
  | Fragment
  deriving DecidableEq

/-- The function `ShaderCompiler::findMatchingParen`, on the part of the
string from position `i` on, with the running `count`. -/
def findMatchingParenFrom : Str → Nat → Int → Option Nat
  | [], _, _ => none
  | c :: cs, i, count =>
    if (if c = '(' then count + 1 else if c = ')' then count - 1 else count) = 0 then some i
    else
      findMatchingParenFrom cs (i + 1)
        (if c = '(' then count + 1 else if c = ')' then count - 1 else count)

/-- The function `ShaderCompiler::findMatchingParen`; `none` is `npos`. -/
def findMatchingParen (str : Str) (start : Nat) : Option Nat :=
  findMatchingParenFrom (str.drop start) start 1

/-- One of the first four loops of `replaceSlangKeywords`,
`while ((pos = result.find(pat, pos)) != npos) { result.replace(pos, len, rep); pos += step; }`,
run for at most `fuel` rounds. -/
def replaceLoop (pat : Str) (len : Nat) (rep : Str) (step : Nat) : Nat → Str → Nat → Str
  | 0, result, _ => result
  | fuel + 1, result, pos =>
    match find result pat pos with
    | none => result
    | some p => replaceLoop pat len rep step fuel (replace result p len rep) (p + step)

/-- The `saturate(` loop of `replaceSlangKeywords`, run for at most `fuel`
rounds. -/
def saturateLoop : Nat → Str → Nat → Str
  | 0, result, _ => result
  | fuel + 1, result, pos =>
    match find result "saturate(".toList pos with
    | none => result
    | some p =>
      match findMatchingParen result (p + 9) with
      | some endPos =>
        saturateLoop fuel
          (replace result p (endPos - p + 1)
            ("clamp(".toList ++ substr result (p + 9) (endPos - p - 9) ++ ", 0.0, 1.0)".toList))
          (p + 1)
      | none => saturateLoop fuel result (p + 1)

/-- The function `ShaderCompiler::replaceSlangKeywords`. Each loop is given
one round per character of its input and one more. -/
def replaceSlangKeywords (line : Str) : Str :=
  let result := line
  let result := replaceLoop "float2".toList 6 "vec2".toList 4 (result.length + 1) result 0
  let result := replaceLoop "float3".toList 6 "vec3".toList 4 (result.length + 1) result 0
  let result := replaceLoop "float4".toList 6 "vec4".toList 4 (result.length + 1) result 0
  let result := replaceLoop "lerp(".toList 4 "mix".toList 3 (result.length + 1) result 0
  saturateLoop (result.length + 1) result 0

/-- The function `ShaderCompiler::preprocessGLSL`: the first loop reads the
lines and looks for `#version`, the header is written, and the second loop
writes every rewritten line. -/
def preprocessGLSL (source : Str) (type : ShaderType) : Str :=
  let lines := getLines source
  let hasVersion :=
    lines.foldl (fun hasVersion line => if (find line "#version".toList 0).isSome then true else hasVersion)
      false
  let processed : Str :=
    if !hasVersion then
      if type = ShaderType.Fragment then "#version 100\n".toList ++ "precision mediump float;\n".toList
      else "#version 100\n".toList
    else []
  lines.foldl (fun processed sourceLine => processed ++ replaceSlangKeywords sourceLine ++ "\n".toList)
    processed

/-! ## Notions used to state the properties of the parser -/

/-- The sequence `shaders` made to hold index `index`: default entries are
appended behind it until it does. -/
def grown (shaders : List SlangShader) (index : Nat) : List SlangShader :=
  shaders ++ List.replicate (index + 1 - shaders.length) ({} : SlangShader)

/-- The four fields of a `SlangShader` that the parser assigns. -/
inductive Field where
  | path
  | filterLinear
  | scaleType
  | scale
  deriving DecidableEq

/-- A value for one of the four fields. -/
inductive FieldValue where
  | path (v : Str)
  | filterLinear (b : Bool)
  | scaleType (t : ScaleType)
  | scale (x : FloatVal)
  deriving DecidableEq

/-- The entry with one field assigned. -/
def SlangShader.put (s : SlangShader) : FieldValue → SlangShader
  | .path v => { s with path := v }
  | .filterLinear b => { s with filterLinear := b }
  | .scaleType t => { s with scaleType := t }
  | .scale x => { s with scale := x }

/-- The value a value text gives to a field, as the `parse…Line` function of
that field reads it; `none` when the function assigns nothing. -/
def readField : Field → Str → Option FieldValue
  | .path, value => some (FieldValue.path value)
  | .filterLinear, value => some (FieldValue.filterLinear (decide (value = "true".toList)))
  | .scaleType, value =>
    if value = "source".toList then some (FieldValue.scaleType ScaleType.Source)
    else if value = "viewport".toList then some (FieldValue.scaleType ScaleType.Viewport)
    else if value = "absolute".toList then some (FieldValue.scaleType ScaleType.Absolute)
    else none
  | .scale, value =>
    match stof value with
    | .ok x => some (FieldValue.scale x)
    | .error _ => none

/-- The field whose `parse…Line` function the chain of `parseLine` calls for
a key, with the digits the regular expression of that function finds in the
key; `none` when no function is called or its search fails. -/
def keyTarget (key : Str) : Option (Field × Str) :=
  if key = "shaders".toList then none
  else if "shader".toList.isPrefixOf key then
    (regex_search "shader".toList key).map fun ds => (Field.path, ds)
  else if "filter_linear".toList.isPrefixOf key then
    (regex_search "filter_linear".toList key).map fun ds => (Field.filterLinear, ds)
  else if "scale_type".toList.isPrefixOf key then
    (regex_search "scale_type".toList key).map fun ds => (Field.scaleType, ds)
  else if "scale".toList.isPrefixOf key then
    (regex_search "scale".toList key).map fun ds => (Field.scale, ds)
  else none

/-- The four key words that are followed by an index. -/
def indexedPrefixes : List Str :=
  ["shader".toList, "filter_linear".toList, "scale_type".toList, "scale".toList]

/-- The number `n` when `key` is `pre` followed by decimal digits only, at
least one, that denote `n`. -/
def indexAfter (pre key : Str) : Option Nat :=
  if pre.isPrefixOf key && !(key.drop pre.length).isEmpty
      && (key.drop pre.length).all Char.isDigit then
    some (decimal (key.drop pre.length))
  else none

/-- The index a key of the form `<prefix><decimal digits>` names. -/
def keyIndex (key : Str) : Option Nat :=
  indexedPrefixes.findSome? fun pre => indexAfter pre key

/-- An indexed key begins with one of the four key words and is not the
count key `shaders`. -/
def isIndexedKey (key : Str) : Bool :=
  decide (key ≠ "shaders".toList) && indexedPrefixes.any fun pre => pre.isPrefixOf key

/-- The key of a line of a preset text, when the line reaches `parseLine`
(trimmed, it is neither empty nor a comment) and holds an `=`. -/
def lineKey (line : Str) : Option Str :=
  if (trim line).isEmpty || (trim line).head? = some '#' then none
  else (splitKeyValue (trim line)).map Prod.fst

/-- The keys of the lines of a preset text, in line order. -/
def lineKeys (text : Str) : List Str :=
  (getLines text).filterMap lineKey

/-- The indices named by the keys of a preset text. -/
def namedIndices (text : Str) : List Nat :=
  (lineKeys text).filterMap keyIndex

/-! ## Validation and compilation (`shader_compiler.cpp`, `jni_interface.cpp`) -/

/-- The function `ShaderCompiler::validateShader`. -/
def validateShader (source : Str) (type : ShaderType) : Bool :=
  if source.isEmpty then false
  else if find source "void main".toList 0 = none then false
  else if type = ShaderType.Fragment then
    if find source "gl_FragColor".toList 0 = none then false else true
  else true

/-- The function `ShaderCompiler::compileGLSL`. -/
def compileGLSL (source : Str) (type : ShaderType) : Str :=
  preprocessGLSL source type

/-- The data member of the class `ShaderCompiler`. -/
structure ShaderCompiler where
  initialized_ : Bool := false
  deriving DecidableEq

/-- The entry point `Java_com_shaderlay_app_shader_NativeShaderCompiler_compileShader`.
The pointer `g_shaderCompiler` is an argument, `none` when it is null; the
Java string and the `std::string` made from it are the same text, and the
stage is the `jint` after its cast to `ShaderType`. The result `none` is the
`nullptr` the entry point returns on failure. -/
def Java_com_shaderlay_app_shader_NativeShaderCompiler_compileShader
    (g_shaderCompiler : Option ShaderCompiler) (source : Str) (type : ShaderType) : Option Str :=
  match g_shaderCompiler with
  | none => none
  | some _ =>
    if !validateShader source type then none
    else if (compileGLSL source type).isEmpty then none
    else some (compileGLSL source type)

/-! ## The placeholder shaders (`slang_parser.cpp`) -/

/-- The call `str.find_last_of(ch)` for a character. -/
def find_last_of (ch : Char) : Str → Option Nat
  | [] => none
  | c :: cs =>
    match find_last_of ch cs with
    | some i => some (i + 1)
    | none => if c = ch then some 0 else none

/-- The function `SlangParser::generateCRTShader`: the text of its raw string. -/
def generateCRTShader : Str :=
  String.toList
    ("\n" ++
      "#version 100\n" ++
      "precision mediump float;\n" ++
      "\n" ++
      "uniform float u_Time;\n" ++
      "uniform vec2 u_Resolution;\n" ++
      "uniform float u_Opacity;\n" ++
      "\n" ++
      "varying vec2 v_TexCoord;\n" ++
      "\n" ++
      "void main() \x7b\n" ++
      "    vec2 uv = v_TexCoord;\n" ++
      "    vec2 dc = abs(0.5 - uv);\n" ++
      "    dc *= dc;\n" ++
      "\n" ++
      "    // CRT curvature\n" ++
      "    uv.x -= 0.5; uv.x *= 1.0 + (dc.y * 0.15);\n" ++
      "    uv.y -= 0.5; uv.y *= 1.0 + (dc.x * 0.2);\n" ++
      "    uv += 0.5;\n" ++
      "\n" ++
      "    // Vignette\n" ++
      "    float vig = 1.0 - dot(dc, dc);\n" ++
      "    vig = pow(vig, 0.5);\n" ++
      "\n" ++
      "    // Scanlines\n" ++
      "    float scanline = sin(uv.y * u_Resolution.y * 3.14159) * 0.04;\n" ++
      "\n" ++
      "    vec3 col = vec3(0.2, 0.8, 0.3);\n" ++
      "    col += scanline;\n" ++
      "    col *= vig;\n" ++
      "\n" ++
      "    gl_FragColor = vec4(col, u_Opacity * 0.3);\n" ++
      "\x7d\n")

/-- The function `SlangParser::generateScanlineShader`: the text of its raw string. -/
def generateScanlineShader : Str :=
  String.toList
    ("\n" ++
      "#version 100\n" ++
      "precision mediump float;\n" ++
      "\n" ++
      "uniform float u_Time;\n" ++
      "uniform vec2 u_Resolution;\n" ++
      "uniform float u_Opacity;\n" ++
      "\n" ++
      "varying vec2 v_TexCoord;\n" ++
      "\n" ++
      "void main() \x7b\n" ++
      "    vec2 uv = v_TexCoord;\n" ++
      "\n" ++
      "    float scanline = sin(uv.y * u_Resolution.y * 3.14159 * 2.0) * 0.5 + 0.5;\n" ++
      "    scanline = pow(scanline, 2.0);\n" ++
      "\n" ++
      "    vec3 color = vec3(0.0);\n" ++
      "    float alpha = scanline * u_Opacity * 0.4;\n" ++
      "\n" ++
      "    gl_FragColor = vec4(color, alpha);\n" ++
      "\x7d\n")

/-- The function `SlangParser::generateLCDShader`: the text of its raw string. -/
def generateLCDShader : Str :=
  String.toList
    ("\n" ++
      "#version 100\n" ++
      "precision mediump float;\n" ++
      "\n" ++
      "uniform float u_Time;\n" ++
      "uniform vec2 u_Resolution;\n" ++
      "uniform float u_Opacity;\n" ++
      "\n" ++
      "varying vec2 v_TexCoord;\n" ++
      "\n" ++
      "void main() \x7b\n" ++
      "    vec2 uv = v_TexCoord;\n" ++
      "\n" ++
      "    vec2 grid = abs(fract(uv * u_Resolution / 3.0) - 0.5);\n" ++
      "    float line = min(grid.x, grid.y) * 2.0;\n" ++
      "\n" ++
      "    vec3 subpixel = vec3(1.0);\n" ++
      "    float mod_x = mod(uv.x * u_Resolution.x, 3.0);\n" ++
      "    if (mod_x < 1.0) subpixel = vec3(1.0, 0.3, 0.3);\n" ++
      "    else if (mod_x < 2.0) subpixel = vec3(0.3, 1.0, 0.3);\n" ++
      "    else subpixel = vec3(0.3, 0.3, 1.0);\n" ++
      "\n" ++
      "    vec3 color = mix(vec3(0.0), subpixel * 0.2, 1.0 - min(line, 1.0));\n" ++
      "\n" ++
      "    gl_FragColor = vec4(color, u_Opacity * 0.2);\n" ++
      "\x7d\n")

/-- The function `SlangParser::generatePassthroughShader`: the text of its raw string. -/
def generatePassthroughShader : Str :=
  String.toList
    ("\n" ++
      "#version 100\n" ++
      "precision mediump float;\n" ++
      "\n" ++
      "uniform float u_Time;\n" ++
      "uniform vec2 u_Resolution;\n" ++
      "uniform float u_Opacity;\n" ++
      "\n" ++
      "varying vec2 v_TexCoord;\n" ++
      "\n" ++
      "void main() \x7b\n" ++
      "    gl_FragColor = vec4(0.0, 0.0, 0.0, 0.0);\n" ++
      "\x7d\n")

/-- The function `SlangParser::generatePlaceholderShader`. -/
def generatePlaceholderShader (shaderPath : Str) : Str :=
  let shaderName :=
    match find_last_of '/' shaderPath with
    | some lastSlash => substr shaderPath (lastSlash + 1) npos
    | none => shaderPath
  let shaderName :=
    match find_last_of '.' shaderName with
    | some lastDot => substr shaderName 0 lastDot
    | none => shaderName
  if find shaderName "crt".toList 0 ≠ none then generateCRTShader
  else if find shaderName "scanline".toList 0 ≠ none then generateScanlineShader
  else if find shaderName "lcd".toList 0 ≠ none then generateLCDShader
  else generatePassthroughShader

/-- The function `SlangParser::loadShaderSource`. -/
def loadShaderSource (shaderPath : Str) : Str :=
  generatePlaceholderShader shaderPath

/-! ## Notions used to state the properties of the placeholder shaders -/

/-- The text behind the last `ch` of a text, and the whole text when it
holds no `ch`. -/
def afterLast (ch : Char) : Str → Str
  | [] => []
  | c :: cs => if ch ∈ cs then afterLast ch cs else if c = ch then cs else c :: cs

/-- The text before the last `ch` of a text, and the whole text when it
holds no `ch`. -/
def beforeLast (ch : Char) : Str → Str
  | [] => []
  | c :: cs => if ch ∈ cs then c :: beforeLast ch cs else if c = ch then [] else c :: cs

/-- The stem of a path: the text after its last `/`, with everything from the
last `.` of that text on removed. -/
def stem (path : Str) : Str :=
  beforeLast '.' (afterLast '/' path)

/-! ## Notions used to state the properties of the preprocessor -/

/-- Whether one of two texts is a prefix of the other: the two can begin at
the same place of a text. -/
def compatible (a b : Str) : Bool :=
  a.isPrefixOf b || b.isPrefixOf a

/-- Whether occurrences of `z` and of `x` that begin at different places of a
text never overlap. -/
def apart (z x : Str) : Bool :=
  ((List.range x.length).all fun j => j = 0 || !compatible z (x.drop j)) &&
    ((List.range z.length).all fun k => k = 0 || !compatible (z.drop k) x)

/-- Whether occurrences of `z` and of `x` in a text never overlap. -/
def disjointFrom (z x : Str) : Bool :=
  !compatible z x && apart z x

/-- Whether `replaceLoop` is left, by a `find` that fails, within `fuel`
rounds. -/
def replaceLoopExits (pat : Str) (len : Nat) (rep : Str) (step : Nat) : Nat → Str → Nat → Bool
  | 0, _, _ => false
  | fuel + 1, result, pos =>
    match find result pat pos with
    | none => true
    | some p => replaceLoopExits pat len rep step fuel (replace result p len rep) (p + step)

/-- Whether `saturateLoop` is left, by a `find` that fails, within `fuel`
rounds. -/
def saturateLoopExits : Nat → Str → Nat → Bool
  | 0, _, _ => false
  | fuel + 1, result, pos =>
    match find result "saturate(".toList pos with
    | none => true
    | some p =>
      match findMatchingParen result (p + 9) with
      | some endPos =>
        saturateLoopExits fuel
          (replace result p (endPos - p + 1)
            ("clamp(".toList ++ substr result (p + 9) (endPos - p - 9) ++ ", 0.0, 1.0)".toList))
          (p + 1)
      | none => saturateLoopExits fuel result (p + 1)

/-- Whether each of the five loops of `replaceSlangKeywords` is left within
the rounds that `replaceSlangKeywords` gives it. -/
def replaceSlangKeywordsExits (line : Str) : Bool :=
  let r1 := replaceLoop "float2".toList 6 "vec2".toList 4 (line.length + 1) line 0
  let r2 := replaceLoop "float3".toList 6 "vec3".toList 4 (r1.length + 1) r1 0
  let r3 := replaceLoop "float4".toList 6 "vec4".toList 4 (r2.length + 1) r2 0
  let r4 := replaceLoop "lerp(".toList 4 "mix".toList 3 (r3.length + 1) r3 0
  replaceLoopExits "float2".toList 6 "vec2".toList 4 (line.length + 1) line 0
    && replaceLoopExits "float3".toList 6 "vec3".toList 4 (r1.length + 1) r1 0
    && replaceLoopExits "float4".toList 6 "vec4".toList 4 (r2.length + 1) r2 0
    && replaceLoopExits "lerp(".toList 4 "mix".toList 3 (r3.length + 1) r3 0
    && saturateLoopExits (r4.length + 1) r4 0

/-- The parentheses of a text, in order. -/
def parens (t : Str) : Str :=
  t.filter fun c => c = '(' || c = ')'

/-- A text is balanced when none of its prefixes holds more `)` than `(` and
the text holds as many `(` as `)`. -/
def balanced (t : Str) : Bool :=
  ((List.range (t.length + 1)).all fun k => (t.take k).count ')' ≤ (t.take k).count '(') &&
    t.count '(' = t.count ')'

/-- The text behind an opening parenthesis holds the closing parenthesis that
matches it: one of its prefixes holds more `)` than `(`. -/
def hasClosing (t : Str) : Bool :=
  (List.range (t.length + 1)).any fun k => (t.take k).count '(' < (t.take k).count ')'

/-- Every `saturate(` of the text is without a matching closing parenthesis. -/
def unmatchedOnly (s : Str) : Prop :=
  ∀ A V : Str, s = A ++ ("saturate(".toList ++ V) → hasClosing V = false

/-- One rewriting of the preprocessor at one place of a text: a vector type,
a `lerp(`, or a `saturate(` call with a balanced argument. -/
inductive RewriteStep : Str → Str → Prop where
  | vec2 (A B : Str) : RewriteStep (A ++ ("float2".toList ++ B)) (A ++ ("vec2".toList ++ B))
  | vec3 (A B : Str) : RewriteStep (A ++ ("float3".toList ++ B)) (A ++ ("vec3".toList ++ B))
  | vec4 (A B : Str) : RewriteStep (A ++ ("float4".toList ++ B)) (A ++ ("vec4".toList ++ B))
  | mix (A B : Str) : RewriteStep (A ++ ("lerp(".toList ++ B)) (A ++ ("mix(".toList ++ B))
  | clamp (A expr B : Str) : balanced expr = true →
      RewriteStep (A ++ ("saturate(".toList ++ (expr ++ (")".toList ++ B))))
        (A ++ ("clamp(".toList ++ (expr ++ (", 0.0, 1.0)".toList ++ B))))

/-- Any number of rewritings, one after the other. -/
def Rewrites : Str → Str → Prop :=
  Relation.ReflTransGen RewriteStep

/-- The reading of "every leftmost, non-overlapping occurrence is replaced and
all other characters are unchanged": the text is read from left to right;
where the pattern of a rule begins, its replacement is written and the
pattern is passed over (`skip` counts the characters still to pass over),
elsewhere the character is copied. -/
def specReplaceAll (rules : List (Str × Str)) : Nat → Str → Str
  | _, [] => []
  | skip + 1, _ :: cs => specReplaceAll rules skip cs
  | 0, c :: cs =>
    match rules.find? (fun r => r.1.isPrefixOf (c :: cs)) with
    | some r => r.2 ++ specReplaceAll rules (r.1.length - 1) cs
    | none => c :: specReplaceAll rules 0 cs

/-! ## Lemmas -/

theorem findFrom_ge (pat : Str) : ∀ (s : Str) (i n : Nat), findFrom pat s i = some n → i ≤ n := by
  intro s
  induction s with
  | nil => intro i n h; simp only [findFrom] at h; split at h <;> simp_all
  | cons c cs ih =>
    intro i n h
    simp only [findFrom] at h
    split at h
    · simp_all
    · have := ih _ _ h; omega

theorem find_zero_iff (key pat : Str) : find key pat 0 = some 0 ↔ pat <+: key := by
  unfold find
  simp only [Nat.not_lt_zero, if_false, List.drop_zero]
  cases key with
  | nil => simp [findFrom]
  | cons c cs =>
    simp only [findFrom]
    by_cases h : pat.isPrefixOf (c :: cs) = true
    · simp [h, List.isPrefixOf_iff_prefix.mp h]
    · simp only [h, if_false]
      constructor
      · intro h1; have := findFrom_ge _ _ _ _ h1; omega
      · intro h1; exact absurd (List.isPrefixOf_iff_prefix.mpr h1) h

theorem findFrom_isSome_iff (pat : Str) : ∀ (s : Str) (i : Nat), (findFrom pat s i).isSome ↔ pat <:+: s := by
  intro s
  induction s with
  | nil => intro i; simp [findFrom]
  | cons c cs ih =>
    intro i
    simp only [findFrom, List.infix_cons_iff]
    by_cases h : pat.isPrefixOf (c :: cs) = true
    · simp [h, List.isPrefixOf_iff_prefix.mp h]
    · have h2 : ¬ pat <+: c :: cs := fun h1 => h (List.isPrefixOf_iff_prefix.mpr h1)
      simp [h, h2, ih]

theorem find_isSome_iff (s pat : Str) : (find s pat 0).isSome ↔ pat <:+: s := by
  simp [find, findFrom_isSome_iff]

theorem growLoop_eq : ∀ (fuel : Nat) (shaders : List SlangShader) (index : Nat),
    index + 1 ≤ shaders.length + fuel →
    growLoop fuel shaders index = shaders ++ List.replicate (index + 1 - shaders.length) ({} : SlangShader) := by
  intro fuel
  induction fuel with
  | zero =>
    intro shaders index h
    have : index + 1 - shaders.length = 0 := by omega
    simp [growLoop, this]
  | succ n ih =>
    intro shaders index h
    simp only [growLoop]
    split
    · rename_i hle
      rw [ih _ _ (by simp; omega)]
      have : index + 1 - shaders.length = (index + 1 - (shaders ++ [({} : SlangShader)]).length) + 1 := by
        simp; omega
      rw [this, List.replicate_succ]
      simp
    · rename_i hle
      have : index + 1 - shaders.length = 0 := by omega
      simp [this]

theorem isDigit_not_isspace (c : Char) (h : c.isDigit = true) : isspace c = false := by
  simp only [isspace, Bool.or_eq_false_iff, decide_eq_false_iff_not]
  refine ⟨⟨⟨⟨⟨?_, ?_⟩, ?_⟩, ?_⟩, ?_⟩, ?_⟩ <;> rintro rfl <;> revert h <;> decide

theorem isDigit_ne_minus (c : Char) (h : c.isDigit = true) : c ≠ '-' ∧ c ≠ '+' := by
  constructor <;> rintro rfl <;> revert h <;> decide

theorem stoi_digits (ds : Str) (hne : ds ≠ []) (hall : ∀ c ∈ ds, c.isDigit = true) :
    stoi ds = if INT_MAX < decimal ds then .error .out_of_range else .ok (decimal ds : Int) := by
  cases ds with
  | nil => exact absurd rfl hne
  | cons c cs =>
    have hc : c.isDigit = true := hall c (by simp)
    have h1 : (c :: cs).dropWhile isspace = c :: cs := by
      simp [List.dropWhile_cons, isDigit_not_isspace c hc]
    have h2 : (c :: cs).takeWhile Char.isDigit = c :: cs := by
      rw [List.takeWhile_eq_self_iff]; exact hall
    have ⟨h3, h4⟩ := isDigit_ne_minus c hc
    unfold stoi
    simp only [h1, List.head?_cons, Option.some.injEq, h3, h4, or_self, if_false, h2,
      List.isEmpty_cons, Bool.false_eq_true]
    have : ¬ ((decimal (c :: cs) : Int) < -(INT_MAX : Int) - 1) := by
      have : (0 : Int) ≤ (decimal (c :: cs) : Int) := Int.ofNat_nonneg _
      simp [INT_MAX]; omega
    simp only [this, false_or]
    by_cases h5 : INT_MAX < decimal (c :: cs)
    · simp [h5]
    · simp [h5]

theorem regex_search_digits (pre : Str) : ∀ (key ds : Str), regex_search pre key = some ds →
    ds ≠ [] ∧ ∀ c ∈ ds, c.isDigit = true := by
  intro key
  induction key with
  | nil => intro ds h; simp [regex_search] at h
  | cons c cs ih =>
    intro ds h
    simp only [regex_search] at h
    split at h
    · rename_i hc
      simp only [Bool.and_eq_true, Bool.not_eq_true', List.isEmpty_eq_false] at hc
      injection h with h
      subst h
      refine ⟨?_, ?_⟩
      · intro h0; simp [h0] at hc
      · intro d hd; exact (List.mem_takeWhile_imp hd)
    · exact ih _ h

theorem takeWhile_digits_append (ds rest : Str) (hall : ∀ c ∈ ds, c.isDigit = true)
    (hrest : ∀ c, rest.head? = some c → c.isDigit = false) :
    (ds ++ rest).takeWhile Char.isDigit = ds := by
  rw [List.takeWhile_append_of_pos hall]
  cases rest with
  | nil => simp
  | cons r rs => simp [List.takeWhile_cons, hrest r rfl]

theorem regex_search_at_start (pre ds rest : Str) (hne : ds ≠ [])
    (hall : ∀ c ∈ ds, c.isDigit = true) (hrest : ∀ c, rest.head? = some c → c.isDigit = false) :
    regex_search pre (pre ++ (ds ++ rest)) = some ds := by
  have hkey : pre ++ (ds ++ rest) ≠ [] := by simp [hne]
  generalize hk : pre ++ (ds ++ rest) = key at hkey
  cases key with
  | nil => exact absurd rfl hkey
  | cons c cs =>
    simp only [regex_search]
    rw [← hk]
    have h1 : pre.isPrefixOf (pre ++ (ds ++ rest)) = true :=
      List.isPrefixOf_iff_prefix.mpr (List.prefix_append _ _)
    simp [h1, takeWhile_digits_append ds rest hall hrest, hne]

theorem ensureIndex_eq (shaders : List SlangShader) (index : Nat) :
    ensureIndex shaders index =
      if INT_MAX ≤ index then .error .bad_alloc else .ok (grown shaders index) := by
  unfold ensureIndex grown
  split
  · rfl
  · rw [growLoop_eq _ _ _ (by omega)]

theorem withIndex_eq (pre : Str) (preset : SlangPreset) (key : Str)
    (assign : List SlangShader → Nat → SlangPreset × Option Fault) :
    withIndex pre preset key assign =
      match regex_search pre key with
      | none => (preset, none)
      | some ds =>
        if INT_MAX < decimal ds then (preset, some .out_of_range)
        else if INT_MAX ≤ decimal ds then (preset, some .bad_alloc)
        else assign (grown preset.shaders (decimal ds)) (decimal ds) := by
  unfold withIndex
  cases h : regex_search pre key with
  | none => rfl
  | some ds =>
    obtain ⟨hne, hall⟩ := regex_search_digits pre key ds h
    simp only [stoi_digits ds hne hall]
    by_cases h1 : INT_MAX < decimal ds
    · simp [h1]
    · simp only [h1, if_false, Int.toNat_ofNat, ensureIndex_eq]
      by_cases h2 : INT_MAX ≤ decimal ds
      · simp [h2]
      · simp [h2]

theorem length_grown (shaders : List SlangShader) (n : Nat) :
    (grown shaders n).length = max shaders.length (n + 1) := by
  simp [grown]; omega

theorem getD_grown (shaders : List SlangShader) (n i : Nat) :
    ((grown shaders n)[i]?).getD {} = (shaders[i]?).getD {} := by
  unfold grown
  rw [List.getElem?_append]
  split
  · rfl
  · rename_i h
    rw [List.getElem?_replicate]
    have : shaders[i]? = none := List.getElem?_eq_none (by omega)
    split <;> simp [this]

theorem getElem?_grown_self (shaders : List SlangShader) (n : Nat) :
    (grown shaders n)[n]? = some ((shaders[n]?).getD {}) := by
  have hlt : n < (grown shaders n).length := by rw [length_grown]; omega
  have h := getD_grown shaders n n
  rw [List.getElem?_eq_getElem hlt] at h ⊢
  simpa using h

theorem length_assignAt (l : List SlangShader) (n : Nat) (f : SlangShader → SlangShader) :
    (assignAt l n f).length = l.length := by
  unfold assignAt; split <;> simp

theorem getElem?_assignAt_ne (l : List SlangShader) (n i : Nat) (f : SlangShader → SlangShader)
    (h : i ≠ n) : (assignAt l n f)[i]? = l[i]? := by
  unfold assignAt; split
  · rw [List.getElem?_set_ne (Ne.symm h)]
  · rfl

theorem getElem?_assignAt_grown (shaders : List SlangShader) (n : Nat)
    (f : SlangShader → SlangShader) :
    (assignAt (grown shaders n) n f)[n]? = some (f ((shaders[n]?).getD {})) := by
  have hlt : n < (grown shaders n).length := by rw [length_grown]; omega
  unfold assignAt
  rw [getElem?_grown_self]
  simp [List.getElem?_set_self hlt]

theorem find_zero_eq (key pat : Str) :
    (find key pat 0 = some 0) = (pat.isPrefixOf key = true) := by
  rw [find_zero_iff, List.isPrefixOf_iff_prefix]

theorem stof_error (value : Str) (e : Fault) (h : stof value = .error e) :
    e = .invalid_argument := by
  unfold stof at h
  simp only at h
  split at h <;> split at h <;> cases h <;> rfl

theorem dispatch_eq (p : SlangPreset) (key value : Str) :
    dispatch p key value =
      if key = "shaders".toList then
        match stoi value with
        | .error e => (p, some e)
        | .ok n => ({ p with shaderCount := n }, none)
      else
        match keyTarget key with
        | none => (p, none)
        | some (fld, ds) =>
          if INT_MAX < decimal ds then (p, some .out_of_range)
          else if INT_MAX ≤ decimal ds then (p, some .bad_alloc)
          else
            match readField fld value with
            | some w =>
              ({ p with
                  shaders := assignAt (grown p.shaders (decimal ds)) (decimal ds) fun s => s.put w },
                none)
            | none =>
              ({ p with shaders := grown p.shaders (decimal ds) },
                if fld = Field.scale then some .invalid_argument else none) := by
  unfold dispatch keyTarget
  simp only [find_zero_eq]
  by_cases h0 : key = "shaders".toList
  · simp only [h0, if_true]
  simp only [h0, if_false]
  by_cases h1 : "shader".toList.isPrefixOf key = true
  · simp only [h1, if_true, parseShaderLine, withIndex_eq]
    cases regex_search "shader".toList key with
    | none => rfl
    | some ds =>
      simp only [Option.map_some', readField, SlangShader.put]
  simp only [h1, if_false, Bool.false_eq_true]
  by_cases h2 : "filter_linear".toList.isPrefixOf key = true
  · simp only [h2, if_true, parseFilterLine, withIndex_eq]
    cases regex_search "filter_linear".toList key with
    | none => rfl
    | some ds =>
      simp only [Option.map_some', readField, SlangShader.put]
  simp only [h2, if_false, Bool.false_eq_true]
  by_cases h3 : "scale_type".toList.isPrefixOf key = true
  · simp only [h3, if_true, parseScaleLine, withIndex_eq]
    cases regex_search "scale_type".toList key with
    | none => rfl
    | some ds =>
      simp only [Option.map_some', readField]
      by_cases ha : INT_MAX < decimal ds
      · simp only [ha, if_true]
      by_cases hb : INT_MAX ≤ decimal ds
      · simp only [ha, hb, if_true, if_false]
      simp only [ha, hb, if_false]
      by_cases v1 : value = "source".toList
      · simp only [if_pos v1, SlangShader.put]
      by_cases v2 : value = "viewport".toList
      · simp only [if_neg v1, if_pos v2, SlangShader.put]
      by_cases v3 : value = "absolute".toList
      · simp only [if_neg v1, if_neg v2, if_pos v3, SlangShader.put]
      simp only [if_neg v1, if_neg v2, if_neg v3]
      simp
  simp only [h3, if_false, Bool.false_eq_true]
  by_cases h4 : "scale".toList.isPrefixOf key = true
  · simp only [h4, if_true, parseScaleValueLine, withIndex_eq]
    cases regex_search "scale".toList key with
    | none => rfl
    | some ds =>
      simp only [Option.map_some', readField]
      by_cases ha : INT_MAX < decimal ds
      · simp only [ha, if_true]
      by_cases hb : INT_MAX ≤ decimal ds
      · simp only [ha, hb, if_true, if_false]
      simp only [ha, hb, if_false]
      cases hs : stof value with
      | error e => simp [stof_error value e hs]
      | ok x => simp [SlangShader.put]
  simp only [h4, if_false, Bool.false_eq_true]

theorem getLines_getline (stream : Str) :
    getLines stream =
      match getline stream with
      | none => []
      | some (line, rest) => line :: getLines rest := by
  induction stream with
  | nil => rfl
  | cons c cs ih =>
    simp only [getLines, getline]
    by_cases hc : c = '\n'
    · simp [hc]
    · simp only [hc, if_false, List.takeWhile_cons, List.dropWhile_cons, ne_eq, not_false_eq_true,
        decide_True, if_true]
      rw [ih]
      cases cs with
      | nil => simp [getline, getLines]
      | cons d ds => simp [getline]

theorem foldl_hasVersion (pat : Str) (lines : List Str) (b : Bool) :
    lines.foldl (fun hasVersion line =>
        if (find line pat 0).isSome then true else hasVersion) b
      = (b || decide (∃ l ∈ lines, pat <:+: l)) := by
  induction lines generalizing b with
  | nil => simp
  | cons l ls ih =>
    simp only [List.foldl_cons, ih]
    by_cases h : pat <:+: l
    · simp [(find_isSome_iff l _).mpr h, h]
    · have : (find l pat 0).isSome = false := by
        rw [Bool.eq_false_iff]; intro hs; exact h ((find_isSome_iff l _).mp hs)
      simp [this, h]

theorem foldl_emit (f : Str → Str) (lines : List Str) (init : Str) :
    lines.foldl (fun processed sourceLine => processed ++ f sourceLine ++ "\n".toList) init
      = init ++ lines.flatMap fun l => f l ++ "\n".toList := by
  induction lines generalizing init with
  | nil => simp
  | cons l ls ih =>
    rw [List.foldl_cons, ih, List.flatMap_cons]
    simp only [List.append_assoc]

theorem indexAfter_some (pre key : Str) (n : Nat) (h : indexAfter pre key = some n) :
    ∃ ds, key = pre ++ ds ∧ ds ≠ [] ∧ (∀ c ∈ ds, c.isDigit = true) ∧ n = decimal ds := by
  unfold indexAfter at h
  split at h
  · rename_i hc
    simp only [Bool.and_eq_true, Bool.not_eq_true', List.isEmpty_eq_false, List.all_eq_true] at hc
    obtain ⟨⟨hp, hne⟩, hall⟩ := hc
    obtain ⟨t, ht⟩ := List.isPrefixOf_iff_prefix.mp hp
    subst ht
    simp only [List.drop_left] at hne hall h
    injection h with h
    exact ⟨t, rfl, hne, hall, h.symm⟩
  · cases h

theorem keyIndex_some (key : Str) (n : Nat) (h : keyIndex key = some n) :
    ∃ pre ∈ indexedPrefixes, ∃ ds, key = pre ++ ds ∧ ds ≠ [] ∧ (∀ c ∈ ds, c.isDigit = true)
      ∧ n = decimal ds := by
  unfold keyIndex at h
  obtain ⟨pre, hpre, hp⟩ := List.exists_of_findSome?_eq_some h
  exact ⟨pre, hpre, indexAfter_some pre key n hp⟩

theorem keyTarget_at_start (ds rest : Str) (hne : ds ≠ [])
    (hall : ∀ c ∈ ds, c.isDigit = true) (hrest : ∀ c, rest.head? = some c → c.isDigit = false) :
    keyTarget ("shader".toList ++ (ds ++ rest)) = some (Field.path, ds) ∧
    keyTarget ("filter_linear".toList ++ (ds ++ rest)) = some (Field.filterLinear, ds) ∧
    keyTarget ("scale_type".toList ++ (ds ++ rest)) = some (Field.scaleType, ds) ∧
    keyTarget ("scale".toList ++ (ds ++ rest)) = some (Field.scale, ds) := by
  have hr := fun pre => regex_search_at_start pre ds rest hne hall hrest
  cases ds with
  | nil => exact absurd rfl hne
  | cons d ds =>
    have hd : d.isDigit = true := hall d (by simp)
    have hd1 : d ≠ 's' := by rintro rfl; revert hd; decide
    have hd2 : d ≠ '_' := by rintro rfl; revert hd; decide
    refine ⟨?_, ?_, ?_, ?_⟩
    · unfold keyTarget
      rw [hr]
      simp [hd1]
    · unfold keyTarget
      rw [hr]
      simp
    · unfold keyTarget
      rw [hr]
      simp
    · unfold keyTarget
      rw [hr]
      simp
      intro h
      exact absurd h.symm hd2

theorem keyTarget_wellFormed (pre ds : Str) (hpre : pre ∈ indexedPrefixes) (hne : ds ≠ [])
    (hall : ∀ c ∈ ds, c.isDigit = true) :
    ∃ fld, keyTarget (pre ++ ds) = some (fld, ds) := by
  obtain ⟨h1, h2, h3, h4⟩ := keyTarget_at_start ds [] hne hall (by simp)
  rw [List.append_nil] at h1 h2 h3 h4
  simp only [indexedPrefixes, List.mem_cons, List.mem_singleton, List.not_mem_nil, or_false] at hpre
  rcases hpre with rfl | rfl | rfl | rfl
  · exact ⟨_, h1⟩
  · exact ⟨_, h2⟩
  · exact ⟨_, h3⟩
  · exact ⟨_, h4⟩

theorem keyTarget_not_indexed (key : Str) (h0 : key ≠ "shaders".toList)
    (h : isIndexedKey key = false) : keyTarget key = none ∧ keyIndex key = none := by
  unfold isIndexedKey at h
  simp only [h0, ne_eq, not_false_eq_true, decide_True, Bool.true_and, indexedPrefixes,
    List.any_cons, List.any_nil, Bool.or_false, Bool.or_eq_false_iff] at h
  obtain ⟨h1, h2, h3, h4⟩ := h
  constructor
  · unfold keyTarget
    simp only [h0, h1, h2, h3, h4, if_false, Bool.false_eq_true]
  · cases hk : keyIndex key with
    | none => rfl
    | some n =>
      obtain ⟨pre, hpre, ds, hkey, -, -, -⟩ := keyIndex_some key n hk
      have hp : pre.isPrefixOf key = true := by
        rw [hkey]; exact List.isPrefixOf_iff_prefix.mpr (List.prefix_append _ _)
      simp only [indexedPrefixes, List.mem_cons, List.mem_singleton, List.not_mem_nil,
        or_false] at hpre
      rcases hpre with rfl | rfl | rfl | rfl
      · rw [h1] at hp; cases hp
      · rw [h2] at hp; cases hp
      · rw [h3] at hp; cases hp
      · rw [h4] at hp; cases hp

theorem dispatch_wellFormed (p q : SlangPreset) (key value : Str)
    (h : dispatch p key value = (q, none))
    (hwf : isIndexedKey key = true → (keyIndex key).isSome = true) :
    q.shaders.length = max p.shaders.length ((keyIndex key).elim 0 (· + 1)) ∧
      ∀ i, keyIndex key ≠ some i → (q.shaders[i]?).getD {} = (p.shaders[i]?).getD {} := by
  rw [dispatch_eq] at h
  by_cases h0 : key = "shaders".toList
  · simp only [h0, if_true] at h
    have hk : keyIndex key = none := by rw [h0]; rfl
    rw [hk]
    cases hs : stoi value with
    | error e => rw [hs] at h; cases h
    | ok n =>
      rw [hs] at h
      injection h with h _
      subst h
      simp
  simp only [h0, if_false] at h
  by_cases hi : isIndexedKey key = true
  · have hsome := hwf hi
    cases hk : keyIndex key with
    | none => rw [hk] at hsome; cases hsome
    | some n =>
      obtain ⟨pre, hpre, ds, hkey, hne, hall, hn⟩ := keyIndex_some key n hk
      obtain ⟨fld, hfld⟩ := keyTarget_wellFormed pre ds hpre hne hall
      rw [← hkey] at hfld
      rw [hfld] at h
      simp only at h
      rw [← hn] at h
      split at h
      · cases h
      split at h
      · cases h
      simp only [Option.elim]
      split at h
      · injection h with h _
        subst h
        simp only [length_assignAt, length_grown, true_and]
        intro i hi
        have hne : i ≠ n := fun hh => hi (by rw [hh])
        rw [getElem?_assignAt_ne _ _ _ _ hne, getD_grown]
      · injection h with h _
        subst h
        simp only [length_grown, true_and]
        intro i _
        rw [getD_grown]
  · have hi' : isIndexedKey key = false := by simpa using hi
    obtain ⟨h1, h2⟩ := keyTarget_not_indexed key h0 hi'
    rw [h1] at h
    injection h with h _
    subst h
    rw [h2]
    simp

theorem parseLines_ok_cons (p q : SlangPreset) (line : Str) (rest : List Str)
    (h : parseLines p (line :: rest) = (q, none)) :
    (((trim line).isEmpty || (trim line).head? = some '#') = true ∧ parseLines p rest = (q, none))
    ∨ (((trim line).isEmpty || (trim line).head? = some '#') = false ∧
        splitKeyValue (trim line) = none ∧ parseLines p rest = (q, none))
    ∨ (((trim line).isEmpty || (trim line).head? = some '#') = false ∧
        ∃ key raw value mid, splitKeyValue (trim line) = some (key, raw) ∧
          stripQuotes raw = .ok value ∧ dispatch p key value = (mid, none) ∧
          parseLines mid rest = (q, none)) := by
  simp only [parseLines] at h
  split at h
  · rename_i hs
    exact Or.inl ⟨hs, h⟩
  · rename_i hs
    have hs' : ((trim line).isEmpty || decide ((trim line).head? = some '#')) = false := by
      simpa using hs
    unfold parseLine at h
    cases hk : splitKeyValue (trim line) with
    | none =>
      rw [hk] at h
      exact Or.inr (Or.inl ⟨hs', rfl, h⟩)
    | some kv =>
      obtain ⟨key, raw⟩ := kv
      rw [hk] at h
      simp only at h
      cases hq : stripQuotes raw with
      | error e => rw [hq] at h; cases h
      | ok value =>
        rw [hq] at h
        simp only at h
        cases hd : dispatch p key value with
        | mk mid f =>
          rw [hd] at h
          cases f with
          | some e => cases h
          | none => exact Or.inr (Or.inr ⟨hs', key, raw, value, mid, rfl, hq, hd, h⟩)

theorem foldr_max_le (l : List Nat) (N : Nat) (h : ∀ n ∈ l, n ≤ N) :
    l.foldr (fun n m => max (n + 1) m) 0 ≤ N + 1 := by
  induction l with
  | nil => simp
  | cons a l ih =>
    have h1 := h a (by simp)
    have h2 := ih (fun n hn => h n (by simp [hn]))
    simp only [List.foldr_cons]
    omega

theorem le_foldr_max (l : List Nat) (N : Nat) (h : N ∈ l) :
    N + 1 ≤ l.foldr (fun n m => max (n + 1) m) 0 := by
  induction l with
  | nil => cases h
  | cons a l ih =>
    simp only [List.foldr_cons]
    rcases List.mem_cons.mp h with rfl | h
    · omega
    · have := ih h; omega

theorem parseLines_wellFormed (ls : List Str) : ∀ (p q : SlangPreset),
    parseLines p ls = (q, none) →
    (∀ key ∈ ls.filterMap lineKey, isIndexedKey key = true → (keyIndex key).isSome = true) →
    q.shaders.length
        = max p.shaders.length
            (((ls.filterMap lineKey).filterMap keyIndex).foldr (fun n m => max (n + 1) m) 0) ∧
      ∀ i, i ∉ (ls.filterMap lineKey).filterMap keyIndex →
        (q.shaders[i]?).getD {} = (p.shaders[i]?).getD {} := by
  induction ls with
  | nil =>
    intro p q h _
    simp only [parseLines] at h
    injection h with h _
    subst h
    simp
  | cons line rest ih =>
    intro p q h hwf
    rcases parseLines_ok_cons p q line rest h with ⟨hs, hr⟩ | ⟨hs, hk, hr⟩ | ⟨hs, key, raw, value, mid, hk, -, hd, hr⟩
    · have hkey : lineKey line = none := by unfold lineKey; rw [if_pos hs]
      rw [List.filterMap_cons_none hkey] at hwf ⊢
      exact ih p q hr hwf
    · have hkey : lineKey line = none := by
        unfold lineKey; rw [if_neg (by simp [hs]), hk]; rfl
      rw [List.filterMap_cons_none hkey] at hwf ⊢
      exact ih p q hr hwf
    · have hkey : lineKey line = some key := by
        unfold lineKey; rw [if_neg (by simp [hs]), hk]; rfl
      rw [List.filterMap_cons_some hkey] at hwf ⊢
      obtain ⟨hlen, hframe⟩ := dispatch_wellFormed p mid key value hd (hwf key (by simp))
      obtain ⟨hlen2, hframe2⟩ := ih mid q hr (fun k hk => hwf k (by simp [hk]))
      cases hki : keyIndex key with
      | none =>
        rw [hki] at hlen hframe
        rw [List.filterMap_cons_none hki]
        simp only [Option.elim] at hlen
        refine ⟨by rw [hlen2, hlen]; omega, ?_⟩
        intro i hi
        rw [hframe2 i hi, hframe i (by simp)]
      | some n =>
        rw [hki] at hlen hframe
        rw [List.filterMap_cons_some hki]
        simp only [Option.elim] at hlen
        refine ⟨by rw [hlen2, hlen, List.foldr_cons]; omega, ?_⟩
        intro i hi
        simp only [List.mem_cons, not_or] at hi
        rw [hframe2 i hi.2, hframe i (by intro hh; injection hh with hh; exact hi.1 hh.symm)]

theorem keyTarget_shaders : keyTarget "shaders".toList = none := by
  unfold keyTarget
  rw [if_pos rfl]

theorem parseLine_eq_dispatch (p : SlangPreset) (line key raw value : Str)
    (hsplit : splitKeyValue line = some (key, raw)) (hstrip : stripQuotes raw = .ok value) :
    parseLine p line = dispatch p key value := by
  unfold parseLine
  rw [hsplit]
  simp only [hstrip]

theorem dispatch_of_target (p : SlangPreset) (key value ds : Str) (fld : Field)
    (hk : keyTarget key = some (fld, ds)) (hN : decimal ds < INT_MAX) :
    dispatch p key value =
      match readField fld value with
      | some w =>
        ({ p with
            shaders := assignAt (grown p.shaders (decimal ds)) (decimal ds) fun s => s.put w },
          none)
      | none =>
        ({ p with shaders := grown p.shaders (decimal ds) },
          if fld = Field.scale then some .invalid_argument else none) := by
  have h0 : key ≠ "shaders".toList := by
    intro h0; rw [h0, keyTarget_shaders] at hk; cases hk
  rw [dispatch_eq, if_neg h0, hk]
  simp only
  rw [if_neg (by omega), if_neg (by omega)]

theorem parseSlangPreset_of_lines (self : SlangParser) (text : Str) (q : SlangPreset)
    (f : Option Fault) (h : parseLines {} (getLines text) = (q, f)) :
    parseSlangPreset self text =
      (⟨q⟩, match f with
        | none => .ok (!q.shaders.isEmpty)
        | some e => .error e) := by
  unfold parseSlangPreset
  simp only [h]
  cases f <;> rfl

theorem parseSlangPreset_ok (self after : SlangParser) (text : Str) (ok : Bool)
    (h : parseSlangPreset self text = (after, .ok ok)) :
    parseLines {} (getLines text) = (after.preset_, none) ∧ ok = !after.preset_.shaders.isEmpty := by
  cases hl : parseLines {} (getLines text) with
  | mk q f =>
    rw [parseSlangPreset_of_lines self text q f hl] at h
    cases f with
    | some e => simp only [Prod.mk.injEq] at h; cases h.2
    | none =>
      simp only [Prod.mk.injEq, Except.ok.injEq] at h
      obtain ⟨h1, h2⟩ := h
      subst h1
      exact ⟨rfl, h2.symm⟩

theorem parseLines_untouched (ls : List Str) : ∀ (p q : SlangPreset),
    parseLines p ls = (q, none) → (∀ key ∈ ls.filterMap lineKey, keyTarget key = none) →
    q.shaders = p.shaders := by
  induction ls with
  | nil =>
    intro p q h _
    simp only [parseLines] at h
    injection h with h _
    rw [h]
  | cons line rest ih =>
    intro p q h hk
    rcases parseLines_ok_cons p q line rest h with ⟨hs, hr⟩ | ⟨hs, hsp, hr⟩ | ⟨hs, key, raw, value, mid, hsp, -, hd, hr⟩
    · have hkey : lineKey line = none := by unfold lineKey; rw [if_pos hs]
      rw [List.filterMap_cons_none hkey] at hk
      exact ih p q hr hk
    · have hkey : lineKey line = none := by
        unfold lineKey; rw [if_neg (by simp [hs]), hsp]; rfl
      rw [List.filterMap_cons_none hkey] at hk
      exact ih p q hr hk
    · have hkey : lineKey line = some key := by
        unfold lineKey; rw [if_neg (by simp [hs]), hsp]; rfl
      rw [List.filterMap_cons_some hkey] at hk
      rw [ih mid q hr (fun k hk' => hk k (by simp [hk']))]
      rw [dispatch_eq, hk key (by simp)] at hd
      split at hd
      · split at hd
        · cases hd
        · injection hd with hd _
          rw [← hd]
      · injection hd with hd _
        rw [hd]

theorem find_eq_none_iff (s pat : Str) : find s pat 0 = none ↔ ¬ pat <:+: s := by
  rw [← find_isSome_iff s pat]
  cases find s pat 0 <;> simp

theorem find_ne_none_iff (s pat : Str) : find s pat 0 ≠ none ↔ pat <:+: s := by
  rw [← find_isSome_iff s pat]
  cases find s pat 0 <;> simp

theorem preprocessGLSL_shape (source : Str) (type : ShaderType) :
    preprocessGLSL source type =
      (if ∃ l ∈ getLines source, "#version".toList <:+: l then []
        else
          match type with
          | ShaderType.Vertex => "#version 100\n".toList
          | ShaderType.Fragment => "#version 100\nprecision mediump float;\n".toList)
        ++ (getLines source).flatMap (fun l => replaceSlangKeywords l ++ "\n".toList) := by
  unfold preprocessGLSL
  simp only [foldl_emit, foldl_hasVersion, Bool.false_or]
  congr 1
  by_cases h : ∃ l ∈ getLines source, "#version".toList <:+: l
  · simp only [decide_eq_true h, Bool.not_true, Bool.false_eq_true, if_false, if_pos h]
  · simp only [decide_eq_false h, Bool.not_false, if_true, if_neg h]
    cases type
    · rfl
    · rfl

theorem preprocessGLSL_ne_nil (source : Str) (type : ShaderType) :
    preprocessGLSL source type ≠ [] := by
  rw [preprocessGLSL_shape]
  cases hl : getLines source with
  | nil =>
    simp only [List.not_mem_nil, false_and, exists_false, if_false, List.flatMap_nil,
      List.append_nil]
    cases type <;> decide
  | cons l ls =>
    intro h
    have h2 := (List.append_eq_nil.mp h).2
    rw [List.flatMap_cons] at h2
    have h3 := (List.append_eq_nil.mp h2).1
    have h4 := (List.append_eq_nil.mp h3).2
    revert h4
    decide

theorem find_last_of_none (ch : Char) (s : Str) : find_last_of ch s = none ↔ ch ∉ s := by
  induction s with
  | nil => simp [find_last_of]
  | cons c cs ih =>
    simp only [find_last_of]
    cases h : find_last_of ch cs with
    | some i =>
      have : ¬ (ch ∉ cs) := fun hn => by rw [ih.mpr hn] at h; cases h
      simp only [List.mem_cons, not_or, reduceCtorEq, false_iff, not_and]
      intro _
      exact this
    | none =>
      have hn := ih.mp h
      by_cases hc : c = ch
      · simp [hc]
      · simp [hc, hn, Ne.symm hc]

theorem find_last_of_some (ch : Char) (s : Str) (i : Nat) (h : find_last_of ch s = some i) :
    s.drop (i + 1) = afterLast ch s ∧ s.take i = beforeLast ch s := by
  induction s generalizing i with
  | nil => simp [find_last_of] at h
  | cons c cs ih =>
    simp only [find_last_of] at h
    cases hcs : find_last_of ch cs with
    | some j =>
      rw [hcs] at h
      injection h with h
      subst h
      have hmem : ch ∈ cs := by
        by_contra hn
        rw [(find_last_of_none ch cs).mpr hn] at hcs
        cases hcs
      obtain ⟨h1, h2⟩ := ih j hcs
      simp only [afterLast, beforeLast, hmem, if_true, List.drop_succ_cons, List.take_succ_cons]
      exact ⟨h1, by rw [h2]⟩
    | none =>
      rw [hcs] at h
      have hn := (find_last_of_none ch cs).mp hcs
      by_cases hc : c = ch
      · simp only [hc, if_true] at h
        injection h with h
        subst h
        simp [afterLast, beforeLast, hn, hc]
      · simp [hc] at h

theorem afterLast_of_not_mem (ch : Char) (s : Str) (h : ch ∉ s) : afterLast ch s = s := by
  cases s with
  | nil => rfl
  | cons c cs =>
    simp only [List.mem_cons, not_or] at h
    simp [afterLast, h.2, Ne.symm h.1]

theorem beforeLast_of_not_mem (ch : Char) (s : Str) (h : ch ∉ s) : beforeLast ch s = s := by
  cases s with
  | nil => rfl
  | cons c cs =>
    simp only [List.mem_cons, not_or] at h
    simp [beforeLast, h.2, Ne.symm h.1]

theorem generatePlaceholderShader_eq (path : Str) (hlen : path.length < 2 ^ 64) :
    generatePlaceholderShader path =
      if "crt".toList <:+: stem path then generateCRTShader
      else if "scanline".toList <:+: stem path then generateScanlineShader
      else if "lcd".toList <:+: stem path then generateLCDShader
      else generatePassthroughShader := by
  have h1 : (match find_last_of '/' path with
      | some lastSlash => substr path (lastSlash + 1) npos
      | none => path) = afterLast '/' path := by
    cases h : find_last_of '/' path with
    | none => exact (afterLast_of_not_mem _ _ ((find_last_of_none _ _).mp h)).symm
    | some i =>
      simp only [substr]
      rw [(find_last_of_some _ _ _ h).1.symm, List.take_of_length_le]
      simp only [List.length_drop, npos]
      omega
  have h2 : ∀ name : Str, (match find_last_of '.' name with
      | some lastDot => substr name 0 lastDot
      | none => name) = beforeLast '.' name := by
    intro name
    cases h : find_last_of '.' name with
    | none => exact (beforeLast_of_not_mem _ _ ((find_last_of_none _ _).mp h)).symm
    | some i =>
      simp only [substr, List.drop_zero]
      exact (find_last_of_some _ _ _ h).2
  unfold generatePlaceholderShader
  simp only [h1, h2, find_ne_none_iff]
  rfl

set_option maxRecDepth 100000 in
theorem placeholders_ne_nil :
    generateCRTShader ≠ [] ∧ generateScanlineShader ≠ [] ∧ generateLCDShader ≠ [] ∧
      generatePassthroughShader ≠ [] := by
  refine ⟨?_, ?_, ?_, ?_⟩ <;> decide

/-! ### Occurrences found by `find` -/

theorem findFrom_some (pat : Str) : ∀ (s : Str) (i n : Nat), findFrom pat s i = some n →
    ∃ k, n = i + k ∧ pat <+: s.drop k ∧ ∀ j, j < k → ¬ pat <+: s.drop j := by
  intro s
  induction s with
  | nil =>
    intro i n h
    simp only [findFrom] at h
    split at h
    · rename_i hp
      injection h with h
      refine ⟨0, by omega, ?_, fun j hj => absurd hj (Nat.not_lt_zero j)⟩
      simp only [List.isEmpty_iff] at hp
      simp [hp]
    · cases h
  | cons c cs ih =>
    intro i n h
    simp only [findFrom] at h
    split at h
    · rename_i hp
      injection h with h
      exact ⟨0, by omega, by simpa using List.isPrefixOf_iff_prefix.mp hp,
        fun j hj => absurd hj (Nat.not_lt_zero j)⟩
    · rename_i hp
      obtain ⟨k, hk, hpre, hmin⟩ := ih (i + 1) n h
      refine ⟨k + 1, by omega, by simpa using hpre, ?_⟩
      intro j hj
      cases j with
      | zero =>
        intro hc
        exact hp (List.isPrefixOf_iff_prefix.mpr (by simpa using hc))
      | succ j =>
        simpa using hmin j (by omega)

theorem findFrom_none (pat : Str) : ∀ (s : Str) (i : Nat),
    findFrom pat s i = none → ∀ j, ¬ pat <+: s.drop j := by
  intro s i h j hp
  have h1 : pat <:+: s := by
    obtain ⟨t, ht⟩ := hp
    exact ⟨s.take j, t, by rw [List.append_assoc, ht, List.take_append_drop]⟩
  have h2 := (findFrom_isSome_iff pat s i).mpr h1
  rw [h] at h2
  cases h2

theorem find_some (s pat : Str) (pos p : Nat) (h : find s pat pos = some p) :
    pos ≤ p ∧ pat <+: s.drop p ∧ ∀ q, pos ≤ q → q < p → ¬ pat <+: s.drop q := by
  unfold find at h
  split at h
  · cases h
  · obtain ⟨k, hk, hpre, hmin⟩ := findFrom_some pat _ _ _ h
    subst hk
    refine ⟨by omega, by simpa [List.drop_drop] using hpre, ?_⟩
    intro q hq1 hq2
    have := hmin (q - pos) (by omega)
    rw [List.drop_drop] at this
    have e : pos + (q - pos) = q := by omega
    rwa [e] at this

theorem find_none (s pat : Str) (pos : Nat) (hpat : pat ≠ []) (h : find s pat pos = none) :
    ∀ q, pos ≤ q → ¬ pat <+: s.drop q := by
  intro q hq
  unfold find at h
  split at h
  · rename_i hlt
    intro hp
    rw [List.drop_eq_nil_of_le (by omega)] at hp
    exact hpat (List.prefix_nil.mp hp)
  · have := findFrom_none pat _ _ h (q - pos)
    rw [List.drop_drop] at this
    have e : pos + (q - pos) = q := by omega
    rwa [e] at this

theorem find_none_of_absent (s pat : Str) (pos : Nat) (h : ¬ pat <:+: s) :
    find s pat pos = none := by
  unfold find
  split
  · rfl
  · cases hf : findFrom pat (s.drop pos) pos with
    | none => rfl
    | some n =>
      exfalso
      apply h
      have h1 := (findFrom_isSome_iff pat (s.drop pos) pos).mp (by rw [hf]; rfl)
      exact h1.trans (List.drop_suffix pos s).isInfix

theorem occ_decompose (s pat : Str) (p : Nat) (hpat : pat ≠ []) (h : pat <+: s.drop p) :
    ∃ A B, s = A ++ (pat ++ B) ∧ A.length = p := by
  obtain ⟨t, ht⟩ := h
  have hlen : p ≤ s.length := by
    by_contra hc
    rw [List.drop_eq_nil_of_le (by omega)] at ht
    exact hpat (List.append_eq_nil.mp ht).1
  refine ⟨s.take p, t, ?_, by simp; omega⟩
  rw [ht, List.take_append_drop]

theorem occ_of_decompose (A pat B : Str) : pat <+: (A ++ (pat ++ B)).drop A.length := by
  rw [List.drop_left]
  exact List.prefix_append _ _

theorem infix_of_prefix_drop (s pat : Str) (p : Nat) (h : pat <+: s.drop p) : pat <:+: s :=
  h.isInfix.trans (List.drop_suffix p s).isInfix

theorem not_infix_of_no_prefix_drop (s pat : Str) (h : ∀ q, ¬ pat <+: s.drop q) :
    ¬ pat <:+: s := by
  rintro ⟨u, v, huv⟩
  apply h u.length
  rw [← huv, List.append_assoc, List.drop_left]
  exact List.prefix_append _ _

/-! ### Occurrences that do not overlap -/

theorem compatible_iff (a b : Str) : compatible a b = true ↔ a <+: b ∨ b <+: a := by
  simp [compatible, List.isPrefixOf_iff_prefix]

theorem compatible_of_append_eq (a b u v : Str) (h : a ++ u = b ++ v) : compatible a b = true := by
  rw [compatible_iff]
  have h1 : a <+: a ++ u := List.prefix_append _ _
  have h2 : b <+: a ++ u := by rw [h]; exact List.prefix_append _ _
  exact List.prefix_or_prefix_of_prefix h1 h2

theorem split_occurrences (A X B U Z V : Str) (hX : X ≠ [])
    (h : A ++ (X ++ B) = U ++ (Z ++ V)) :
    (∃ M, U = A ++ (X ++ M) ∧ B = M ++ (Z ++ V))
    ∨ (∃ M, A = U ++ (Z ++ M) ∧ V = M ++ (X ++ B))
    ∨ (∃ j, j < X.length ∧ U.length = A.length + j ∧ compatible Z (X.drop j) = true)
    ∨ (∃ k, 0 < k ∧ k < Z.length ∧ A.length = U.length + k ∧ compatible (Z.drop k) X = true) := by
  rcases List.append_eq_append_iff.mp h with ⟨a', hU, hXB⟩ | ⟨c', hA, hZV⟩
  · rcases List.append_eq_append_iff.mp hXB.symm with ⟨c', hX', hZV⟩ | ⟨m, ha', hB⟩
    · -- a' ++ c' = X
      by_cases hc : c' = []
      · subst hc
        simp only [List.append_nil] at hX'
        subst hX'
        exact Or.inl ⟨[], by simpa using hU, by simpa using hZV.symm⟩
      · refine Or.inr (Or.inr (Or.inl ⟨a'.length, ?_, ?_, ?_⟩))
        · rw [hX']
          have : 0 < c'.length := List.length_pos.mpr hc
          simp; omega
        · rw [hU]; simp
        · rw [hX', List.drop_left]
          exact compatible_of_append_eq _ _ _ _ hZV
    · exact Or.inl ⟨m, by rw [hU, ha'], hB⟩
  · rcases List.append_eq_append_iff.mp hZV with ⟨m, hc', hV⟩ | ⟨z', hZ, hXB⟩
    · -- hc' : c' = Z ++ m
      exact Or.inr (Or.inl ⟨m, by rw [hA, hc'], hV⟩)
    · -- Z = c' ++ z'
      by_cases hc : c' = []
      · subst hc
        simp only [List.nil_append, List.append_nil] at hZ hA
        subst hZ
        refine Or.inr (Or.inr (Or.inl ⟨0, List.length_pos.mpr hX, by rw [hA]; rfl, ?_⟩))
        simp only [List.drop_zero]
        exact compatible_of_append_eq _ _ _ _ hXB.symm
      · by_cases hz : z' = []
        · subst hz
          simp only [List.append_nil] at hZ
          subst hZ
          exact Or.inr (Or.inl ⟨[], by simpa using hA, by simpa using hXB.symm⟩)
        · refine Or.inr (Or.inr (Or.inr ⟨c'.length, List.length_pos.mpr hc, ?_, ?_, ?_⟩))
          · rw [hZ]
            have : 0 < z'.length := List.length_pos.mpr hz
            simp; omega
          · rw [hA]; simp
          · rw [hZ, List.drop_left]
            exact compatible_of_append_eq _ _ _ _ hXB.symm

theorem apart_spec (z x : Str) (h : apart z x = true) :
    (∀ j, 0 < j → j < x.length → compatible z (x.drop j) = false) ∧
      (∀ k, 0 < k → k < z.length → compatible (z.drop k) x = false) := by
  unfold apart at h
  simp only [Bool.and_eq_true, List.all_eq_true, List.mem_range, Bool.or_eq_true,
    decide_eq_true_eq, Bool.not_eq_true'] at h
  constructor
  · intro j hj0 hj
    rcases h.1 j hj with h0 | h1
    · omega
    · exact h1
  · intro k hk0 hk
    rcases h.2 k hk with h0 | h1
    · omega
    · exact h1

theorem split_apart (A X B U Z V : Str) (hX : X ≠ []) (hap : apart Z X = true)
    (h : A ++ (X ++ B) = U ++ (Z ++ V)) :
    (∃ M, U = A ++ (X ++ M) ∧ B = M ++ (Z ++ V))
    ∨ (∃ M, A = U ++ (Z ++ M) ∧ V = M ++ (X ++ B))
    ∨ (U.length = A.length ∧ compatible Z X = true) := by
  obtain ⟨h1, h2⟩ := apart_spec Z X hap
  rcases split_occurrences A X B U Z V hX h with h | h | ⟨j, hj, hU, hc⟩ | ⟨k, hk0, hk, -, hc⟩
  · exact Or.inl h
  · exact Or.inr (Or.inl h)
  · cases j with
    | zero => exact Or.inr (Or.inr ⟨by omega, by simpa using hc⟩)
    | succ j =>
      rw [h1 (j + 1) (by omega) hj] at hc
      cases hc
  · rw [h2 k hk0 hk] at hc
    cases hc

theorem split_disjoint (A X B U Z V : Str) (hX : X ≠ []) (hd : disjointFrom Z X = true)
    (h : A ++ (X ++ B) = U ++ (Z ++ V)) :
    (∃ M, U = A ++ (X ++ M) ∧ B = M ++ (Z ++ V))
    ∨ (∃ M, A = U ++ (Z ++ M) ∧ V = M ++ (X ++ B)) := by
  unfold disjointFrom at hd
  simp only [Bool.and_eq_true, Bool.not_eq_true'] at hd
  rcases split_apart A X B U Z V hX hd.2 h with h | h | ⟨-, hc⟩
  · exact Or.inl h
  · exact Or.inr h
  · rw [hd.1] at hc
    cases hc

theorem infix_replace (P Y X A B : Str) (hY : Y ≠ []) (hd : disjointFrom P Y = true)
    (h : P <:+: A ++ (Y ++ B)) : P <:+: A ++ (X ++ B) := by
  obtain ⟨U, V, hUV⟩ := h
  rw [List.append_assoc] at hUV
  rcases split_disjoint A Y B U P V hY hd hUV.symm with ⟨M, -, hB⟩ | ⟨M, hA, -⟩
  · exact ⟨A ++ (X ++ M), V, by rw [hB]; simp [List.append_assoc]⟩
  · exact ⟨U, M ++ (X ++ B), by rw [hA]; simp [List.append_assoc]⟩

theorem infix_outside (P Y A B : Str) (hY : Y ≠ []) (hd : disjointFrom P Y = true)
    (h : P <:+: A ++ (Y ++ B)) : P <:+: A ∨ P <:+: B := by
  obtain ⟨U, V, hUV⟩ := h
  rw [List.append_assoc] at hUV
  rcases split_disjoint A Y B U P V hY hd hUV.symm with ⟨M, -, hB⟩ | ⟨M, hA, -⟩
  · exact Or.inr ⟨M, V, by rw [hB]; simp [List.append_assoc]⟩
  · exact Or.inl ⟨U, M, by rw [hA]; simp [List.append_assoc]⟩

/-! ### The four plain loops -/

theorem replace_decomposed (A pat B rep : Str) (len : Nat) (hlen : len ≤ pat.length) :
    replace (A ++ (pat ++ B)) A.length len rep = A ++ (rep ++ (pat.drop len ++ B)) := by
  unfold replace
  rw [List.take_left, List.append_assoc, ← List.drop_drop, List.drop_left,
    List.drop_append_of_le_length hlen]

theorem replaceLoop_induct (pat rep : Str) (len step : Nat) (hpat : pat ≠ [])
    (hlen : len ≤ pat.length) (Φ : Str → Nat → Prop)
    (hstep : ∀ (A B : Str) (pos : Nat), Φ (A ++ (pat ++ B)) pos → pos ≤ A.length →
      (∀ q, pos ≤ q → q < A.length → ¬ pat <+: (A ++ (pat ++ B)).drop q) →
      Φ (A ++ (rep ++ (pat.drop len ++ B))) (A.length + step)) :
    ∀ (fuel : Nat) (s : Str) (pos : Nat), Φ s pos →
      ∃ pos', Φ (replaceLoop pat len rep step fuel s pos) pos' ∧
        (replaceLoopExits pat len rep step fuel s pos = true →
          ∀ q, pos' ≤ q → ¬ pat <+: (replaceLoop pat len rep step fuel s pos).drop q) := by
  intro fuel
  induction fuel with
  | zero =>
    intro s pos h
    exact ⟨pos, h, fun hx => by simp [replaceLoopExits] at hx⟩
  | succ n ih =>
    intro s pos h
    simp only [replaceLoop, replaceLoopExits]
    cases hf : find s pat pos with
    | none => exact ⟨pos, h, fun _ => find_none s pat pos hpat hf⟩
    | some p =>
      obtain ⟨hle, hocc, hmin⟩ := find_some s pat pos p hf
      obtain ⟨A, B, hs, hA⟩ := occ_decompose s pat p hpat hocc
      subst hs hA
      simp only
      rw [replace_decomposed A pat B rep len hlen]
      exact ih _ _ (hstep A B pos h hle hmin)

theorem replaceLoop_exits (pat rep : Str) (len : Nat) (hpat : pat ≠ []) (hlen : len ≤ pat.length)
    (hlen1 : 0 < len) : ∀ (fuel : Nat) (s : Str) (pos : Nat), s.length - pos < fuel →
      replaceLoopExits pat len rep rep.length fuel s pos = true := by
  intro fuel
  induction fuel with
  | zero => intro s pos h; omega
  | succ n ih =>
    intro s pos h
    simp only [replaceLoopExits]
    cases hf : find s pat pos with
    | none => rfl
    | some p =>
      obtain ⟨hle, hocc, -⟩ := find_some s pat pos p hf
      obtain ⟨A, B, hs, hA⟩ := occ_decompose s pat p hpat hocc
      subst hs hA
      simp only
      rw [replace_decomposed A pat B rep len hlen]
      apply ih
      simp only [List.length_append, List.length_drop] at h ⊢
      omega

theorem replaceLoop_of_find_none (pat rep : Str) (len step fuel : Nat) (s : Str) (pos : Nat)
    (h : find s pat pos = none) : replaceLoop pat len rep step fuel s pos = s := by
  cases fuel with
  | zero => rfl
  | succ n => simp only [replaceLoop, h]

theorem replaceLoop_of_absent (pat rep : Str) (len step fuel : Nat) (s : Str) (pos : Nat)
    (h : ¬ pat <:+: s) : replaceLoop pat len rep step fuel s pos = s :=
  replaceLoop_of_find_none pat rep len step fuel s pos (find_none_of_absent s pat pos h)

/-- A property of texts that every replacement of the loop keeps is kept by the loop. -/
theorem replaceLoop_keeps (pat rep : Str) (len step : Nat) (hpat : pat ≠ [])
    (hlen : len ≤ pat.length) (Ψ : Str → Prop)
    (hstep : ∀ A B : Str, Ψ (A ++ (pat ++ B)) → Ψ (A ++ (rep ++ (pat.drop len ++ B))))
    (fuel : Nat) (s : Str) (pos : Nat) (h : Ψ s) :
    Ψ (replaceLoop pat len rep step fuel s pos) := by
  obtain ⟨_, h', -⟩ := replaceLoop_induct pat rep len step hpat hlen (fun t _ => Ψ t)
    (fun A B _ hA _ _ => hstep A B hA) fuel s pos h
  exact h'

theorem replaceLoop_removes (pat rep : Str) (len : Nat) (hpat : pat ≠ []) (hrep : rep ≠ [])
    (hlen : len ≤ pat.length) (hlen1 : 0 < len) (hd : disjointFrom pat rep = true) (s : Str) :
    ¬ pat <:+: replaceLoop pat len rep rep.length (s.length + 1) s 0 := by
  obtain ⟨pos', h1, h2⟩ := replaceLoop_induct pat rep len rep.length hpat hlen
    (fun t pos => ∀ q, q < pos → ¬ pat <+: t.drop q) (by
      intro A B pos hΦ hpos hmin q hq hocc
      obtain ⟨U, V, hs', hU⟩ := occ_decompose _ pat q hpat hocc
      rcases split_disjoint A rep (pat.drop len ++ B) U pat V hrep hd hs' with
        ⟨M, hU', -⟩ | ⟨M, hA', -⟩
      · have := congrArg List.length hU'
        simp only [List.length_append, hU] at this
        omega
      · have hq' : q < A.length := by
          have := congrArg List.length hA'
          simp only [List.length_append, hU] at this
          have : 0 < pat.length := List.length_pos.mpr hpat
          omega
        have hocc' : pat <+: (A ++ (pat ++ B)).drop q := by
          rw [hA', ← hU]
          simp only [List.append_assoc]
          exact occ_of_decompose U pat _
        by_cases hqp : q < pos
        · exact hΦ q hqp hocc'
        · exact hmin q (by omega) hq' hocc')
    (s.length + 1) s 0 (fun q hq => absurd hq (Nat.not_lt_zero q))
  have hex := replaceLoop_exits pat rep len hpat hlen hlen1 (s.length + 1) s 0 (by omega)
  apply not_infix_of_no_prefix_drop
  intro q
  by_cases hq : q < pos'
  · exact h1 q hq
  · exact h2 hex q (by omega)

/-! ### The matching parenthesis -/

theorem fm_open (cs : Str) (i : Nat) (count : Int) :
    findMatchingParenFrom ('(' :: cs) i count =
      if count + 1 = 0 then some i else findMatchingParenFrom cs (i + 1) (count + 1) := rfl

theorem fm_close (cs : Str) (i : Nat) (count : Int) :
    findMatchingParenFrom (')' :: cs) i count =
      if count - 1 = 0 then some i else findMatchingParenFrom cs (i + 1) (count - 1) := rfl

theorem fm_other (c : Char) (cs : Str) (i : Nat) (count : Int) (h1 : c ≠ '(') (h2 : c ≠ ')') :
    findMatchingParenFrom (c :: cs) i count =
      if count = 0 then some i else findMatchingParenFrom cs (i + 1) count := by
  simp only [findMatchingParenFrom, h1, h2, if_false]

theorem paren_cases (c : Char) : c = '(' ∨ c = ')' ∨ (c ≠ '(' ∧ c ≠ ')') := by
  by_cases h1 : c = '('
  · exact Or.inl h1
  · by_cases h2 : c = ')'
    · exact Or.inr (Or.inl h2)
    · exact Or.inr (Or.inr ⟨h1, h2⟩)

theorem fm_shift : ∀ (t : Str) (i : Nat) (count : Int),
    findMatchingParenFrom t i count = (findMatchingParenFrom t 0 count).map (· + i) := by
  intro t
  induction t with
  | nil => intro i count; rfl
  | cons c cs ih =>
    intro i count
    have key : ∀ cnt : Int, (findMatchingParenFrom cs (i + 1) cnt)
        = (findMatchingParenFrom cs (0 + 1) cnt).map (· + i) := by
      intro cnt
      rw [ih (i + 1), ih (0 + 1)]
      cases findMatchingParenFrom cs 0 cnt with
      | none => rfl
      | some e => simp only [Option.map_some', Option.some.injEq]; omega
    rcases paren_cases c with rfl | rfl | ⟨h1, h2⟩
    · rw [fm_open, fm_open]
      split
      · simp
      · exact key _
    · rw [fm_close, fm_close]
      split
      · simp
      · exact key _
    · rw [fm_other c cs _ _ h1 h2, fm_other c cs _ _ h1 h2]
      split
      · simp
      · exact key _

theorem fm_none_shift (t : Str) (i j : Nat) (count : Int)
    (h : findMatchingParenFrom t i count = none) : findMatchingParenFrom t j count = none := by
  rw [fm_shift] at h ⊢
  cases hh : findMatchingParenFrom t 0 count with
  | none => rfl
  | some e => rw [hh] at h; cases h

theorem fm_some_shift (t : Str) (i j e : Nat) (count : Int)
    (h : findMatchingParenFrom t i count = some (i + e)) :
    findMatchingParenFrom t j count = some (j + e) := by
  rw [fm_shift] at h ⊢
  cases hh : findMatchingParenFrom t 0 count with
  | none => rw [hh] at h; cases h
  | some e' =>
    rw [hh] at h
    simp only [Option.map_some', Option.some.injEq] at h ⊢
    omega

theorem fm_isSome_shift (t : Str) (i j : Nat) (count : Int) :
    (findMatchingParenFrom t i count).isSome = (findMatchingParenFrom t j count).isSome := by
  rw [fm_shift t i, fm_shift t j]
  cases findMatchingParenFrom t 0 count <;> rfl

/-- The place found holds a `)`. -/
theorem fm_decompose : ∀ (t : Str) (i e : Nat) (count : Int), 1 ≤ count →
    findMatchingParenFrom t i count = some e →
    ∃ expr B, t = expr ++ (")".toList ++ B) ∧ e = i + expr.length := by
  intro t
  induction t with
  | nil => intro i e count _ h; cases h
  | cons c cs ih =>
    intro i e count hc h
    rcases paren_cases c with rfl | rfl | ⟨h1, h2⟩
    · rw [fm_open, if_neg (by omega)] at h
      obtain ⟨expr, B, ht, he⟩ := ih (i + 1) e (count + 1) (by omega) h
      exact ⟨'(' :: expr, B, by rw [ht]; rfl, by simp only [List.length_cons]; omega⟩
    · rw [fm_close] at h
      by_cases h0 : count - 1 = 0
      · rw [if_pos h0] at h
        injection h with h
        exact ⟨[], cs, rfl, by simp only [List.length_nil]; omega⟩
      · rw [if_neg h0] at h
        obtain ⟨expr, B, ht, he⟩ := ih (i + 1) e (count - 1) (by omega) h
        exact ⟨')' :: expr, B, by rw [ht]; rfl, by simp only [List.length_cons]; omega⟩
    · rw [fm_other c cs _ _ h1 h2, if_neg (by omega)] at h
      obtain ⟨expr, B, ht, he⟩ := ih (i + 1) e count hc h
      exact ⟨c :: expr, B, by rw [ht]; rfl, by simp only [List.length_cons]; omega⟩

theorem fm_mono : ∀ (t : Str) (i j : Nat) (c₁ c₂ : Int), 1 ≤ c₁ → c₁ ≤ c₂ →
    (findMatchingParenFrom t i c₂).isSome = true → (findMatchingParenFrom t j c₁).isSome = true := by
  intro t
  induction t with
  | nil => intro i j c₁ c₂ _ _ h; cases h
  | cons c cs ih =>
    intro i j c₁ c₂ h1 h12 h
    rcases paren_cases c with rfl | rfl | ⟨hp, hq⟩
    · rw [fm_open, if_neg (by omega)] at h ⊢
      exact ih _ _ _ _ (by omega) (by omega) h
    · rw [fm_close] at h ⊢
      by_cases h0 : c₁ - 1 = 0
      · rw [if_pos h0]; rfl
      · rw [if_neg h0]
        rw [if_neg (by omega)] at h
        exact ih _ _ _ _ (by omega) (by omega) h
    · rw [fm_other c cs _ _ hp hq, if_neg (by omega)] at h ⊢
      exact ih _ _ _ _ h1 h12 h

/-- Characters that are no parentheses in front of a text do not change the search. -/
theorem fm_append_plain : ∀ (u t : Str) (i : Nat) (count : Int), 1 ≤ count →
    (∀ c ∈ u, c ≠ '(' ∧ c ≠ ')') →
    findMatchingParenFrom (u ++ t) i count = findMatchingParenFrom t (i + u.length) count := by
  intro u
  induction u with
  | nil => intro t i count _ _; rfl
  | cons c cs ih =>
    intro t i count hc hu
    have h1 := hu c (by simp)
    rw [List.cons_append, fm_other c _ _ _ h1.1 h1.2, if_neg (by omega),
      ih t (i + 1) count hc (fun d hd => hu d (by simp [hd]))]
    simp only [List.length_cons]
    congr 1
    omega

theorem fm_parens : ∀ (t : Str) (i j : Nat) (count : Int), 1 ≤ count →
    (findMatchingParenFrom t i count).isSome = (findMatchingParenFrom (parens t) j count).isSome := by
  intro t
  induction t with
  | nil => intro i j count _; rfl
  | cons c cs ih =>
    intro i j count hc
    rcases paren_cases c with rfl | rfl | ⟨h1, h2⟩
    · have hp : parens ('(' :: cs) = '(' :: parens cs := by simp [parens]
      rw [hp, fm_open, fm_open, if_neg (by omega), if_neg (by omega)]
      exact ih _ _ _ (by omega)
    · have hp : parens (')' :: cs) = ')' :: parens cs := by simp [parens]
      rw [hp, fm_close, fm_close]
      by_cases h0 : count - 1 = 0
      · rw [if_pos h0, if_pos h0]
        rfl
      · rw [if_neg h0, if_neg h0]
        exact ih _ _ _ (by omega)
    · have hp : parens (c :: cs) = parens cs := by simp [parens, h1, h2]
      rw [hp, fm_other c cs _ _ h1 h2, if_neg (by omega)]
      exact ih _ _ _ hc

theorem fm_isSome_of_parens_eq (t t' : Str) (i j : Nat) (h : parens t = parens t') :
    (findMatchingParenFrom t i 1).isSome = (findMatchingParenFrom t' j 1).isSome := by
  rw [fm_parens t i 0 1 (by omega), fm_parens t' j 0 1 (by omega), h]

theorem fm_none_of_parens_eq (t t' : Str) (i j : Nat) (h : parens t = parens t')
    (hn : findMatchingParenFrom t i 1 = none) : findMatchingParenFrom t' j 1 = none := by
  have := fm_isSome_of_parens_eq t t' i j h
  rw [hn] at this
  cases h' : findMatchingParenFrom t' j 1 with
  | none => rfl
  | some e => rw [h'] at this; cases this

theorem parens_append (a b : Str) : parens (a ++ b) = parens a ++ parens b := by
  simp [parens]

theorem saturate_plain : ∀ c ∈ "saturate".toList, c ≠ '(' ∧ c ≠ ')' := by decide

/-- A `saturate(` inside the text up to the matching parenthesis has a
matching parenthesis of its own. -/
theorem fm_nested : ∀ (M N : Str) (i e : Nat) (count : Int), 1 ≤ count →
    findMatchingParenFrom (M ++ ("saturate(".toList ++ N)) i count = some e →
    i + M.length + 9 ≤ e → (findMatchingParenFrom N 0 1).isSome = true := by
  intro M
  induction M with
  | nil =>
    intro N i e count hc h _
    have hs : "saturate(".toList ++ N = "saturate".toList ++ ('(' :: N) := rfl
    rw [List.nil_append, hs, fm_append_plain _ _ _ _ hc saturate_plain, fm_open,
      if_neg (by omega)] at h
    exact fm_mono N _ 0 1 (count + 1) (by omega) (by omega) (by rw [h]; rfl)
  | cons c cs ih =>
    intro N i e count hc h he
    simp only [List.length_cons] at he
    rw [List.cons_append] at h
    rcases paren_cases c with rfl | rfl | ⟨h1, h2⟩
    · rw [fm_open, if_neg (by omega)] at h
      exact ih N (i + 1) e (count + 1) (by omega) h (by omega)
    · rw [fm_close] at h
      by_cases h0 : count - 1 = 0
      · rw [if_pos h0] at h
        injection h with h
        omega
      · rw [if_neg h0] at h
        exact ih N (i + 1) e (count - 1) (by omega) h (by omega)
    · rw [fm_other c _ _ _ h1 h2, if_neg (by omega)] at h
      exact ih N (i + 1) e count hc h (by omega)

/-! ### The `saturate(` loop -/

theorem findMatchingParen_decomposed (A V : Str) :
    findMatchingParen (A ++ ("saturate(".toList ++ V)) (A.length + 9)
      = findMatchingParenFrom V (A.length + 9) 1 := by
  unfold findMatchingParen
  rw [List.drop_append, List.drop_left' (by rfl)]

theorem saturate_replace_decomposed (A expr B : Str) :
    replace (A ++ ("saturate(".toList ++ (expr ++ (")".toList ++ B)))) A.length
        (A.length + 9 + expr.length - A.length + 1)
        ("clamp(".toList
          ++ substr (A ++ ("saturate(".toList ++ (expr ++ (")".toList ++ B)))) (A.length + 9)
              (A.length + 9 + expr.length - A.length - 9)
          ++ ", 0.0, 1.0)".toList)
      = A ++ ("clamp(".toList ++ (expr ++ (", 0.0, 1.0)".toList ++ B))) := by
  have e1 : A.length + 9 + expr.length - A.length - 9 = expr.length := by omega
  have e2 : A.length + 9 + expr.length - A.length + 1 = 9 + (expr.length + 1) := by omega
  rw [e1, e2]
  unfold replace substr
  rw [List.take_left, List.drop_append, List.drop_left' (by rfl), List.take_left,
    List.drop_append, ← List.drop_drop, List.drop_left' (by rfl), ← List.drop_drop, List.drop_left]
  simp only [List.append_assoc]
  rfl

theorem saturateLoop_induct (Φ : Str → Nat → Prop)
    (hkeep : ∀ (A V : Str) (pos : Nat), Φ (A ++ ("saturate(".toList ++ V)) pos → pos ≤ A.length →
      (∀ q, pos ≤ q → q < A.length →
        ¬ "saturate(".toList <+: (A ++ ("saturate(".toList ++ V)).drop q) →
      findMatchingParenFrom V 0 1 = none → Φ (A ++ ("saturate(".toList ++ V)) (A.length + 1))
    (hrepl : ∀ (A expr B : Str) (pos : Nat),
      Φ (A ++ ("saturate(".toList ++ (expr ++ (")".toList ++ B)))) pos → pos ≤ A.length →
      (∀ q, pos ≤ q → q < A.length →
        ¬ "saturate(".toList <+:
          (A ++ ("saturate(".toList ++ (expr ++ (")".toList ++ B)))).drop q) →
      findMatchingParenFrom (expr ++ (")".toList ++ B)) 0 1 = some expr.length →
      Φ (A ++ ("clamp(".toList ++ (expr ++ (", 0.0, 1.0)".toList ++ B)))) (A.length + 1)) :
    ∀ (fuel : Nat) (s : Str) (pos : Nat), Φ s pos →
      ∃ pos', Φ (saturateLoop fuel s pos) pos' ∧
        (saturateLoopExits fuel s pos = true →
          ∀ q, pos' ≤ q → ¬ "saturate(".toList <+: (saturateLoop fuel s pos).drop q) := by
  intro fuel
  induction fuel with
  | zero =>
    intro s pos h
    exact ⟨pos, h, fun hx => by simp [saturateLoopExits] at hx⟩
  | succ n ih =>
    intro s pos h
    simp only [saturateLoop, saturateLoopExits]
    cases hf : find s "saturate(".toList pos with
    | none => exact ⟨pos, h, fun _ => find_none s _ pos (by decide) hf⟩
    | some p =>
      obtain ⟨hle, hocc, hmin⟩ := find_some s _ pos p hf
      obtain ⟨A, V, hs, hA⟩ := occ_decompose s _ p (by decide) hocc
      subst hs hA
      simp only
      rw [findMatchingParen_decomposed]
      cases hm : findMatchingParenFrom V (A.length + 9) 1 with
      | none =>
        simp only
        exact ih _ _ (hkeep A V pos h hle hmin (fm_none_shift V _ 0 1 hm))
      | some e =>
        obtain ⟨expr, B, hV, he⟩ := fm_decompose V _ e 1 (by omega) hm
        subst hV he
        simp only
        rw [saturate_replace_decomposed]
        exact ih _ _ (hrepl A expr B pos h hle hmin (by
          have := fm_some_shift _ (A.length + 9) 0 expr.length 1 hm
          simpa using this))

/-! ### Counting parentheses -/

theorem take_succ_cons_count (x a : Char) (t : Str) (k : Nat) :
    ((x :: t).take (k + 1)).count a = (if x = a then 1 else 0) + (t.take k).count a := by
  rw [List.take_succ_cons, List.count_cons]
  by_cases h : x = a
  · simp [h]; omega
  · simp [h]

/-- The search, started with `count`, runs through a text whose prefixes keep
the count above zero. -/
theorem fm_through : ∀ (E t : Str) (i : Nat) (count : Int), 1 ≤ count →
    (∀ k, 1 ≤ count + ((E.take k).count '(' : Int) - ((E.take k).count ')' : Int)) →
    findMatchingParenFrom (E ++ t) i count
      = findMatchingParenFrom t (i + E.length) (count + (E.count '(' : Int) - (E.count ')' : Int)) := by
  intro E
  induction E with
  | nil => intro t i count _ _; simp
  | cons x E ih =>
    intro t i count hc hk
    have h1 := hk 1
    have hk' : ∀ (a b : Int), (∀ k, ((x :: E).take (k + 1)).count '(' = a + (E.take k).count '(')
        → True := fun _ _ _ => trivial
    rw [List.cons_append]
    have hl : i + (x :: E).length = (i + 1) + E.length := by simp only [List.length_cons]; omega
    rcases paren_cases x with rfl | rfl | ⟨hp, hq⟩
    · rw [fm_open, if_neg (by omega), ih t (i + 1) (count + 1) (by omega), hl]
      · congr 1
        simp only [List.count_cons_self, List.count_cons_of_ne (show ')' ≠ '(' by decide)]
        push_cast
        omega
      · intro k
        have := hk (k + 1)
        rw [take_succ_cons_count, take_succ_cons_count] at this
        simp only [if_true, if_neg (show ¬ '(' = ')' by decide)] at this
        push_cast at this
        omega
    · have h1' : 1 ≤ count - 1 := by
        rw [show (1 : Nat) = 0 + 1 from rfl, take_succ_cons_count, take_succ_cons_count] at h1
        simp only [if_true, if_neg (show ¬ ')' = '(' by decide), List.take_zero, List.count_nil] at h1
        push_cast at h1
        omega
      rw [fm_close, if_neg (by omega), ih t (i + 1) (count - 1) h1', hl]
      · congr 1
        simp only [List.count_cons_self, List.count_cons_of_ne (show '(' ≠ ')' by decide)]
        push_cast
        omega
      · intro k
        have := hk (k + 1)
        rw [take_succ_cons_count, take_succ_cons_count] at this
        simp only [if_true, if_neg (show ¬ ')' = '(' by decide)] at this
        push_cast at this
        omega
    · rw [fm_other x _ _ _ hp hq, if_neg (by omega), ih t (i + 1) count hc, hl]
      · congr 1
        simp only [List.count_cons_of_ne (Ne.symm hp), List.count_cons_of_ne (Ne.symm hq)]
      · intro k
        have := hk (k + 1)
        rw [take_succ_cons_count, take_succ_cons_count] at this
        simp only [if_neg hp, if_neg hq] at this
        push_cast at this
        omega

theorem balanced_iff (t : Str) : balanced t = true ↔
    (∀ k, (t.take k).count ')' ≤ (t.take k).count '(') ∧ t.count '(' = t.count ')' := by
  unfold balanced
  simp only [Bool.and_eq_true, List.all_eq_true, List.mem_range, decide_eq_true_eq]
  constructor
  · rintro ⟨h1, h2⟩
    refine ⟨fun k => ?_, h2⟩
    by_cases hk : k < t.length + 1
    · exact h1 k hk
    · rw [List.take_of_length_le (by omega)]
      have := h1 t.length (by omega)
      rwa [List.take_length] at this
  · rintro ⟨h1, h2⟩
    exact ⟨fun k _ => h1 k, h2⟩

theorem hasClosing_iff (t : Str) : hasClosing t = true ↔
    ∃ k, (t.take k).count '(' < (t.take k).count ')' := by
  unfold hasClosing
  simp only [List.any_eq_true, List.mem_range, decide_eq_true_eq]
  constructor
  · rintro ⟨k, -, hk⟩
    exact ⟨k, hk⟩
  · rintro ⟨k, hk⟩
    by_cases hlt : k < t.length + 1
    · exact ⟨k, hlt, hk⟩
    · refine ⟨t.length, by omega, ?_⟩
      rw [List.take_of_length_le (by omega)] at hk
      rwa [List.take_length]

theorem fm_balanced (E B : Str) (i : Nat) (h : balanced E = true) :
    findMatchingParenFrom (E ++ (")".toList ++ B)) i 1 = some (i + E.length) := by
  rw [balanced_iff] at h
  rw [fm_through E _ i 1 (by omega)]
  · have : (1 : Int) + (E.count '(' : Int) - (E.count ')' : Int) = 1 := by
      rw [h.2]; omega
    rw [this]
    rfl
  · intro k
    have := h.1 k
    omega

/-- The search ends exactly where a prefix holds `count` more `)` than `(`. -/
theorem fm_isSome_iff : ∀ (t : Str) (i : Nat) (count : Int), 1 ≤ count →
    ((findMatchingParenFrom t i count).isSome = true ↔
      ∃ k, ((t.take k).count '(' : Int) + count ≤ ((t.take k).count ')' : Int)) := by
  intro t
  induction t with
  | nil =>
    intro i count hc
    simp only [findMatchingParenFrom, Option.isSome_none, Bool.false_eq_true, List.take_nil,
      List.count_nil, false_iff, not_exists]
    intro k
    push_cast
    omega
  | cons x t ih =>
    intro i count hc
    have split : ∀ (P : Nat → Prop), (∃ k, P k) ↔ P 0 ∨ ∃ k, P (k + 1) := by
      intro P
      constructor
      · rintro ⟨k, hk⟩
        cases k with
        | zero => exact Or.inl hk
        | succ k => exact Or.inr ⟨k, hk⟩
      · rintro (h | ⟨k, hk⟩)
        · exact ⟨0, h⟩
        · exact ⟨k + 1, hk⟩
    rw [split]
    have h0 : ¬ ((((x :: t).take 0).count '(' : Int) + count ≤ (((x :: t).take 0).count ')' : Int)) := by
      simp only [List.take_zero, List.count_nil]
      push_cast
      omega
    simp only [h0, false_or, take_succ_cons_count]
    rcases paren_cases x with rfl | rfl | ⟨hp, hq⟩
    · rw [fm_open, if_neg (by omega), ih (i + 1) (count + 1) (by omega)]
      simp only [if_true, if_neg (show ¬ '(' = ')' by decide)]
      constructor <;> rintro ⟨k, hk⟩ <;> refine ⟨k, ?_⟩ <;> push_cast at hk ⊢ <;> omega
    · rw [fm_close]
      simp only [if_true, if_neg (show ¬ ')' = '(' by decide)]
      by_cases hz : count - 1 = 0
      · rw [if_pos hz]
        simp only [Option.isSome_some, true_iff]
        refine ⟨0, ?_⟩
        simp only [List.take_zero, List.count_nil]
        push_cast
        omega
      · rw [if_neg hz, ih (i + 1) (count - 1) (by omega)]
        constructor <;> rintro ⟨k, hk⟩ <;> refine ⟨k, ?_⟩ <;> push_cast at hk ⊢ <;> omega
    · rw [fm_other x _ _ _ hp hq, if_neg (by omega), ih (i + 1) count hc]
      simp only [if_neg hp, if_neg hq]
      constructor <;> rintro ⟨k, hk⟩ <;> refine ⟨k, ?_⟩ <;> push_cast at hk ⊢ <;> omega

theorem fm_isSome_iff_hasClosing (t : Str) (i : Nat) :
    (findMatchingParenFrom t i 1).isSome = true ↔ hasClosing t = true := by
  rw [fm_isSome_iff t i 1 (by omega), hasClosing_iff]
  constructor <;> rintro ⟨k, hk⟩ <;> exact ⟨k, by omega⟩

theorem fm_none_iff_not_hasClosing (t : Str) (i : Nat) :
    findMatchingParenFrom t i 1 = none ↔ hasClosing t = false := by
  rw [← Bool.not_eq_true, ← fm_isSome_iff_hasClosing t i]
  cases findMatchingParenFrom t i 1 <;> simp

theorem fm_some_counts : ∀ (t : Str) (i e : Nat) (count : Int), 1 ≤ count →
    findMatchingParenFrom t i count = some e →
    i ≤ e ∧
      (∀ k, k ≤ e - i →
        1 ≤ count + ((t.take k).count '(' : Int) - ((t.take k).count ')' : Int)) ∧
      count + ((t.take (e - i + 1)).count '(' : Int) - ((t.take (e - i + 1)).count ')' : Int) = 0 := by
  intro t
  induction t with
  | nil => intro i e count _ h; simp [findMatchingParenFrom] at h
  | cons x t ih =>
    intro i e count hc h
    have key : ∀ (c' : Int) (a b : Int), 1 ≤ c' →
        findMatchingParenFrom t (i + 1) c' = some e →
        (∀ k, (((x :: t).take (k + 1)).count '(' : Int) = a + ((t.take k).count '(' : Int)) →
        (∀ k, (((x :: t).take (k + 1)).count ')' : Int) = b + ((t.take k).count ')' : Int)) →
        count + a - b = c' →
        i ≤ e ∧
          (∀ k, k ≤ e - i →
            1 ≤ count + (((x :: t).take k).count '(' : Int) - (((x :: t).take k).count ')' : Int)) ∧
          count + (((x :: t).take (e - i + 1)).count '(' : Int)
            - (((x :: t).take (e - i + 1)).count ')' : Int) = 0 := by
      intro c' a b hc' h' ha hb hab
      obtain ⟨h1, h2, h3⟩ := ih (i + 1) e c' hc' h'
      refine ⟨by omega, ?_, ?_⟩
      · intro k hk
        cases k with
        | zero => simp only [List.take_zero, List.count_nil]; push_cast; omega
        | succ k =>
          rw [ha, hb]
          have := h2 k (by omega)
          omega
      · have he : e - i + 1 = (e - (i + 1) + 1) + 1 := by omega
        rw [he, ha, hb]
        omega
    rcases paren_cases x with rfl | rfl | ⟨hp, hq⟩
    · rw [fm_open, if_neg (by omega)] at h
      refine key (count + 1) 1 0 (by omega) h ?_ ?_ (by omega)
      · intro k; rw [take_succ_cons_count]; simp
      · intro k; rw [take_succ_cons_count]; simp
    · rw [fm_close] at h
      by_cases hz : count - 1 = 0
      · rw [if_pos hz] at h
        cases h
        refine ⟨le_refl _, ?_, ?_⟩
        · intro k hk
          have : k = 0 := by omega
          subst this
          simp only [List.take_zero, List.count_nil]; push_cast; omega
        · rw [Nat.sub_self, show 0 + 1 = 0 + 1 from rfl, take_succ_cons_count, take_succ_cons_count]
          simp only [List.take_zero, List.count_nil, if_true,
            if_neg (show ¬ ')' = '(' by decide)]
          push_cast
          omega
      · rw [if_neg hz] at h
        refine key (count - 1) 0 1 (by omega) h ?_ ?_ (by omega)
        · intro k; rw [take_succ_cons_count]; simp
        · intro k; rw [take_succ_cons_count]; simp
    · rw [fm_other x _ _ _ hp hq, if_neg (by omega)] at h
      refine key count 0 0 hc h ?_ ?_ (by omega)
      · intro k; rw [take_succ_cons_count]; simp [hp]
      · intro k; rw [take_succ_cons_count]; simp [hq]

theorem fm_some_balanced (expr B : Str) (i : Nat)
    (h : findMatchingParenFrom (expr ++ (")".toList ++ B)) i 1 = some (i + expr.length)) :
    balanced expr = true := by
  rw [balanced_iff]
  obtain ⟨-, h2, h3⟩ := fm_some_counts _ i _ 1 (by omega) h
  have e1 : i + expr.length - i = expr.length := by omega
  rw [e1] at h2 h3
  constructor
  · intro k
    by_cases hk : k ≤ expr.length
    · have := h2 k hk
      rw [List.take_append_of_le_length hk] at this
      omega
    · have := h2 expr.length (le_refl _)
      rw [List.take_left] at this
      rw [List.take_of_length_le (by omega)]
      omega
  · have e2 : (expr ++ (")".toList ++ B)).take (expr.length + 1) = expr ++ [')'] := by
      rw [List.take_append]
      rfl
    rw [e2] at h3
    simp only [List.count_append, List.count_singleton, beq_self_eq_true, if_true] at h3
    have : List.count '(' [')'] = 0 := by decide
    push_cast at h3
    simp at h3
    omega

/-! ### The `saturate(` loop: exit, kept properties, what is left -/

theorem count_drop_le (a : Char) (s : Str) (p q : Nat) (h : p ≤ q) :
    (s.drop q).count a ≤ (s.drop p).count a := by
  have : s.drop q = (s.drop p).drop (q - p) := by
    rw [List.drop_drop]
    congr 1
    omega
  rw [this]
  exact (List.drop_sublist _ _).count_le a

theorem saturateLoop_exits : ∀ (fuel : Nat) (s : Str) (pos : Nat),
    (s.drop pos).count 's' < fuel → saturateLoopExits fuel s pos = true := by
  intro fuel
  induction fuel with
  | zero => intro s pos h; omega
  | succ n ih =>
    intro s pos h
    simp only [saturateLoopExits]
    cases hf : find s "saturate(".toList pos with
    | none => rfl
    | some p =>
      obtain ⟨hle, hocc, -⟩ := find_some s _ pos p hf
      obtain ⟨A, V, hs, hA⟩ := occ_decompose s _ p (by decide) hocc
      subst hs hA
      simp only
      have h0 := count_drop_le 's' (A ++ ("saturate(".toList ++ V)) pos A.length hle
      rw [List.drop_left] at h0
      have hS : ("saturate(".toList ++ V).count 's' = 1 + V.count 's' := by
        rw [List.count_append]
        rfl
      rw [findMatchingParen_decomposed]
      cases hm : findMatchingParenFrom V (A.length + 9) 1 with
      | none =>
        simp only
        apply ih
        have : (A ++ ("saturate(".toList ++ V)).drop (A.length + 1) = "aturate(".toList ++ V := by
          rw [← List.drop_drop, List.drop_left]
          rfl
        rw [this, List.count_append, show "aturate(".toList.count 's' = 0 from rfl]
        omega
      | some e =>
        obtain ⟨expr, B, hV, he⟩ := fm_decompose V _ e 1 (by omega) hm
        subst hV he
        simp only
        rw [saturate_replace_decomposed]
        apply ih
        have : (A ++ ("clamp(".toList ++ (expr ++ (", 0.0, 1.0)".toList ++ B)))).drop (A.length + 1)
            = "lamp(".toList ++ (expr ++ (", 0.0, 1.0)".toList ++ B)) := by
          rw [← List.drop_drop, List.drop_left]
          rfl
        rw [this]
        simp only [List.count_append] at hS h0 ⊢
        rw [show "lamp(".toList.count 's' = 0 from rfl,
          show ", 0.0, 1.0)".toList.count 's' = 0 from rfl]
        rw [show ")".toList.count 's' = 0 from rfl] at hS h0
        omega

theorem saturateLoop_exits_start (s : Str) : saturateLoopExits (s.length + 1) s 0 = true := by
  apply saturateLoop_exits
  have := List.count_le_length 's' s
  simp only [List.drop_zero]
  omega

theorem saturateLoop_of_find_none (fuel : Nat) (s : Str) (pos : Nat)
    (h : find s "saturate(".toList pos = none) : saturateLoop fuel s pos = s := by
  cases fuel with
  | zero => rfl
  | succ n => simp only [saturateLoop, h]

theorem saturateLoop_of_absent (fuel : Nat) (s : Str) (pos : Nat)
    (h : ¬ "saturate(".toList <:+: s) : saturateLoop fuel s pos = s :=
  saturateLoop_of_find_none fuel s pos (find_none_of_absent s _ pos h)

/-- A property of texts that every replacement of the loop keeps is kept by the loop. -/
theorem saturateLoop_keeps (Ψ : Str → Prop)
    (hstep : ∀ A expr B : Str,
      findMatchingParenFrom (expr ++ (")".toList ++ B)) 0 1 = some expr.length →
      Ψ (A ++ ("saturate(".toList ++ (expr ++ (")".toList ++ B)))) →
      Ψ (A ++ ("clamp(".toList ++ (expr ++ (", 0.0, 1.0)".toList ++ B)))))
    (fuel : Nat) (s : Str) (pos : Nat) (h : Ψ s) : Ψ (saturateLoop fuel s pos) := by
  obtain ⟨_, h', -⟩ := saturateLoop_induct (fun t _ => Ψ t)
    (fun A V _ hA _ _ _ => hA) (fun A expr B _ hA _ _ hm => hstep A expr B hm hA) fuel s pos h
  exact h'

/-- The loop changes nothing in a text none of whose `saturate(` has a
matching closing parenthesis. -/
theorem saturateLoop_of_unmatched : ∀ (fuel : Nat) (s : Str) (pos : Nat),
    (∀ A V : Str, s = A ++ ("saturate(".toList ++ V) → findMatchingParenFrom V 0 1 = none) →
    saturateLoop fuel s pos = s := by
  intro fuel
  induction fuel with
  | zero => intro s pos _; rfl
  | succ n ih =>
    intro s pos h
    simp only [saturateLoop]
    cases hf : find s "saturate(".toList pos with
    | none => rfl
    | some p =>
      obtain ⟨-, hocc, -⟩ := find_some s _ pos p hf
      obtain ⟨A, V, hs, hA⟩ := occ_decompose s _ p (by decide) hocc
      subst hA
      have hV := h A V hs
      subst hs
      simp only
      rw [findMatchingParen_decomposed, fm_none_shift V 0 (A.length + 9) 1 hV]
      exact ih _ _ h

theorem parens_saturate_step (M expr B : Str) :
    parens (M ++ ("clamp(".toList ++ (expr ++ (", 0.0, 1.0)".toList ++ B))))
      = parens (M ++ ("saturate(".toList ++ (expr ++ (")".toList ++ B)))) := by
  simp only [parens_append]
  rfl

/-- What the loop leaves: no `saturate(` with a matching closing parenthesis. -/
theorem saturateLoop_unmatched (s : Str) (A V : Str)
    (h : saturateLoop (s.length + 1) s 0 = A ++ ("saturate(".toList ++ V)) :
    findMatchingParenFrom V 0 1 = none := by
  obtain ⟨pos', h1, h2⟩ := saturateLoop_induct
    (fun t pos => ∀ A V : Str, t = A ++ ("saturate(".toList ++ V) → A.length < pos →
      findMatchingParenFrom V 0 1 = none)
    (by
      intro A₀ V₀ pos hΦ hpos hmin hm A V hs hA
      by_cases hlt : A.length < pos
      · exact hΦ A V hs hlt
      · by_cases heq : A.length = A₀.length
        · obtain ⟨-, h2⟩ := List.append_inj hs heq.symm
          have := List.append_cancel_left h2
          rw [← this]
          exact hm
        · exfalso
          apply hmin A.length (by omega) (by omega)
          rw [hs]
          exact occ_of_decompose A _ V)
    (by
      intro A₀ expr B pos hΦ hpos hmin hm A V hs hA
      rcases split_disjoint A₀ "clamp(".toList (expr ++ (", 0.0, 1.0)".toList ++ B)) A
          "saturate(".toList V (by decide) (by decide) hs with ⟨M, hA', -⟩ | ⟨M, hA', hV⟩
      · have := congrArg List.length hA'
        simp only [List.length_append] at this
        have h6 : "clamp(".toList.length = 6 := rfl
        omega
      · have hlen : A.length < A₀.length := by
          have := congrArg List.length hA'
          simp only [List.length_append] at this
          have h9 : "saturate(".toList.length = 9 := rfl
          omega
        have hold : A₀ ++ ("saturate(".toList ++ (expr ++ (")".toList ++ B)))
            = A ++ ("saturate(".toList ++ (M ++ ("saturate(".toList ++ (expr ++ (")".toList ++ B))))) := by
          rw [hA']
          simp only [List.append_assoc]
        have hnone : findMatchingParenFrom
            (M ++ ("saturate(".toList ++ (expr ++ (")".toList ++ B)))) 0 1 = none := by
          by_cases hlt : A.length < pos
          · exact hΦ A _ hold hlt
          · exfalso
            apply hmin A.length (by omega) hlen
            rw [hold]
            exact occ_of_decompose A _ _
        rw [hV]
        exact fm_none_of_parens_eq _ _ 0 0 (parens_saturate_step M expr B).symm hnone)
    (s.length + 1) s 0 (fun _ _ _ hA => absurd hA (Nat.not_lt_zero _))
  by_cases hlt : A.length < pos'
  · exact h1 A V h hlt
  · exfalso
    apply h2 (saturateLoop_exits_start s) A.length (by omega)
    rw [h]
    exact occ_of_decompose A _ V

/-! ### Rewritings -/

theorem rewrites_refl (t : Str) : Rewrites t t := Relation.ReflTransGen.refl

theorem rewrites_trans {a b c : Str} (h1 : Rewrites a b) (h2 : Rewrites b c) : Rewrites a c :=
  Relation.ReflTransGen.trans h1 h2

theorem rewrites_tail {a b c : Str} (h1 : Rewrites a b) (h2 : RewriteStep b c) : Rewrites a c :=
  Relation.ReflTransGen.tail h1 h2

theorem rewrites_induct (Ψ : Str → Prop) (hstep : ∀ t t', RewriteStep t t' → Ψ t → Ψ t')
    {a b : Str} (h : Rewrites a b) (ha : Ψ a) : Ψ b := by
  induction h with
  | refl => exact ha
  | tail _ hs ih => exact hstep _ _ hs ih

theorem replaceLoop_rewrites (pat rep rep' : Str) (len step : Nat) (hpat : pat ≠ [])
    (hlen : len ≤ pat.length) (hrep : ∀ B : Str, rep ++ (pat.drop len ++ B) = rep' ++ B)
    (hstep : ∀ A B : Str, RewriteStep (A ++ (pat ++ B)) (A ++ (rep' ++ B)))
    (fuel : Nat) (s : Str) (pos : Nat) :
    Rewrites s (replaceLoop pat len rep step fuel s pos) := by
  apply replaceLoop_keeps pat rep len step hpat hlen (fun t => Rewrites s t)
  · intro A B h
    rw [hrep]
    exact rewrites_tail h (hstep A B)
  · exact rewrites_refl s

theorem saturateLoop_rewrites (fuel : Nat) (s : Str) (pos : Nat) :
    Rewrites s (saturateLoop fuel s pos) := by
  apply saturateLoop_keeps (fun t => Rewrites s t)
  · intro A expr B hm h
    refine rewrites_tail h (RewriteStep.clamp A expr B (fm_some_balanced expr B 0 ?_))
    rw [hm, Nat.zero_add]
  · exact rewrites_refl s

/-- No rewriting makes an occurrence of a text that none of the inserted texts
can overlap. -/
theorem step_no_new (P : Str)
    (hd : ∀ Y ∈ ["vec2".toList, "vec3".toList, "vec4".toList, "mix".toList, "clamp(".toList,
      ", 0.0, 1.0)".toList], disjointFrom P Y = true)
    (t t' : Str) (hs : RewriteStep t t') (h : ¬ P <:+: t) : ¬ P <:+: t' := by
  intro h'
  apply h
  cases hs with
  | vec2 A B => exact infix_replace P _ _ A B (by decide) (hd _ (by simp)) h'
  | vec3 A B => exact infix_replace P _ _ A B (by decide) (hd _ (by simp)) h'
  | vec4 A B => exact infix_replace P _ _ A B (by decide) (hd _ (by simp)) h'
  | mix A B =>
    exact infix_replace P "mix".toList "lerp".toList A ("(".toList ++ B) (by decide)
      (hd _ (by simp)) h'
  | clamp A expr B _ =>
    have h1 : P <:+: (A ++ ("clamp(".toList ++ expr)) ++ (", 0.0, 1.0)".toList ++ B) := by
      simpa only [List.append_assoc] using h'
    have h2 := infix_replace P _ ")".toList _ B (by decide) (hd _ (by simp)) h1
    have h3 : P <:+: A ++ ("clamp(".toList ++ (expr ++ (")".toList ++ B))) := by
      simpa only [List.append_assoc] using h2
    exact infix_replace P _ "saturate(".toList A _ (by decide) (hd _ (by simp)) h3

/-- Every rewriting keeps an occurrence of a text that none of the replaced
texts can overlap. -/
theorem step_keeps (P : Str)
    (hd : ∀ Y ∈ ["float2".toList, "float3".toList, "float4".toList, "lerp".toList,
      "saturate(".toList, ")".toList], disjointFrom P Y = true)
    (t t' : Str) (hs : RewriteStep t t') (h : P <:+: t) : P <:+: t' := by
  cases hs with
  | vec2 A B => exact infix_replace P _ _ A B (by decide) (hd _ (by simp)) h
  | vec3 A B => exact infix_replace P _ _ A B (by decide) (hd _ (by simp)) h
  | vec4 A B => exact infix_replace P _ _ A B (by decide) (hd _ (by simp)) h
  | mix A B =>
    exact infix_replace P "lerp".toList "mix".toList A ("(".toList ++ B) (by decide)
      (hd _ (by simp)) h
  | clamp A expr B _ =>
    have h1 := infix_replace P "saturate(".toList "clamp(".toList A _ (by decide) (hd _ (by simp)) h
    have h2 : P <:+: (A ++ ("clamp(".toList ++ expr)) ++ (")".toList ++ B) := by
      simpa only [List.append_assoc] using h1
    have h3 := infix_replace P _ ", 0.0, 1.0)".toList _ B (by decide) (hd _ (by simp)) h2
    simpa only [List.append_assoc] using h3

theorem step_keeps_not_mem (c : Char)
    (hc : c ∉ "vec234mix(clamp, 0.0, 1.0)".toList)
    (t t' : Str) (hs : RewriteStep t t') (h : c ∉ t) : c ∉ t' := by
  simp only [String.toList, List.mem_cons, List.mem_singleton, not_or] at hc
  cases hs <;>
    simp only [String.toList, List.mem_append, List.mem_cons, List.mem_singleton, not_or,
      List.not_mem_nil, not_false_eq_true, and_true] at h ⊢ <;> tauto

/-! ### `replaceSlangKeywords` as a whole -/

theorem replaceSlangKeywords_exits (line : Str) : replaceSlangKeywordsExits line = true := by
  unfold replaceSlangKeywordsExits
  simp only [Bool.and_eq_true]
  refine ⟨⟨⟨⟨?_, ?_⟩, ?_⟩, ?_⟩, ?_⟩
  · exact replaceLoop_exits _ "vec2".toList 6 (by decide) (by decide) (by decide) _ _ 0 (by omega)
  · exact replaceLoop_exits _ "vec3".toList 6 (by decide) (by decide) (by decide) _ _ 0 (by omega)
  · exact replaceLoop_exits _ "vec4".toList 6 (by decide) (by decide) (by decide) _ _ 0 (by omega)
  · exact replaceLoop_exits _ "mix".toList 4 (by decide) (by decide) (by decide) _ _ 0 (by omega)
  · exact saturateLoop_exits_start _

/-- The five loops, one after the other: what each removes and that each only
rewrites. -/
theorem replaceSlangKeywords_chain (line : Str) :
    ∃ r1 r2 r3 r4 : Str,
      r1 = replaceLoop "float2".toList 6 "vec2".toList 4 (line.length + 1) line 0 ∧
      r2 = replaceLoop "float3".toList 6 "vec3".toList 4 (r1.length + 1) r1 0 ∧
      r3 = replaceLoop "float4".toList 6 "vec4".toList 4 (r2.length + 1) r2 0 ∧
      r4 = replaceLoop "lerp(".toList 4 "mix".toList 3 (r3.length + 1) r3 0 ∧
      replaceSlangKeywords line = saturateLoop (r4.length + 1) r4 0 ∧
      Rewrites line r1 ∧ Rewrites r1 r2 ∧ Rewrites r2 r3 ∧ Rewrites r3 r4 ∧
      Rewrites r4 (replaceSlangKeywords line) ∧
      ¬ "float2".toList <:+: r1 ∧ ¬ "float3".toList <:+: r2 ∧ ¬ "float4".toList <:+: r3 ∧
      ¬ "lerp(".toList <:+: r4 := by
  refine ⟨_, _, _, _, rfl, rfl, rfl, rfl, rfl, ?_, ?_, ?_, ?_, ?_, ?_, ?_, ?_, ?_⟩
  · exact replaceLoop_rewrites _ _ "vec2".toList 6 4 (by decide) (by decide) (fun _ => rfl)
      RewriteStep.vec2 _ _ _
  · exact replaceLoop_rewrites _ _ "vec3".toList 6 4 (by decide) (by decide) (fun _ => rfl)
      RewriteStep.vec3 _ _ _
  · exact replaceLoop_rewrites _ _ "vec4".toList 6 4 (by decide) (by decide) (fun _ => rfl)
      RewriteStep.vec4 _ _ _
  · exact replaceLoop_rewrites _ _ "mix(".toList 4 3 (by decide) (by decide) (fun _ => rfl)
      RewriteStep.mix _ _ _
  · exact saturateLoop_rewrites _ _ _
  · exact replaceLoop_removes _ "vec2".toList 6 (by decide) (by decide) (by decide) (by decide)
      (by decide) _
  · exact replaceLoop_removes _ "vec3".toList 6 (by decide) (by decide) (by decide) (by decide)
      (by decide) _
  · exact replaceLoop_removes _ "vec4".toList 6 (by decide) (by decide) (by decide) (by decide)
      (by decide) _
  · exact replaceLoop_removes _ "mix".toList 4 (by decide) (by decide) (by decide) (by decide)
      (by decide) _

theorem rewrites_replaceSlangKeywords (line : Str) : Rewrites line (replaceSlangKeywords line) := by
  obtain ⟨r1, r2, r3, r4, -, -, -, -, -, h1, h2, h3, h4, h5, -⟩ := replaceSlangKeywords_chain line
  exact rewrites_trans (rewrites_trans (rewrites_trans (rewrites_trans h1 h2) h3) h4) h5

theorem rewrites_no_new (P : Str)
    (hd : ∀ Y ∈ ["vec2".toList, "vec3".toList, "vec4".toList, "mix".toList, "clamp(".toList,
      ", 0.0, 1.0)".toList], disjointFrom P Y = true)
    {a b : Str} (h : Rewrites a b) (ha : ¬ P <:+: a) : ¬ P <:+: b :=
  rewrites_induct (fun t => ¬ P <:+: t) (step_no_new P hd) h ha

theorem rewrites_keeps (P : Str)
    (hd : ∀ Y ∈ ["float2".toList, "float3".toList, "float4".toList, "lerp".toList,
      "saturate(".toList, ")".toList], disjointFrom P Y = true)
    {a b : Str} (h : Rewrites a b) (ha : P <:+: a) : P <:+: b :=
  rewrites_induct (fun t => P <:+: t) (step_keeps P hd) h ha

/-- What `replaceSlangKeywords` leaves. -/
theorem replaceSlangKeywords_clean (line : Str) :
    ¬ "float2".toList <:+: replaceSlangKeywords line ∧
    ¬ "float3".toList <:+: replaceSlangKeywords line ∧
    ¬ "float4".toList <:+: replaceSlangKeywords line ∧
    ¬ "lerp(".toList <:+: replaceSlangKeywords line ∧
    ∀ A V : Str, replaceSlangKeywords line = A ++ ("saturate(".toList ++ V) →
      findMatchingParenFrom V 0 1 = none := by
  obtain ⟨r1, r2, r3, r4, -, -, -, -, hR, -, h2, h3, h4, h5, n1, n2, n3, n4⟩ :=
    replaceSlangKeywords_chain line
  refine ⟨?_, ?_, ?_, ?_, ?_⟩
  · exact rewrites_no_new _ (by decide) (rewrites_trans (rewrites_trans (rewrites_trans h2 h3) h4) h5) n1
  · exact rewrites_no_new _ (by decide) (rewrites_trans (rewrites_trans h3 h4) h5) n2
  · exact rewrites_no_new _ (by decide) (rewrites_trans h4 h5) n3
  · exact rewrites_no_new _ (by decide) h5 n4
  · intro A V h
    rw [hR] at h
    exact saturateLoop_unmatched r4 A V h

/-- A line without a rewritable token is returned as it is. -/
theorem replaceSlangKeywords_fixed (line : Str)
    (h2 : ¬ "float2".toList <:+: line) (h3 : ¬ "float3".toList <:+: line)
    (h4 : ¬ "float4".toList <:+: line) (hl : ¬ "lerp(".toList <:+: line)
    (hs : ∀ A V : Str, line = A ++ ("saturate(".toList ++ V) →
      findMatchingParenFrom V 0 1 = none) :
    replaceSlangKeywords line = line := by
  unfold replaceSlangKeywords
  simp only
  rw [replaceLoop_of_absent _ _ _ _ _ line 0 h2, replaceLoop_of_absent _ _ _ _ _ line 0 h3,
    replaceLoop_of_absent _ _ _ _ _ line 0 h4, replaceLoop_of_absent _ _ _ _ _ line 0 hl]
  exact saturateLoop_of_unmatched _ line 0 hs

theorem replaceSlangKeywords_idem (line : Str) :
    replaceSlangKeywords (replaceSlangKeywords line) = replaceSlangKeywords line := by
  obtain ⟨h2, h3, h4, hl, hs⟩ := replaceSlangKeywords_clean line
  exact replaceSlangKeywords_fixed _ h2 h3 h4 hl hs

/-! ### A call of `saturate` at the head of a line -/

theorem not_infix_wrap (P X Y E : Str) (hP : P ≠ []) (hX : X ≠ []) (hY : Y ≠ [])
    (hdX : disjointFrom P X = true) (hdY : disjointFrom P Y = true) (h : ¬ P <:+: E) :
    ¬ P <:+: X ++ (E ++ Y) := by
  intro h'
  have h1 : P <:+: [] ++ (X ++ (E ++ Y)) := h'
  rcases infix_outside P X [] (E ++ Y) hX hdX h1 with h2 | h2
  · exact hP (List.infix_nil.mp h2)
  · have h3 : P <:+: E ++ (Y ++ []) := by simpa using h2
    rcases infix_outside P Y E [] hY hdY h3 with h4 | h4
    · exact h h4
    · exact hP (List.infix_nil.mp h4)

theorem saturateLoop_head (n : Nat) (expr B : Str)
    (hm : findMatchingParenFrom (expr ++ (")".toList ++ B)) 0 1 = some expr.length) :
    saturateLoop (n + 1) ("saturate(".toList ++ (expr ++ (")".toList ++ B))) 0
      = saturateLoop n ("clamp(".toList ++ (expr ++ (", 0.0, 1.0)".toList ++ B))) 1 := by
  have hf : find ("saturate(".toList ++ (expr ++ (")".toList ++ B))) "saturate(".toList 0 = some 0 :=
    (find_zero_iff _ _).mpr ⟨_, rfl⟩
  have h1 := findMatchingParen_decomposed [] (expr ++ (")".toList ++ B))
  have h2 := fm_some_shift (expr ++ (")".toList ++ B)) 0 9 expr.length 1 (by rw [hm, Nat.zero_add])
  have h3 := saturate_replace_decomposed [] expr B
  simp only [List.nil_append, List.length_nil, Nat.zero_add, Nat.sub_zero] at h1 h3
  simp only [saturateLoop, hf, Nat.zero_add, h1, h2, Nat.sub_zero]
  rw [h3]

/-! ### More rounds than needed change nothing -/

theorem replaceLoop_fuel (pat rep : Str) (len step : Nat) : ∀ (fuel : Nat) (s : Str) (pos : Nat),
    replaceLoopExits pat len rep step fuel s pos = true →
    ∀ k, replaceLoop pat len rep step (fuel + k) s pos = replaceLoop pat len rep step fuel s pos := by
  intro fuel
  induction fuel with
  | zero => intro s pos h; simp [replaceLoopExits] at h
  | succ n ih =>
    intro s pos h k
    rw [show n + 1 + k = (n + k) + 1 by omega]
    simp only [replaceLoop, replaceLoopExits] at h ⊢
    cases hf : find s pat pos with
    | none => rfl
    | some p =>
      rw [hf] at h
      exact ih _ _ h k

theorem saturateLoop_fuel : ∀ (fuel : Nat) (s : Str) (pos : Nat),
    saturateLoopExits fuel s pos = true →
    ∀ k, saturateLoop (fuel + k) s pos = saturateLoop fuel s pos := by
  intro fuel
  induction fuel with
  | zero => intro s pos h; simp [saturateLoopExits] at h
  | succ n ih =>
    intro s pos h k
    rw [show n + 1 + k = (n + k) + 1 by omega]
    simp only [saturateLoop, saturateLoopExits] at h ⊢
    cases hf : find s "saturate(".toList pos with
    | none => rfl
    | some p =>
      rw [hf] at h
      simp only at h ⊢
      cases hm : findMatchingParen s (p + 9) with
      | none =>
        rw [hm] at h
        exact ih _ _ h k
      | some e =>
        rw [hm] at h
        exact ih _ _ h k

/-! ### An unmatched `saturate(` under rewritings -/

theorem simple_step_keeps_unmatched (X Y : Str) (hX : X ≠ [])
    (hd : disjointFrom "saturate(".toList X = true) (hp : parens X = parens Y)
    (hstep : ∀ A B : Str, RewriteStep (A ++ (X ++ B)) (A ++ (Y ++ B))) (u v A B : Str)
    (h : ∃ u' v', A ++ (X ++ B) = u' ++ ("saturate(".toList ++ v') ∧ Rewrites u u' ∧
      Rewrites v v' ∧ findMatchingParenFrom v' 0 1 = none) :
    ∃ u' v', A ++ (Y ++ B) = u' ++ ("saturate(".toList ++ v') ∧ Rewrites u u' ∧
      Rewrites v v' ∧ findMatchingParenFrom v' 0 1 = none := by
  obtain ⟨u', v', ht, hu, hv, hn⟩ := h
  rcases split_disjoint A X B u' "saturate(".toList v' hX hd ht with ⟨M, hu', hB⟩ | ⟨M, hA, hv'⟩
  · refine ⟨A ++ (Y ++ M), v', ?_, ?_, hv, hn⟩
    · rw [hB]; simp only [List.append_assoc]
    · rw [hu'] at hu
      exact rewrites_tail hu (hstep A M)
  · refine ⟨u', M ++ (Y ++ B), ?_, hu, ?_, ?_⟩
    · rw [hA]; simp only [List.append_assoc]
    · rw [hv'] at hv
      exact rewrites_tail hv (hstep M B)
    · rw [hv'] at hn
      refine fm_none_of_parens_eq _ _ 0 0 ?_ hn
      simp only [parens_append, hp]

theorem step_keeps_unmatched (u v t t' : Str) (hs : RewriteStep t t')
    (h : ∃ u' v', t = u' ++ ("saturate(".toList ++ v') ∧ Rewrites u u' ∧
      Rewrites v v' ∧ findMatchingParenFrom v' 0 1 = none) :
    ∃ u' v', t' = u' ++ ("saturate(".toList ++ v') ∧ Rewrites u u' ∧
      Rewrites v v' ∧ findMatchingParenFrom v' 0 1 = none := by
  cases hs with
  | vec2 A B =>
    exact simple_step_keeps_unmatched _ _ (by decide) (by decide) (by decide) RewriteStep.vec2 u v A B h
  | vec3 A B =>
    exact simple_step_keeps_unmatched _ _ (by decide) (by decide) (by decide) RewriteStep.vec3 u v A B h
  | vec4 A B =>
    exact simple_step_keeps_unmatched _ _ (by decide) (by decide) (by decide) RewriteStep.vec4 u v A B h
  | mix A B =>
    exact simple_step_keeps_unmatched _ _ (by decide) (by decide) (by decide) RewriteStep.mix u v A B h
  | clamp A expr B hb =>
    obtain ⟨u', v', ht, hu, hv, hn⟩ := h
    have hm := fm_balanced expr B 0 hb
    rw [Nat.zero_add] at hm
    rcases split_apart A "saturate(".toList (expr ++ (")".toList ++ B)) u' "saturate(".toList v'
        (by decide) (by decide) ht with ⟨M, hu', hB⟩ | ⟨M, hA, hv'⟩ | ⟨hlen, -⟩
    · rcases split_disjoint expr ")".toList B M "saturate(".toList v' (by decide) (by decide) hB
        with ⟨M', hM, hB'⟩ | ⟨M', hexpr, hv'⟩
      · refine ⟨A ++ ("clamp(".toList ++ (expr ++ (", 0.0, 1.0)".toList ++ M'))), v', ?_, ?_, hv, hn⟩
        · rw [hB']; simp only [List.append_assoc]
        · rw [hu', hM] at hu
          exact rewrites_tail hu (RewriteStep.clamp A expr M' hb)
      · exfalso
        have hm' : findMatchingParenFrom (M ++ ("saturate(".toList ++ (M' ++ (")".toList ++ B)))) 0 1
            = some expr.length := by
          rw [← hm, hexpr]
          simp only [List.append_assoc]
        have := fm_nested M _ 0 expr.length 1 (by omega) hm' (by
          rw [hexpr]
          simp only [List.length_append]
          have h9 : "saturate(".toList.length = 9 := rfl
          omega)
        rw [← hv', hn] at this
        cases this
    · refine ⟨u', M ++ ("clamp(".toList ++ (expr ++ (", 0.0, 1.0)".toList ++ B))), ?_, hu, ?_, ?_⟩
      · rw [hA]; simp only [List.append_assoc]
      · rw [hv'] at hv
        exact rewrites_tail hv (RewriteStep.clamp M expr B hb)
      · rw [hv'] at hn
        exact fm_none_of_parens_eq _ _ 0 0 (parens_saturate_step M expr B).symm hn
    · exfalso
      obtain ⟨-, h2⟩ := List.append_inj ht hlen.symm
      have := List.append_cancel_left h2
      rw [← this, hm] at hn
      cases hn

theorem rewrites_keeps_unmatched (u v t : Str) (h : Rewrites (u ++ ("saturate(".toList ++ v)) t)
    (hn : findMatchingParenFrom v 0 1 = none) :
    ∃ u' v', t = u' ++ ("saturate(".toList ++ v') ∧ Rewrites u u' ∧
      Rewrites v v' ∧ findMatchingParenFrom v' 0 1 = none :=
  rewrites_induct
    (fun t => ∃ u' v', t = u' ++ ("saturate(".toList ++ v') ∧ Rewrites u u' ∧
      Rewrites v v' ∧ findMatchingParenFrom v' 0 1 = none)
    (fun t t' hs ht => step_keeps_unmatched u v t t' hs ht) h
    ⟨u, v, rfl, rewrites_refl u, rewrites_refl v, hn⟩

/-! ### Lines -/

theorem getLines_eq_nil (s : Str) : getLines s = [] ↔ s = [] := by
  cases s with
  | nil => simp [getLines]
  | cons c cs =>
    simp only [getLines, reduceCtorEq, iff_false]
    by_cases hc : c = '\n'
    · simp [hc]
    · rw [if_neg hc]
      cases getLines cs <;> simp

theorem getLines_not_mem : ∀ (s : Str), ∀ l ∈ getLines s, '\n' ∉ l := by
  intro s
  induction s with
  | nil => intro l hl; simp [getLines] at hl
  | cons c cs ih =>
    intro l hl
    simp only [getLines] at hl
    by_cases hc : c = '\n'
    · rw [if_pos hc] at hl
      rcases List.mem_cons.mp hl with h | h
      · subst h; simp
      · exact ih l h
    · rw [if_neg hc] at hl
      cases hg : getLines cs with
      | nil =>
        rw [hg] at hl
        simp only [List.mem_singleton] at hl
        subst hl
        simpa using Ne.symm hc
      | cons l' ls =>
        rw [hg] at hl
        simp only [List.mem_cons] at hl
        rcases hl with h | h
        · subst h
          have := ih l' (by rw [hg]; simp)
          simp only [List.mem_cons, not_or]
          exact ⟨Ne.symm hc, this⟩
        · exact ih l (by rw [hg]; simp [h])

/-- The lines, each ended by a newline, make up the text, but for the newline
behind a last line that has none. -/
theorem getLines_join : ∀ (s : Str),
    (getLines s).flatMap (fun l => l ++ "\n".toList)
      = if s = [] ∨ s.getLast? = some '\n' then s else s ++ "\n".toList := by
  intro s
  induction s with
  | nil => simp [getLines]
  | cons c cs ih =>
    have hlast : cs ≠ [] → (c :: cs).getLast? = cs.getLast? := by
      intro h
      obtain ⟨d, ds, rfl⟩ := List.exists_cons_of_ne_nil h
      simp [List.getLast?_cons_cons]
    simp only [getLines]
    by_cases hc : c = '\n'
    · rw [if_pos hc, List.flatMap_cons, ih]
      subst hc
      by_cases hcs : cs = []
      · subst hcs
        simp
      · rw [hlast hcs]
        simp only [hcs, reduceCtorEq, false_or]
        by_cases hl : cs.getLast? = some '\n'
        · simp [hl]
        · simp only [hl, if_false]
          rfl
    · rw [if_neg hc]
      cases hg : getLines cs with
      | nil =>
        have hcs := (getLines_eq_nil cs).mp hg
        subst hcs
        have : ¬ (some c = some '\n') := by simpa using hc
        simp [this]
      | cons l ls =>
        have hcs : cs ≠ [] := by
          intro h
          rw [h] at hg
          simp [getLines] at hg
        rw [hg] at ih
        simp only [List.flatMap_cons] at ih ⊢
        rw [hlast hcs]
        simp only [hcs, reduceCtorEq, false_or] at ih ⊢
        rw [List.cons_append, List.cons_append, ih]
        by_cases hl : cs.getLast? = some '\n'
        · simp [hl]
        · simp only [hl, if_false]
          rfl

theorem getLines_line (l rest : Str) (h : '\n' ∉ l) :
    getLines (l ++ ("\n".toList ++ rest)) = l :: getLines rest := by
  induction l with
  | nil => simp [getLines]
  | cons c l ih =>
    simp only [List.mem_cons, not_or] at h
    rw [List.cons_append]
    simp only [getLines]
    rw [if_neg (Ne.symm h.1), ih h.2]

theorem getLines_flatMap : ∀ (ls : List Str), (∀ l ∈ ls, '\n' ∉ l) →
    getLines (ls.flatMap fun l => l ++ "\n".toList) = ls := by
  intro ls
  induction ls with
  | nil => intro _; rfl
  | cons l ls ih =>
    intro h
    rw [List.flatMap_cons, List.append_assoc, getLines_line l _ (h l (by simp)),
      ih (fun l' hl' => h l' (by simp [hl']))]

theorem infix_flatMap_of_mem (ls : List Str) (l : Str) (h : l ∈ ls) :
    l <:+: ls.flatMap fun l => l ++ "\n".toList := by
  induction ls with
  | nil => cases h
  | cons a ls ih =>
    rw [List.flatMap_cons]
    rcases List.mem_cons.mp h with h | h
    · subst h
      exact ⟨[], "\n".toList ++ ls.flatMap (fun l => l ++ "\n".toList), by simp⟩
    · exact (ih h).trans ⟨a ++ "\n".toList, [], by simp⟩

theorem infix_of_infix_concat (l s : Str) (n : Char) (hn : n ∉ l) (h : l <:+: s ++ [n]) :
    l <:+: s := by
  obtain ⟨U, V, hUV⟩ := h
  rcases List.eq_nil_or_concat V with hV | ⟨V', n', hV⟩
  · subst hV
    rw [List.append_nil] at hUV
    rcases List.eq_nil_or_concat l with hl | ⟨l', n'', hl⟩
    · subst hl
      exact ⟨[], s, by simp⟩
    · exfalso
      subst hl
      rw [List.concat_eq_append, ← List.append_assoc] at hUV
      have := List.append_inj' hUV rfl
      have h2 : n'' = n := by simpa using this.2
      apply hn
      simp [h2]
  · subst hV
    rw [List.concat_eq_append, ← List.append_assoc] at hUV
    have := List.append_inj' hUV rfl
    exact ⟨U, V', this.1⟩

theorem infix_of_mem_getLines (s l : Str) (h : l ∈ getLines s) : l <:+: s := by
  have h1 := infix_flatMap_of_mem _ l h
  rw [getLines_join] at h1
  by_cases hs : s = [] ∨ s.getLast? = some '\n'
  · rwa [if_pos hs] at h1
  · rw [if_neg hs] at h1
    exact infix_of_infix_concat l s '\n' (getLines_not_mem s l h) h1

/-- An occurrence of a text without a newline lies in one line. -/
theorem infix_in_line_of_flatMap (P : Str) (hP : P ≠ [])
    (hd : disjointFrom P "\n".toList = true) :
    ∀ ls : List Str, P <:+: (ls.flatMap fun l => l ++ "\n".toList) → ∃ l ∈ ls, P <:+: l := by
  intro ls
  induction ls with
  | nil => intro h; exact absurd (List.infix_nil.mp h) hP
  | cons a ls ih =>
    intro h
    rw [List.flatMap_cons, List.append_assoc] at h
    rcases infix_outside P _ a _ (by decide) hd h with h1 | h1
    · exact ⟨a, by simp, h1⟩
    · obtain ⟨l, hl, hPl⟩ := ih h1
      exact ⟨l, by simp [hl], hPl⟩

theorem infix_in_line (P : Str) (hP : P ≠ []) (hd : disjointFrom P "\n".toList = true)
    (s : Str) (h : P <:+: s) : ∃ l ∈ getLines s, P <:+: l := by
  apply infix_in_line_of_flatMap P hP hd
  rw [getLines_join]
  by_cases hs : s = [] ∨ s.getLast? = some '\n'
  · rwa [if_pos hs]
  · rw [if_neg hs]
    exact h.trans ⟨[], "\n".toList, by simp⟩

theorem flatMap_congr_mem {α β : Type} (f g : α → List β) (ls : List α)
    (h : ∀ l ∈ ls, f l = g l) : ls.flatMap f = ls.flatMap g := by
  induction ls with
  | nil => rfl
  | cons a ls ih =>
    rw [List.flatMap_cons, List.flatMap_cons, h a (by simp),
      ih (fun l hl => h l (by simp [hl]))]

/-! ### The lines of the output of `preprocessGLSL` -/

theorem replaceSlangKeywords_not_mem_newline (l : Str) (h : '\n' ∉ l) :
    '\n' ∉ replaceSlangKeywords l :=
  rewrites_induct (fun t => '\n' ∉ t) (step_keeps_not_mem '\n' (by decide))
    (rewrites_replaceSlangKeywords l) h

theorem replaceSlangKeywords_keeps_version (l : Str) (h : "#version".toList <:+: l) :
    "#version".toList <:+: replaceSlangKeywords l :=
  rewrites_keeps _ (by decide) (rewrites_replaceSlangKeywords l) h

/-- The output of `preprocessGLSL`, line by line: the lines of a header that
`replaceSlangKeywords` leaves as they are, and the rewritten lines of the
source; one of them holds `#version`. -/
theorem preprocessGLSL_lines (source : Str) (type : ShaderType) :
    ∃ H : List Str,
      preprocessGLSL source type
        = (H ++ (getLines source).map replaceSlangKeywords).flatMap (fun l => l ++ "\n".toList) ∧
      getLines (preprocessGLSL source type) = H ++ (getLines source).map replaceSlangKeywords ∧
      (∀ l ∈ H, replaceSlangKeywords l = l) ∧
      (∃ l ∈ H ++ (getLines source).map replaceSlangKeywords, "#version".toList <:+: l) := by
  have key : ∀ H : List Str, (∀ l ∈ H, '\n' ∉ l) →
      preprocessGLSL source type
        = (H ++ (getLines source).map replaceSlangKeywords).flatMap (fun l => l ++ "\n".toList) →
      getLines (preprocessGLSL source type) = H ++ (getLines source).map replaceSlangKeywords := by
    intro H hH he
    rw [he]
    apply getLines_flatMap
    intro l hl
    rcases List.mem_append.mp hl with h | h
    · exact hH l h
    · obtain ⟨l', hl', rfl⟩ := List.mem_map.mp h
      exact replaceSlangKeywords_not_mem_newline l' (getLines_not_mem source l' hl')
  have hmap : ((getLines source).map replaceSlangKeywords).flatMap (fun l => l ++ "\n".toList)
      = (getLines source).flatMap (fun l => replaceSlangKeywords l ++ "\n".toList) := by
    induction getLines source with
    | nil => rfl
    | cons a ls ih => rw [List.map_cons, List.flatMap_cons, List.flatMap_cons, ih]
  by_cases hv : ∃ l ∈ getLines source, "#version".toList <:+: l
  · have he : preprocessGLSL source type
        = (([] : List Str) ++ (getLines source).map replaceSlangKeywords).flatMap
            (fun l => l ++ "\n".toList) := by
      rw [preprocessGLSL_shape, if_pos hv, List.nil_append, List.nil_append, hmap]
    refine ⟨[], he, key [] (fun _ h => absurd h (List.not_mem_nil _)) he,
      fun _ h => absurd h (List.not_mem_nil _), ?_⟩
    obtain ⟨l, hl, hPl⟩ := hv
    exact ⟨replaceSlangKeywords l, by simp only [List.nil_append]; exact List.mem_map_of_mem _ hl,
      replaceSlangKeywords_keeps_version l hPl⟩
  · cases type with
    | Vertex =>
      have he : preprocessGLSL source ShaderType.Vertex
          = (["#version 100".toList] ++ (getLines source).map replaceSlangKeywords).flatMap
              (fun l => l ++ "\n".toList) := by
        rw [preprocessGLSL_shape, if_neg hv, List.flatMap_append, hmap]
        rfl
      refine ⟨["#version 100".toList], he, key _ (by decide) he, ?_, ?_⟩
      · intro l hl
        rw [List.mem_singleton] at hl
        subst hl
        rfl
      · exact ⟨"#version 100".toList, by simp, by decide⟩
    | Fragment =>
      have he : preprocessGLSL source ShaderType.Fragment
          = (["#version 100".toList, "precision mediump float;".toList]
              ++ (getLines source).map replaceSlangKeywords).flatMap
              (fun l => l ++ "\n".toList) := by
        rw [preprocessGLSL_shape, if_neg hv, List.flatMap_append, hmap]
        rfl
      refine ⟨["#version 100".toList, "precision mediump float;".toList], he,
        key _ (by decide) he, ?_, ?_⟩
      · intro l hl
        simp only [List.mem_cons, List.mem_singleton, List.not_mem_nil, or_false] at hl
        rcases hl with hl | hl
        · subst hl
          rfl
        · subst hl
          rfl
      · exact ⟨"#version 100".toList, by simp, by decide⟩

theorem preprocessGLSL_idem (source : Str) (type : ShaderType) :
    preprocessGLSL (preprocessGLSL source type) type = preprocessGLSL source type := by
  obtain ⟨H, he, hl, hH, hv⟩ := preprocessGLSL_lines source type
  rw [preprocessGLSL_shape, hl, if_pos hv, List.nil_append]
  conv => rhs; rw [he]
  apply flatMap_congr_mem
  intro l hm
  rcases List.mem_append.mp hm with h | h
  · rw [hH l h]
  · obtain ⟨l', -, rfl⟩ := List.mem_map.mp h
    rw [replaceSlangKeywords_idem]

/-! ### Replacing from left to right -/

theorem specReplaceAll_skip (rules : List (Str × Str)) : ∀ (X B : Str) (k : Nat), X.length = k →
    specReplaceAll rules k (X ++ B) = specReplaceAll rules 0 B := by
  intro X
  induction X with
  | nil => intro B k h; simp at h; subst h; rfl
  | cons x X ih =>
    intro B k h
    cases k with
    | zero => simp at h
    | succ k =>
      rw [List.cons_append]
      simp only [specReplaceAll]
      exact ih B k (by simpa using h)

theorem specReplaceAll_match (rules : List (Str × Str)) (r : Str × Str) (B : Str)
    (hp : r.1 ≠ [])
    (hf : rules.find? (fun r' => r'.1.isPrefixOf (r.1 ++ B)) = some r) :
    specReplaceAll rules 0 (r.1 ++ B) = r.2 ++ specReplaceAll rules 0 B := by
  obtain ⟨c, p', hcp⟩ := List.exists_cons_of_ne_nil hp
  rw [hcp] at hf ⊢
  rw [List.cons_append] at hf ⊢
  simp only [specReplaceAll, hf]
  rw [hcp, specReplaceAll_skip rules p' B _ (by simp)]

theorem specReplaceAll_copy (rules : List (Str × Str)) (c : Char) (cs : Str)
    (hf : rules.find? (fun r' => r'.1.isPrefixOf (c :: cs)) = none) :
    specReplaceAll rules 0 (c :: cs) = c :: specReplaceAll rules 0 cs := by
  simp only [specReplaceAll, hf]

theorem specReplaceAll_through (rules : List (Str × Str)) : ∀ (M t : Str),
    (∀ q, q < M.length → rules.find? (fun r' => r'.1.isPrefixOf ((M ++ t).drop q)) = none) →
    specReplaceAll rules 0 (M ++ t) = M ++ specReplaceAll rules 0 t := by
  intro M
  induction M with
  | nil => intro t _; rfl
  | cons c M ih =>
    intro t h
    have h0 := h 0 (by simp)
    simp only [List.drop_zero, List.cons_append] at h0
    rw [List.cons_append, specReplaceAll_copy rules c _ h0, ih t, List.cons_append]
    intro q hq
    exact h (q + 1) (by simpa using hq)

theorem find?_single (pat rep t : Str) :
    [(pat, rep)].find? (fun r' => r'.1.isPrefixOf t)
      = if pat <+: t then some (pat, rep) else none := by
  simp only [List.find?_cons, List.find?_nil]
  by_cases h : pat <+: t
  · rw [if_pos h, List.isPrefixOf_iff_prefix.mpr h]
  · rw [if_neg h]
    have : pat.isPrefixOf t = false := by
      rw [← Bool.not_eq_true, List.isPrefixOf_iff_prefix]
      exact h
    rw [this]

theorem find?_rules_none (rules : List (Str × Str)) (t : Str) :
    rules.find? (fun r' => r'.1.isPrefixOf t) = none ↔ ∀ r ∈ rules, ¬ r.1 <+: t := by
  rw [List.find?_eq_none]
  constructor
  · intro h r hr hp
    exact h r hr (List.isPrefixOf_iff_prefix.mpr hp)
  · intro h r hr hp
    exact h r hr (List.isPrefixOf_iff_prefix.mp hp)

/-- One of the four plain loops replaces from left to right: it gives what
`specReplaceAll` gives for the one rule that turns the pattern into the
replacement followed by what the loop leaves of the pattern. -/
theorem replaceLoop_eq_specReplaceAll (pat rep : Str) (len : Nat) (hpat : pat ≠ [])
    (hlen : len ≤ pat.length) (hlen1 : 0 < len) (hap : apart pat pat = true) (s : Str) :
    replaceLoop pat len rep rep.length (s.length + 1) s 0
      = specReplaceAll [(pat, rep ++ pat.drop len)] 0 s := by
  have hno : ∀ (t : Str) (q : Nat), ¬ pat <+: t.drop q →
      [(pat, rep ++ pat.drop len)].find? (fun r' => r'.1.isPrefixOf (t.drop q)) = none := by
    intro t q h
    rw [find?_single, if_neg h]
  obtain ⟨pos', ⟨hle, h1⟩, h2⟩ := replaceLoop_induct pat rep len rep.length hpat hlen
    (fun t pos => pos ≤ t.length ∧
      t.take pos ++ specReplaceAll [(pat, rep ++ pat.drop len)] 0 (t.drop pos)
        = specReplaceAll [(pat, rep ++ pat.drop len)] 0 s)
    (by
      intro A B pos ⟨_, hΦ⟩ hpos hmin
      refine ⟨by simp only [List.length_append]; omega, ?_⟩
      rw [← hΦ]
      have e1 : (A ++ (pat ++ B)).take pos = A.take pos := List.take_append_of_le_length hpos
      have e2 : (A ++ (pat ++ B)).drop pos = A.drop pos ++ (pat ++ B) :=
        List.drop_append_of_le_length hpos
      have e3 : (A ++ (rep ++ (pat.drop len ++ B))).take (A.length + rep.length) = A ++ rep := by
        rw [← List.append_assoc, ← List.length_append, List.take_left]
      have e4 : (A ++ (rep ++ (pat.drop len ++ B))).drop (A.length + rep.length)
          = pat.drop len ++ B := by
        rw [← List.append_assoc, ← List.length_append, List.drop_left]
      rw [e1, e2, e3, e4]
      rw [specReplaceAll_through _ (A.drop pos) (pat ++ B), specReplaceAll_through _ (pat.drop len) B]
      · have hm := specReplaceAll_match [(pat, rep ++ pat.drop len)] (pat, rep ++ pat.drop len) B
          hpat (by rw [find?_single, if_pos (List.prefix_append _ _)])
        simp only at hm
        rw [hm]
        conv => rhs; rw [← List.append_assoc, List.take_append_drop]
        simp only [List.append_assoc]
      · intro q hq
        apply hno
        intro hocc
        rw [List.drop_append_of_le_length (by omega), List.drop_drop] at hocc
        simp only [List.length_drop] at hq
        obtain ⟨V, hV⟩ := hocc
        have hc := compatible_of_append_eq pat (pat.drop (len + q)) V B hV
        rw [(apart_spec pat pat hap).1 (len + q) (by omega) (by omega)] at hc
        cases hc
      · intro q hq
        apply hno
        simp only [List.length_drop] at hq
        have := hmin (pos + q) (by omega) (by omega)
        rw [← e2, List.drop_drop]
        exact this)
    (s.length + 1) s 0 ⟨by omega, rfl⟩
  have hex := replaceLoop_exits pat rep len hpat hlen hlen1 (s.length + 1) s 0 (by omega)
  rw [← h1]
  have h3 := specReplaceAll_through [(pat, rep ++ pat.drop len)]
    ((replaceLoop pat len rep rep.length (s.length + 1) s 0).drop pos') [] (by
      intro q _
      rw [List.append_nil, List.drop_drop]
      apply hno
      exact h2 hex (pos' + q) (by omega))
  rw [List.append_nil] at h3
  rw [h3]
  simp [specReplaceAll]

/-! ### One pass after the other is one pass with all the rules -/

/-- The replaced text is the text itself, or the text up to its first
occurrence, the replacement, and the replaced rest. -/
theorem specReplaceAll_first (rules : List (Str × Str)) (hne : ∀ r ∈ rules, r.1 ≠ []) :
    ∀ t : Str, specReplaceAll rules 0 t = t ∨
      ∃ (M B : Str) (r : Str × Str), r ∈ rules ∧ t = M ++ (r.1 ++ B) ∧
        specReplaceAll rules 0 t = M ++ (r.2 ++ specReplaceAll rules 0 B) := by
  intro t
  induction t with
  | nil => exact Or.inl rfl
  | cons c cs ih =>
    cases hf : rules.find? (fun r' => r'.1.isPrefixOf (c :: cs)) with
    | none =>
      rw [specReplaceAll_copy rules c cs hf]
      rcases ih with h | ⟨M, B, r, hr, ht, hs⟩
      · exact Or.inl (by rw [h])
      · exact Or.inr ⟨c :: M, B, r, hr, by rw [ht]; rfl, by rw [hs]; rfl⟩
    | some r =>
      have hr := List.mem_of_find?_eq_some hf
      have hp := List.find?_some hf
      obtain ⟨B, hB⟩ := List.isPrefixOf_iff_prefix.mp hp
      rw [← hB] at hf ⊢
      exact Or.inr ⟨[], B, r, hr, rfl, by
        rw [specReplaceAll_match rules r B (hne r hr) hf]; rfl⟩

theorem prefix_of_prefix_specReplaceAll (rules : List (Str × Str)) (p : Str)
    (hne : ∀ r ∈ rules, r.1 ≠ [] ∧ r.2 ≠ [] ∧ disjointFrom p r.2 = true)
    (t : Str) (h : p <+: specReplaceAll rules 0 t) : p <+: t := by
  rcases specReplaceAll_first rules (fun r hr => (hne r hr).1) t with h1 | ⟨M, B, r, hr, ht, hs⟩
  · rwa [h1] at h
  · rw [hs] at h
    obtain ⟨V, hV⟩ := h
    obtain ⟨-, hrep, hd⟩ := hne r hr
    have hV' : M ++ (r.2 ++ specReplaceAll rules 0 B) = [] ++ (p ++ V) := hV.symm
    rcases split_disjoint M r.2 _ [] p V hrep hd hV' with ⟨M', hU, -⟩ | ⟨M', hM, -⟩
    · exfalso
      have := congrArg List.length hU
      simp only [List.length_nil, List.length_append] at this
      have : 0 < r.2.length := List.length_pos.mpr hrep
      omega
    · rw [ht, hM]
      exact ⟨M' ++ (r.1 ++ B), by simp⟩

theorem no_prefix_inside (p x : Str) (hx : x ≠ []) (hd : disjointFrom p x = true) (B : Str)
    (q : Nat) (hq : q < x.length) : ¬ p <+: (x ++ B).drop q := by
  intro h
  have hp : p ≠ [] := by
    intro hp
    subst hp
    revert hd
    unfold disjointFrom compatible
    simp
  obtain ⟨U, V, hs, hU⟩ := occ_decompose (x ++ B) p q hp h
  have hs' : [] ++ (x ++ B) = U ++ (p ++ V) := hs
  rcases split_disjoint [] x B U p V hx hd hs' with ⟨M, hU', -⟩ | ⟨M, hM, -⟩
  · have := congrArg List.length hU'
    simp only [List.length_nil, List.length_append] at this
    omega
  · have := congrArg List.length hM
    simp only [List.length_nil, List.length_append] at this
    have : 0 < p.length := List.length_pos.mpr hp
    omega

theorem specReplaceAll_merge (rules : List (Str × Str)) (r : Str × Str) (hp : r.1 ≠ [])
    (hne : ∀ r' ∈ rules, r'.1 ≠ [] ∧ r'.2 ≠ [] ∧ disjointFrom r.1 r'.2 = true ∧
      disjointFrom r'.1 r.1 = true) :
    ∀ (n : Nat) (t : Str), t.length ≤ n →
      specReplaceAll [r] 0 (specReplaceAll rules 0 t) = specReplaceAll (rules ++ [r]) 0 t := by
  have hsingle : ∀ t : Str, [r].find? (fun r' => r'.1.isPrefixOf t)
      = if r.1 <+: t then some r else none := fun t => find?_single r.1 r.2 t
  intro n
  induction n with
  | zero =>
    intro t ht
    have : t = [] := List.length_eq_zero.mp (by omega)
    subst this
    rfl
  | succ n ih =>
    intro t ht
    cases t with
    | nil => rfl
    | cons c cs =>
      cases hf : rules.find? (fun r' => r'.1.isPrefixOf (c :: cs)) with
      | some r' =>
        have hr' := List.mem_of_find?_eq_some hf
        obtain ⟨hp', hrep', hd1, -⟩ := hne r' hr'
        have hpre' := List.find?_some hf
        obtain ⟨B, hB⟩ := List.isPrefixOf_iff_prefix.mp hpre'
        have hlen : B.length ≤ n := by
          have := congrArg List.length hB
          simp only [List.length_append, List.length_cons] at this ht
          have : 0 < r'.1.length := List.length_pos.mpr hp'
          omega
        have hf2 : (rules ++ [r]).find? (fun r'' => r''.1.isPrefixOf (c :: cs)) = some r' := by
          rw [List.find?_append, hf]
          rfl
        rw [← hB] at hf hf2 ⊢
        rw [specReplaceAll_match rules r' B hp' hf, specReplaceAll_match _ r' B hp' hf2,
          specReplaceAll_through [r] r'.2 _ (by
            intro q hq
            rw [hsingle, if_neg (no_prefix_inside r.1 r'.2 hrep' hd1 _ q hq)]),
          ih B hlen]
      | none =>
        have hnone := (find?_rules_none rules (c :: cs)).mp hf
        by_cases hpre : r.1 <+: c :: cs
        · obtain ⟨B, hB⟩ := hpre
          have hlen : B.length ≤ n := by
            have := congrArg List.length hB
            simp only [List.length_append, List.length_cons] at this ht
            have : 0 < r.1.length := List.length_pos.mpr hp
            omega
          have hf2 : (rules ++ [r]).find? (fun r'' => r''.1.isPrefixOf (c :: cs)) = some r := by
            rw [List.find?_append, hf, hsingle, if_pos ⟨B, hB⟩]
            rfl
          rw [← hB] at hf2 ⊢
          rw [specReplaceAll_match _ r B hp hf2,
            specReplaceAll_through rules r.1 B (by
              intro q hq
              rw [find?_rules_none]
              intro r' hr'
              exact no_prefix_inside r'.1 r.1 hp (hne r' hr').2.2.2 B q hq),
            specReplaceAll_match [r] r _ hp (by rw [hsingle, if_pos (List.prefix_append _ _)]),
            ih B hlen]
        · have hf2 : (rules ++ [r]).find? (fun r'' => r''.1.isPrefixOf (c :: cs)) = none := by
            rw [List.find?_append, hf, hsingle, if_neg hpre]
            rfl
          have hno : ¬ r.1 <+: c :: specReplaceAll rules 0 cs := by
            intro h
            rw [← specReplaceAll_copy rules c cs hf] at h
            exact hpre (prefix_of_prefix_specReplaceAll rules r.1
              (fun r' hr' => ⟨(hne r' hr').1, (hne r' hr').2.1, (hne r' hr').2.2.1⟩) _ h)
          rw [specReplaceAll_copy rules c cs hf, specReplaceAll_copy _ c cs hf2,
            specReplaceAll_copy [r] c _ (by rw [hsingle, if_neg hno]),
            ih cs (by simpa using ht)]

/-! ### What preprocessing keeps, and the placeholder shaders -/

/-- An occurrence of a text that holds no newline and can not overlap a
replaced text is still in the output of `preprocessGLSL`. -/
theorem preprocessGLSL_keeps (P : Str) (hP : P ≠ [])
    (hn : disjointFrom P "\n".toList = true)
    (hd : ∀ Y ∈ ["float2".toList, "float3".toList, "float4".toList, "lerp".toList,
      "saturate(".toList, ")".toList], disjointFrom P Y = true)
    (source : Str) (type : ShaderType) (h : P <:+: source) :
    P <:+: preprocessGLSL source type := by
  obtain ⟨l, hl, hPl⟩ := infix_in_line P hP hn source h
  have h1 : P <:+: replaceSlangKeywords l := rewrites_keeps P hd (rewrites_replaceSlangKeywords l) hPl
  obtain ⟨H, he, -, -, -⟩ := preprocessGLSL_lines source type
  rw [he]
  exact List.IsInfix.trans h1 (infix_flatMap_of_mem _ _
    (List.mem_append_right H (List.mem_map_of_mem _ hl)))

theorem generatePlaceholderShader_cases (shaderPath : Str) :
    generatePlaceholderShader shaderPath ∈
      [generateCRTShader, generateScanlineShader, generateLCDShader,
        generatePassthroughShader] := by
  unfold generatePlaceholderShader
  simp only
  split_ifs <;> simp

set_option maxRecDepth 100000 in
theorem placeholders_valid :
    validateShader generateCRTShader ShaderType.Fragment = true ∧
    validateShader generateScanlineShader ShaderType.Fragment = true ∧
    validateShader generateLCDShader ShaderType.Fragment = true ∧
    validateShader generatePassthroughShader ShaderType.Fragment = true :=
  ⟨rfl, rfl, rfl, rfl⟩

set_option maxRecDepth 100000 in
theorem placeholders_fixed :
    preprocessGLSL generateCRTShader ShaderType.Fragment = generateCRTShader ∧
    preprocessGLSL generateScanlineShader ShaderType.Fragment = generateScanlineShader ∧
    preprocessGLSL generateLCDShader ShaderType.Fragment = generateLCDShader ∧
    preprocessGLSL generatePassthroughShader ShaderType.Fragment = generatePassthroughShader :=
  ⟨rfl, rfl, rfl, rfl⟩

set_option maxRecDepth 100000 in
theorem placeholders_portable :
    ∀ t ∈ [generateCRTShader, generateScanlineShader, generateLCDShader,
        generatePassthroughShader],
      (find t "#version".toList 0).isSome = true ∧ t.getLast? = some '\n' ∧
        ∀ P ∈ ["float2".toList, "float3".toList, "float4".toList, "lerp(".toList,
          "saturate(".toList], find t P 0 = none := by
  decide

/-! ## The claims -/

/-- C1 (dense back-fill). Take a preset text in which every key that begins
with `shader`, `filter_linear`, `scale_type` or `scale`, the count key
`shaders` apart, is that word followed by decimal digits only, and on which
`parseSlangPreset` returns. Then `shaders` is empty when no key names an
index, its length is `N + 1` for the largest index `N` that a key names, and
every entry whose index no key names is the default record. -/
theorem dense_backfill (self after : SlangParser) (text : Str) (ok : Bool)
    (hform : ∀ key ∈ lineKeys text, isIndexedKey key = true → (keyIndex key).isSome = true)
    (hdone : parseSlangPreset self text = (after, .ok ok)) :
    (namedIndices text = [] → (getPreset after).shaders = []) ∧
    (∀ N ∈ namedIndices text, (∀ n ∈ namedIndices text, n ≤ N) →
      (getPreset after).shaders.length = N + 1) ∧
    (∀ i, i < (getPreset after).shaders.length → i ∉ namedIndices text →
      (getPreset after).shaders[i]? =
        some { path := [], filterLinear := true, scaleType := ScaleType.Source,
               scale := ⟨"1.0".toList⟩, frameCountMod := 0, floatFramebuffer := false,
               srgbFramebuffer := false }) := by
  obtain ⟨hl, -⟩ := parseSlangPreset_ok self after text ok hdone
  obtain ⟨hlen, hframe⟩ := parseLines_wellFormed (getLines text) {} after.preset_ hl hform
  have hlen' : after.preset_.shaders.length
      = (namedIndices text).foldr (fun n m => max (n + 1) m) 0 := by
    rw [hlen]; simp [namedIndices, lineKeys]
  refine ⟨?_, ?_, ?_⟩
  · intro hnone
    rw [hnone] at hlen'
    exact List.eq_nil_of_length_eq_zero hlen'
  · intro N hN hmax
    have h1 := foldr_max_le (namedIndices text) N hmax
    have h2 := le_foldr_max (namedIndices text) N hN
    show after.preset_.shaders.length = N + 1
    omega
  · intro i hi hnot
    have h := hframe i hnot
    have hi' : i < after.preset_.shaders.length := hi
    show after.preset_.shaders[i]? = _
    rw [List.getElem?_eq_getElem hi'] at h ⊢
    simp only [Option.getD_some, List.getElem?_nil, Option.getD_none] at h
    rw [h]

/-- C1, witness: the text `shader2=foo.glsl` alone gives three entries, the
first two default and the third with the path `foo.glsl`. -/
theorem dense_backfill_witness :
    parseSlangPreset {} "shader2=foo.glsl".toList
        = (⟨{ shaders := [{}, {}, { path := "foo.glsl".toList }] }⟩, .ok true) ∧
      namedIndices "shader2=foo.glsl".toList = [2] ∧
      (getPreset ⟨{ shaders := [{}, {}, { path := "foo.glsl".toList }] }⟩).shaders.length
        = 2 + 1 ∧
      (getPreset ⟨{ shaders := [{}, {}, { path := "foo.glsl".toList }] }⟩).shaders[1]? =
        some { path := [], filterLinear := true, scaleType := ScaleType.Source,
               scale := ⟨"1.0".toList⟩, frameCountMod := 0, floatFramebuffer := false,
               srgbFramebuffer := false } :=
  ⟨rfl, rfl,
    (dense_backfill {} ⟨{ shaders := [{}, {}, { path := "foo.glsl".toList }] }⟩
      "shader2=foo.glsl".toList true (by decide) rfl).2.1 2 (by decide) (by decide),
    (dense_backfill {} ⟨{ shaders := [{}, {}, { path := "foo.glsl".toList }] }⟩
      "shader2=foo.glsl".toList true (by decide) rfl).2.2 1 (by decide) (by decide)⟩

/-- C3. When `parseSlangPreset` returns, its result is true exactly when
`shaders` is non-empty. A text none of whose keys leads a `parse…Line`
function to an index gives false and no shader, and a `shaders=` line never
changes the sequence `shaders`. -/
theorem success_iff_nonempty (self after : SlangParser) (text : Str) (ok : Bool)
    (hdone : parseSlangPreset self text = (after, .ok ok)) :
    (ok = true ↔ 0 < (getPreset after).shaders.length) ∧
    ((∀ key ∈ lineKeys text, keyTarget key = none) →
      ok = false ∧ (getPreset after).shaders = []) ∧
    (∀ (p : SlangPreset) (value : Str),
      (dispatch p "shaders".toList value).1.shaders = p.shaders) := by
  obtain ⟨hl, hok⟩ := parseSlangPreset_ok self after text ok hdone
  refine ⟨?_, ?_, ?_⟩
  · show ok = true ↔ 0 < after.preset_.shaders.length
    rw [hok]
    cases after.preset_.shaders <;> simp
  · intro hk
    have h := parseLines_untouched (getLines text) {} after.preset_ hl hk
    show ok = false ∧ after.preset_.shaders = []
    rw [hok, h]
    exact ⟨rfl, rfl⟩
  · intro p value
    rw [dispatch_eq, if_pos rfl]
    cases stoi value <;> rfl

/-- C3, witness: `shaders=5` followed by `shader0=a` gives one shader and the
count 5; the empty text, a comment and `shaders=3` alone give false. -/
theorem success_iff_nonempty_witness :
    parseSlangPreset {} "shaders=5\nshader0=a".toList
        = (⟨{ shaderCount := 5, shaders := [{ path := "a".toList }] }⟩, .ok true) ∧
      (true = true ↔
        0 < (getPreset ⟨{ shaderCount := 5, shaders := [{ path := "a".toList }] }⟩).shaders.length) ∧
      parseSlangPreset {} [] = (⟨{}⟩, .ok false) ∧
      parseSlangPreset {} "# only a comment\n".toList = (⟨{}⟩, .ok false) ∧
      parseSlangPreset {} "shaders=3".toList = (⟨{ shaderCount := 3 }⟩, .ok false) ∧
      (false = false ∧ (getPreset ⟨{ shaderCount := 3 }⟩).shaders = []) :=
  ⟨rfl,
    (success_iff_nonempty {} ⟨{ shaderCount := 5, shaders := [{ path := "a".toList }] }⟩
      "shaders=5\nshader0=a".toList true rfl).1,
    rfl, rfl, rfl,
    (success_iff_nonempty {} ⟨{ shaderCount := 3 }⟩ "shaders=3".toList false rfl).2.1
      (by decide)⟩

/-- C5, the failing input: on the line `shader0=` the value is empty and
`parseLine` calls `value.front()` on it, which the C++ standard leaves
undefined; no shader entry is made and no success is reported. White space
behind the `=` changes nothing. -/
theorem empty_value_front_undefined :
    parseSlangPreset {} "shader0=".toList = (⟨{}⟩, .error .undefined_behavior) ∧
      parseSlangPreset {} "shader0= \t".toList = (⟨{}⟩, .error .undefined_behavior) ∧
      splitKeyValue "shader0=".toList = some ("shader0".toList, []) ∧
      stripQuotes [] = .error .undefined_behavior :=
  ⟨rfl, rfl, rfl, rfl⟩

/-- C7. Let a line have the key `filter_linear<N>`, `N < INT_MAX`, and the
value `value` once trimmed and stripped of quotes. Then `parseLine` returns,
entry `N` of the result is the entry it was before the line (the default
record when it did not exist) with `filterLinear` set to the truth of
`value == "true"` and no other field changed; so the entry holds true exactly
when the value is the four characters `true`. -/
theorem filter_linear_exact (p : SlangPreset) (line raw value ds : Str)
    (hsplit : splitKeyValue line = some ("filter_linear".toList ++ ds, raw))
    (hstrip : stripQuotes raw = .ok value)
    (hne : ds ≠ []) (hall : ∀ c ∈ ds, c.isDigit = true) (hN : decimal ds < INT_MAX) :
    ∃ q, parseLine p line = (q, none) ∧
      q.shaders[decimal ds]?
        = some { ((p.shaders[decimal ds]?).getD {}) with
                  filterLinear := decide (value = "true".toList) } ∧
      ((∃ s, q.shaders[decimal ds]? = some s ∧ s.filterLinear = true)
        ↔ value = "true".toList) := by
  have hk := (keyTarget_at_start ds [] hne hall (by simp)).2.1
  rw [List.append_nil] at hk
  rw [parseLine_eq_dispatch p line _ raw value hsplit hstrip,
    dispatch_of_target p _ value ds Field.filterLinear hk hN]
  simp only [readField]
  refine ⟨_, rfl, ?_, ?_⟩
  · rw [getElem?_assignAt_grown]
    rfl
  · rw [getElem?_assignAt_grown]
    simp [SlangShader.put]

/-- C7, witness: `filter_linear0=True` sets the field to false, as do `TRUE`,
`1` and `yes`; `true` sets it to true. -/
theorem filter_linear_exact_witness :
    (∃ q, parseLine {} "filter_linear0=True".toList = (q, none) ∧
      q.shaders[decimal "0".toList]?
        = some { (((({} : SlangPreset).shaders)[decimal "0".toList]?).getD {}) with
                  filterLinear := decide ("True".toList = "true".toList) } ∧
      ((∃ s, q.shaders[decimal "0".toList]? = some s ∧ s.filterLinear = true)
        ↔ "True".toList = "true".toList)) ∧
      parseSlangPreset {} "filter_linear0=True".toList
        = (⟨{ shaders := [{ filterLinear := false }] }⟩, .ok true) ∧
      parseSlangPreset {} "filter_linear0=TRUE".toList
        = (⟨{ shaders := [{ filterLinear := false }] }⟩, .ok true) ∧
      parseSlangPreset {} "filter_linear0=1".toList
        = (⟨{ shaders := [{ filterLinear := false }] }⟩, .ok true) ∧
      parseSlangPreset {} "filter_linear0=yes".toList
        = (⟨{ shaders := [{ filterLinear := false }] }⟩, .ok true) ∧
      parseSlangPreset {} "filter_linear0=false\nfilter_linear0=true".toList
        = (⟨{ shaders := [{ filterLinear := true }] }⟩, .ok true) :=
  ⟨filter_linear_exact {} "filter_linear0=True".toList "True".toList "True".toList "0".toList
      rfl rfl (by decide) (by decide) (by decide),
    rfl, rfl, rfl, rfl, rfl⟩

/-- C8. Let a line have the key `scale_type<N>`, `N < INT_MAX`, and the value
`value` once trimmed and stripped of quotes. Then `parseLine` does what
`parseScaleLine` does; it returns, whatever the value is, so no float is read
from it; and entry `N` of the result is the entry it was before the line (the
default record when it did not exist) with `scaleType` set to Source,
Viewport or Absolute for the values `source`, `viewport`, `absolute` and left
as it was for any other value; `scale` and the other fields are unchanged. -/
theorem scale_type_dispatch (p : SlangPreset) (line raw value ds : Str)
    (hsplit : splitKeyValue line = some ("scale_type".toList ++ ds, raw))
    (hstrip : stripQuotes raw = .ok value)
    (hne : ds ≠ []) (hall : ∀ c ∈ ds, c.isDigit = true) (hN : decimal ds < INT_MAX) :
    parseLine p line = parseScaleLine p ("scale_type".toList ++ ds) value ∧
    ∃ q, parseLine p line = (q, none) ∧
      q.shaders[decimal ds]?
        = some { ((p.shaders[decimal ds]?).getD {}) with
                  scaleType :=
                    if value = "source".toList then ScaleType.Source
                    else if value = "viewport".toList then ScaleType.Viewport
                    else if value = "absolute".toList then ScaleType.Absolute
                    else ((p.shaders[decimal ds]?).getD {}).scaleType } := by
  have hk := (keyTarget_at_start ds [] hne hall (by simp)).2.2.1
  rw [List.append_nil] at hk
  have hpre : "scale_type".toList.isPrefixOf ("scale_type".toList ++ ds) = true :=
    List.isPrefixOf_iff_prefix.mpr (List.prefix_append _ _)
  have hd : dispatch p ("scale_type".toList ++ ds) value
      = parseScaleLine p ("scale_type".toList ++ ds) value := by
    unfold dispatch
    simp only [find_zero_eq]
    rw [if_neg (by simp), if_neg (by simp), if_neg (by simp), if_pos hpre]
  rw [parseLine_eq_dispatch p line _ raw value hsplit hstrip]
  refine ⟨hd, ?_⟩
  rw [dispatch_of_target p _ value ds Field.scaleType hk hN]
  simp only [readField]
  by_cases v1 : value = "source".toList
  · rw [if_pos v1]
    refine ⟨_, rfl, ?_⟩
    rw [getElem?_assignAt_grown, if_pos v1]
    rfl
  by_cases v2 : value = "viewport".toList
  · rw [if_neg v1, if_pos v2]
    refine ⟨_, rfl, ?_⟩
    rw [getElem?_assignAt_grown, if_neg v1, if_pos v2]
    rfl
  by_cases v3 : value = "absolute".toList
  · rw [if_neg v1, if_neg v2, if_pos v3]
    refine ⟨_, rfl, ?_⟩
    rw [getElem?_assignAt_grown, if_neg v1, if_neg v2, if_pos v3]
    rfl
  rw [if_neg v1, if_neg v2, if_neg v3]
  refine ⟨_, rfl, ?_⟩
  rw [getElem?_grown_self, if_neg v1, if_neg v2, if_neg v3]

/-- C8, witness: `scale_type1=viewport` behind `scale1=2.0` sets the scale
type of entry 1 and keeps its scale; `scale_type0=abc` returns although `abc`
is no float, and leaves the default scale type. -/
theorem scale_type_dispatch_witness :
    (parseLine { shaders := [{}, { scale := ⟨"2.0".toList⟩ }] } "scale_type1=viewport".toList
        = parseScaleLine { shaders := [{}, { scale := ⟨"2.0".toList⟩ }] }
            ("scale_type".toList ++ "1".toList) "viewport".toList ∧
      ∃ q, parseLine { shaders := [{}, { scale := ⟨"2.0".toList⟩ }] } "scale_type1=viewport".toList
          = (q, none) ∧
        q.shaders[decimal "1".toList]?
          = some { ((([({} : SlangShader), { scale := ⟨"2.0".toList⟩ }])[decimal "1".toList]?).getD
                      {}) with
                    scaleType :=
                      if "viewport".toList = "source".toList then ScaleType.Source
                      else if "viewport".toList = "viewport".toList then ScaleType.Viewport
                      else if "viewport".toList = "absolute".toList then ScaleType.Absolute
                      else ((([({} : SlangShader), { scale := ⟨"2.0".toList⟩ }])[
                        decimal "1".toList]?).getD {}).scaleType }) ∧
      parseSlangPreset {} "scale1=2.0\nscale_type1=viewport".toList
        = (⟨{ shaders := [{}, { scaleType := ScaleType.Viewport, scale := ⟨"2.0".toList⟩ }] }⟩,
            .ok true) ∧
      parseSlangPreset {} "scale_type0=abc".toList = (⟨{ shaders := [{}] }⟩, .ok true) ∧
      stof "abc".toList = .error .invalid_argument :=
  ⟨scale_type_dispatch { shaders := [{}, { scale := ⟨"2.0".toList⟩ }] }
      "scale_type1=viewport".toList "viewport".toList "viewport".toList "1".toList
      rfl rfl (by decide) (by decide) (by decide),
    rfl, rfl, rfl⟩

/-- C9. No state is kept from one call of `parseSlangPreset` to the next:
on the parser that a call on `a` leaves behind, whatever that call did, a
call on `b` gives the result and leaves the parser that it gives and leaves
on a new parser, and `getPreset` returns the same preset (count, shaders and
parameters) in both cases. -/
theorem parse_keeps_no_state (self : SlangParser) (a b : Str) :
    parseSlangPreset (parseSlangPreset self a).1 b = parseSlangPreset ({} : SlangParser) b ∧
      getPreset (parseSlangPreset (parseSlangPreset self a).1 b).1
        = getPreset (parseSlangPreset ({} : SlangParser) b).1 ∧
      (parseSlangPreset (parseSlangPreset self a).1 b).2
        = (parseSlangPreset ({} : SlangParser) b).2 := by
  have h : ∀ s : SlangParser, parseSlangPreset s b = parseSlangPreset ({} : SlangParser) b := by
    intro s
    rfl
  exact ⟨h _, by rw [h], by rw [h]⟩

/-- C10. The text `preprocessGLSL` returns is a header followed by every line
of the source, in order, rewritten by `replaceSlangKeywords` and ended by one
newline. The header is empty when a line of the source contains `#version`;
otherwise it is the version line for Vertex, and the version line and the
precision line for Fragment. For `float3 foo;` and Fragment the result is the
one the claim gives. -/
theorem preprocess_output_shape (source : Str) (type : ShaderType) :
    preprocessGLSL source type =
        (if ∃ l ∈ getLines source, "#version".toList <:+: l then []
          else
            match type with
            | ShaderType.Vertex => "#version 100\n".toList
            | ShaderType.Fragment => "#version 100\nprecision mediump float;\n".toList)
          ++ (getLines source).flatMap (fun l => replaceSlangKeywords l ++ "\n".toList) ∧
      preprocessGLSL "float3 foo;".toList ShaderType.Fragment
        = "#version 100\nprecision mediump float;\nvec3 foo;\n".toList := by
  refine ⟨?_, rfl⟩
  unfold preprocessGLSL
  simp only [foldl_emit, foldl_hasVersion, Bool.false_or]
  congr 1
  by_cases h : ∃ l ∈ getLines source, "#version".toList <:+: l
  · simp only [decide_eq_true h, Bool.not_true, Bool.false_eq_true, if_false, if_pos h]
  · simp only [decide_eq_false h, Bool.not_false, if_true, if_neg h]
    cases type
    · rfl
    · rfl

/-- C11: for every expression text `E` whose parentheses are balanced and which
holds none of the five dialect tokens, `replaceSlangKeywords` turns
`saturate(E)` into `clamp(E, 0.0, 1.0)`, and the closing parenthesis that
`findMatchingParen` reports for the call is the last character of the line,
whatever parentheses `E` holds. -/
theorem saturate_balanced_rewrite (E : Str) (hb : balanced E = true)
    (hk : ∀ P ∈ ["float2".toList, "float3".toList, "float4".toList, "lerp(".toList,
      "saturate(".toList], ¬ P <:+: E) :
    replaceSlangKeywords ("saturate(".toList ++ E ++ ")".toList)
        = "clamp(".toList ++ E ++ ", 0.0, 1.0)".toList
      ∧ findMatchingParen ("saturate(".toList ++ E ++ ")".toList) 9 = some (9 + E.length) := by
  have hm := fm_balanced E [] 0 hb
  rw [Nat.zero_add] at hm
  have e1 : "saturate(".toList ++ E ++ ")".toList
      = "saturate(".toList ++ (E ++ (")".toList ++ [])) := by simp
  have e2 : "clamp(".toList ++ E ++ ", 0.0, 1.0)".toList
      = "clamp(".toList ++ (E ++ (", 0.0, 1.0)".toList ++ [])) := by simp
  constructor
  · have n2 := not_infix_wrap "float2".toList "saturate(".toList ")".toList E (by decide)
      (by decide) (by decide) (by decide) (by decide) (hk _ (by simp))
    have n3 := not_infix_wrap "float3".toList "saturate(".toList ")".toList E (by decide)
      (by decide) (by decide) (by decide) (by decide) (hk _ (by simp))
    have n4 := not_infix_wrap "float4".toList "saturate(".toList ")".toList E (by decide)
      (by decide) (by decide) (by decide) (by decide) (hk _ (by simp))
    have nl := not_infix_wrap "lerp(".toList "saturate(".toList ")".toList E (by decide)
      (by decide) (by decide) (by decide) (by decide) (hk _ (by simp))
    have ns := not_infix_wrap "saturate(".toList "clamp(".toList ", 0.0, 1.0)".toList E (by decide)
      (by decide) (by decide) (by decide) (by decide) (hk _ (by simp))
    rw [List.append_assoc]
    unfold replaceSlangKeywords
    simp only
    rw [replaceLoop_of_absent _ _ _ _ _ _ 0 n2, replaceLoop_of_absent _ _ _ _ _ _ 0 n3,
      replaceLoop_of_absent _ _ _ _ _ _ 0 n4, replaceLoop_of_absent _ _ _ _ _ _ 0 nl]
    have := saturateLoop_head ("saturate(".toList ++ (E ++ ")".toList)).length E [] hm
    rw [List.append_nil, List.append_nil] at this
    rw [this, saturateLoop_of_absent _ _ 1 ns, List.append_assoc]
  · have h1 := findMatchingParen_decomposed [] (E ++ (")".toList ++ []))
    simp only [List.nil_append, List.length_nil, Nat.zero_add] at h1
    rw [e1, h1]
    exact fm_some_shift _ 0 9 E.length 1 (by rw [hm, Nat.zero_add])

/-- C11, at the lines `saturate(a + b)` and `saturate(f(x) + 1.0)`: in the
second the `)` after `x` is not taken for the end of the call. -/
theorem saturate_balanced_rewrite_witness :
    (replaceSlangKeywords ("saturate(".toList ++ "a + b".toList ++ ")".toList)
        = "clamp(".toList ++ "a + b".toList ++ ", 0.0, 1.0)".toList
      ∧ findMatchingParen ("saturate(".toList ++ "a + b".toList ++ ")".toList) 9
        = some (9 + "a + b".toList.length))
    ∧ (replaceSlangKeywords ("saturate(".toList ++ "f(x) + 1.0".toList ++ ")".toList)
        = "clamp(".toList ++ "f(x) + 1.0".toList ++ ", 0.0, 1.0)".toList
      ∧ findMatchingParen ("saturate(".toList ++ "f(x) + 1.0".toList ++ ")".toList) 9
        = some (9 + "f(x) + 1.0".toList.length)) :=
  ⟨saturate_balanced_rewrite "a + b".toList (by decide) (by decide),
    saturate_balanced_rewrite "f(x) + 1.0".toList (by decide) (by decide)⟩

/-- C12: `replaceSlangKeywords` ends on every line, and an unmatched
`saturate(` is left alone. Each of the five loops is left because its `find`
fails, within the rounds given to it, and more rounds would give the same
text. For every line `u ++ "saturate(" ++ v` in which the text `v` behind the
opening parenthesis holds no closing parenthesis matching it, the result is
`u' ++ "saturate(" ++ v'` where `u'` and `v'` arise from `u` and `v` by
rewritings of their own, and `v'` still holds no matching closing
parenthesis; `findMatchingParen` reports no parenthesis for the call exactly
when no prefix of `v` holds more `)` than `(`. The line `saturate(a + b` is
returned as it is. -/
theorem unmatched_saturate_kept :
    (∀ line : Str, replaceSlangKeywordsExits line = true) ∧
    (∀ (s : Str) (k : Nat),
      replaceLoop "float2".toList 6 "vec2".toList 4 (s.length + 1 + k) s 0
          = replaceLoop "float2".toList 6 "vec2".toList 4 (s.length + 1) s 0 ∧
        replaceLoop "float3".toList 6 "vec3".toList 4 (s.length + 1 + k) s 0
          = replaceLoop "float3".toList 6 "vec3".toList 4 (s.length + 1) s 0 ∧
        replaceLoop "float4".toList 6 "vec4".toList 4 (s.length + 1 + k) s 0
          = replaceLoop "float4".toList 6 "vec4".toList 4 (s.length + 1) s 0 ∧
        replaceLoop "lerp(".toList 4 "mix".toList 3 (s.length + 1 + k) s 0
          = replaceLoop "lerp(".toList 4 "mix".toList 3 (s.length + 1) s 0 ∧
        saturateLoop (s.length + 1 + k) s 0 = saturateLoop (s.length + 1) s 0) ∧
    (∀ u v : Str, hasClosing v = false →
      ∃ u' v' : Str,
        replaceSlangKeywords (u ++ "saturate(".toList ++ v) = u' ++ "saturate(".toList ++ v' ∧
          Rewrites u u' ∧ Rewrites v v' ∧ hasClosing v' = false) ∧
    (∀ u v : Str,
      findMatchingParen (u ++ "saturate(".toList ++ v) (u.length + 9) = none ↔
        hasClosing v = false) ∧
    replaceSlangKeywords "saturate(a + b".toList = "saturate(a + b".toList := by
  refine ⟨replaceSlangKeywords_exits, ?_, ?_, ?_, by decide⟩
  · intro s k
    refine ⟨?_, ?_, ?_, ?_, ?_⟩
    · exact replaceLoop_fuel _ _ _ _ _ _ _
        (replaceLoop_exits _ "vec2".toList 6 (by decide) (by decide) (by decide) _ s 0 (by omega)) k
    · exact replaceLoop_fuel _ _ _ _ _ _ _
        (replaceLoop_exits _ "vec3".toList 6 (by decide) (by decide) (by decide) _ s 0 (by omega)) k
    · exact replaceLoop_fuel _ _ _ _ _ _ _
        (replaceLoop_exits _ "vec4".toList 6 (by decide) (by decide) (by decide) _ s 0 (by omega)) k
    · exact replaceLoop_fuel _ _ _ _ _ _ _
        (replaceLoop_exits _ "mix".toList 4 (by decide) (by decide) (by decide) _ s 0 (by omega)) k
    · exact saturateLoop_fuel _ _ _ (saturateLoop_exits_start s) k
  · intro u v hv
    have hn := (fm_none_iff_not_hasClosing v 0).mpr hv
    have hr := rewrites_replaceSlangKeywords (u ++ "saturate(".toList ++ v)
    rw [List.append_assoc] at hr
    obtain ⟨u', v', he, hu, hv', hn'⟩ := rewrites_keeps_unmatched u v _ hr hn
    refine ⟨u', v', ?_, hu, hv', (fm_none_iff_not_hasClosing v' 0).mp hn'⟩
    rw [List.append_assoc, List.append_assoc, he]
  · intro u v
    rw [List.append_assoc, findMatchingParen_decomposed]
    exact fm_none_iff_not_hasClosing v _

/-- C12, at the line `float2 c = saturate(lerp(a, b`: the `saturate(` stays
between the rewritten texts. -/
theorem unmatched_saturate_kept_witness :
    hasClosing "lerp(a, b".toList = false ∧
    ∃ u' v' : Str,
      replaceSlangKeywords ("float2 c = ".toList ++ "saturate(".toList ++ "lerp(a, b".toList)
          = u' ++ "saturate(".toList ++ v' ∧
        Rewrites "float2 c = ".toList u' ∧ Rewrites "lerp(a, b".toList v' ∧
        hasClosing v' = false :=
  ⟨by decide, unmatched_saturate_kept.2.2.1 "float2 c = ".toList "lerp(a, b".toList (by decide)⟩

/-- C13: on a line that holds no `lerp(` and no `saturate(`,
`replaceSlangKeywords` gives the line read from left to right with every
`float2`, `float3`, `float4` replaced by `vec2`, `vec3`, `vec4` and every
other character copied, wherever the token stands. -/
theorem vector_types_substring (line : Str) (hl : ¬ "lerp(".toList <:+: line)
    (hs : ¬ "saturate(".toList <:+: line) :
    replaceSlangKeywords line
      = specReplaceAll [("float2".toList, "vec2".toList), ("float3".toList, "vec3".toList),
          ("float4".toList, "vec4".toList)] 0 line := by
  obtain ⟨r1, r2, r3, r4, e1, e2, e3, e4, eR, h1, h2, h3, -, -, -⟩ :=
    replaceSlangKeywords_chain line
  have h13 := rewrites_trans (rewrites_trans h1 h2) h3
  have hl3 : ¬ "lerp(".toList <:+: r3 := rewrites_no_new _ (by decide) h13 hl
  have hs3 : ¬ "saturate(".toList <:+: r3 := rewrites_no_new _ (by decide) h13 hs
  rw [replaceLoop_of_absent _ _ _ _ _ r3 0 hl3] at e4
  subst e4
  rw [eR, saturateLoop_of_absent _ _ 0 hs3]
  have s1 : ∀ s : Str, replaceLoop "float2".toList 6 "vec2".toList 4 (s.length + 1) s 0
      = specReplaceAll [("float2".toList, "vec2".toList)] 0 s :=
    replaceLoop_eq_specReplaceAll "float2".toList "vec2".toList 6 (by decide) (by decide)
      (by decide) (by decide)
  have s2 : ∀ s : Str, replaceLoop "float3".toList 6 "vec3".toList 4 (s.length + 1) s 0
      = specReplaceAll [("float3".toList, "vec3".toList)] 0 s :=
    replaceLoop_eq_specReplaceAll "float3".toList "vec3".toList 6 (by decide) (by decide)
      (by decide) (by decide)
  have s3 : ∀ s : Str, replaceLoop "float4".toList 6 "vec4".toList 4 (s.length + 1) s 0
      = specReplaceAll [("float4".toList, "vec4".toList)] 0 s :=
    replaceLoop_eq_specReplaceAll "float4".toList "vec4".toList 6 (by decide) (by decide)
      (by decide) (by decide)
  have m1 := specReplaceAll_merge [("float2".toList, "vec2".toList)]
    ("float3".toList, "vec3".toList) (by decide) (by decide) line.length line (le_refl _)
  have m2 := specReplaceAll_merge
    [("float2".toList, "vec2".toList), ("float3".toList, "vec3".toList)]
    ("float4".toList, "vec4".toList) (by decide) (by decide) line.length line (le_refl _)
  rw [e3, s3, e2, s2, e1, s1, m1]
  exact m2

/-- C13, at the lines `myfloat2x` and `float a; float3 b = float4(a);`: a
token inside a longer word is replaced, plain `float` is not. -/
theorem vector_types_substring_witness :
    replaceSlangKeywords "myfloat2x".toList = "myvec2x".toList ∧
      replaceSlangKeywords "float a; float3 b = float4(a);".toList
        = "float a; vec3 b = vec4(a);".toList :=
  ⟨(vector_types_substring "myfloat2x".toList (by decide) (by decide)).trans (by decide),
    (vector_types_substring "float a; float3 b = float4(a);".toList (by decide)
      (by decide)).trans (by decide)⟩

/-- C14: on a line that holds no `float2`, `float3`, `float4` and no
`saturate(`, `replaceSlangKeywords` gives the line read from left to right
with every `lerp(` replaced by `mix(` and every other character copied; a
`lerp` that no `(` follows is copied. -/
theorem lerp_call_to_mix (line : Str) (h2 : ¬ "float2".toList <:+: line)
    (h3 : ¬ "float3".toList <:+: line) (h4 : ¬ "float4".toList <:+: line)
    (hs : ¬ "saturate(".toList <:+: line) :
    replaceSlangKeywords line = specReplaceAll [("lerp(".toList, "mix(".toList)] 0 line := by
  have hr : Rewrites line (replaceLoop "lerp(".toList 4 "mix".toList 3 (line.length + 1) line 0) :=
    replaceLoop_rewrites _ _ "mix(".toList 4 3 (by decide) (by decide) (fun _ => rfl)
      RewriteStep.mix _ _ _
  have hs4 := rewrites_no_new _ (by decide) hr hs
  unfold replaceSlangKeywords
  simp only
  rw [replaceLoop_of_absent _ _ _ _ _ line 0 h2, replaceLoop_of_absent _ _ _ _ _ line 0 h3,
    replaceLoop_of_absent _ _ _ _ _ line 0 h4, saturateLoop_of_absent _ _ 0 hs4]
  exact replaceLoop_eq_specReplaceAll "lerp(".toList "mix".toList 4 (by decide) (by decide)
    (by decide) (by decide) line

/-- C14, at the line `lerp(a, slerp(b, c), lerp) + lerp (d)`. -/
theorem lerp_call_to_mix_witness :
    replaceSlangKeywords "lerp(a, slerp(b, c), lerp) + lerp (d)".toList
      = "mix(a, smix(b, c), lerp) + lerp (d)".toList :=
  (lerp_call_to_mix "lerp(a, slerp(b, c), lerp) + lerp (d)".toList (by decide) (by decide)
    (by decide) (by decide)).trans (by decide)

/-- C15: a source text that holds `#version` and none of `float2`, `float3`,
`float4`, `lerp(`, `saturate(` is returned by `preprocessGLSL`, for either
stage, as its lines each ended by one newline: the source itself when it ends
with a newline, and the source with one newline appended otherwise. -/
theorem portable_text_fixed (source : Str) (type : ShaderType)
    (hv : "#version".toList <:+: source)
    (hk : ∀ P ∈ ["float2".toList, "float3".toList, "float4".toList, "lerp(".toList,
      "saturate(".toList], ¬ P <:+: source) :
    preprocessGLSL source type = (getLines source).flatMap (fun l => l ++ "\n".toList) ∧
      (source.getLast? = some '\n' → preprocessGLSL source type = source) ∧
      (source.getLast? ≠ some '\n' → preprocessGLSL source type = source ++ "\n".toList) := by
  have h1 : preprocessGLSL source type = (getLines source).flatMap (fun l => l ++ "\n".toList) := by
    rw [preprocessGLSL_shape, if_pos (infix_in_line _ (by decide) (by decide) source hv),
      List.nil_append]
    apply flatMap_congr_mem
    intro l hl
    have hin := infix_of_mem_getLines source l hl
    rw [replaceSlangKeywords_fixed l (fun h => hk _ (by simp) (h.trans hin))
      (fun h => hk _ (by simp) (h.trans hin)) (fun h => hk _ (by simp) (h.trans hin))
      (fun h => hk _ (by simp) (h.trans hin))]
    intro A V hA
    exfalso
    apply hk "saturate(".toList (by simp)
    refine List.IsInfix.trans ?_ hin
    exact ⟨A, V, by rw [hA]; simp⟩
  have hne : source ≠ [] := by
    intro h
    rw [h] at hv
    exact absurd (List.infix_nil.mp hv) (by decide)
  refine ⟨h1, ?_, ?_⟩
  · intro hl
    rw [h1, getLines_join, if_pos (Or.inr hl)]
  · intro hl
    rw [h1, getLines_join, if_neg (by simp [hne, hl])]

/-- C15, at a two-line vertex shader, with and without a newline at its end. -/
theorem portable_text_fixed_witness :
    preprocessGLSL "#version 100\nvoid main() {}\n".toList ShaderType.Vertex
        = "#version 100\nvoid main() {}\n".toList
      ∧ preprocessGLSL "#version 100\nvoid main() {}".toList ShaderType.Fragment
        = "#version 100\nvoid main() {}".toList ++ "\n".toList :=
  ⟨(portable_text_fixed "#version 100\nvoid main() {}\n".toList ShaderType.Vertex (by decide)
      (by decide)).2.1 (by decide),
    (portable_text_fixed "#version 100\nvoid main() {}".toList ShaderType.Fragment (by decide)
      (by decide)).2.2 (by decide)⟩

/-- C16. The function `validateShader` accepts a source exactly when it is
not empty, contains `void main`, and either the stage is Vertex or the source
contains `gl_FragColor`. The empty source is rejected for Fragment, and the
source `void main(){ gl_FragColor = ...; }` is accepted for both stages. -/
theorem validateShader_iff (source : Str) (type : ShaderType) :
    (validateShader source type = true ↔
      source ≠ [] ∧ "void main".toList <:+: source ∧
        (type = ShaderType.Vertex ∨ "gl_FragColor".toList <:+: source)) ∧
    validateShader [] ShaderType.Fragment = false ∧
    validateShader "void main(){ gl_FragColor = ...; }".toList ShaderType.Fragment = true ∧
    validateShader "void main(){ gl_FragColor = ...; }".toList ShaderType.Vertex = true := by
  refine ⟨?_, rfl, rfl, rfl⟩
  unfold validateShader
  cases source with
  | nil => simp
  | cons c cs =>
    simp only [List.isEmpty_cons, Bool.false_eq_true, if_false, ne_eq, reduceCtorEq,
      not_false_eq_true, true_and]
    by_cases h1 : "void main".toList <:+: c :: cs
    · rw [if_neg (by rw [find_eq_none_iff]; exact not_not.mpr h1)]
      cases type with
      | Vertex =>
        rw [if_neg (by decide)]
        simp only [h1, true_or, and_self]
      | Fragment =>
        by_cases h2 : "gl_FragColor".toList <:+: c :: cs
        · rw [if_pos rfl, if_neg (by rw [find_eq_none_iff]; exact not_not.mpr h2)]
          simp only [h1, h2, or_true, and_self]
        · rw [if_pos rfl, if_pos (by rw [find_eq_none_iff]; exact h2)]
          simp only [Bool.false_eq_true, h1, reduceCtorEq, h2, or_self, and_false]
    · rw [if_pos (by rw [find_eq_none_iff]; exact h1)]
      simp only [Bool.false_eq_true, h1, false_and]

/-- C17. With the engine initialised, the entry point `compileShader` returns
the text `preprocessGLSL` gives when `validateShader` accepts the source, and
the failure value when it does not; it fails exactly when validation fails,
because `preprocessGLSL` never returns the empty text. -/
theorem compileShader_fails_iff_invalid (compiler : ShaderCompiler) (source : Str)
    (type : ShaderType) :
    Java_com_shaderlay_app_shader_NativeShaderCompiler_compileShader (some compiler) source type
        = (if validateShader source type = true then some (preprocessGLSL source type) else none) ∧
    (Java_com_shaderlay_app_shader_NativeShaderCompiler_compileShader (some compiler) source type
        = none ↔ validateShader source type = false) ∧
    preprocessGLSL source type ≠ [] := by
  have hne := preprocessGLSL_ne_nil source type
  have hemp : (compileGLSL source type).isEmpty = false := by
    unfold compileGLSL
    cases h : preprocessGLSL source type with
    | nil => exact absurd h hne
    | cons c cs => rfl
  unfold Java_com_shaderlay_app_shader_NativeShaderCompiler_compileShader
  simp only [hemp]
  cases hv : validateShader source type
  · simp [hne]
  · simp [hne, compileGLSL]

/-- C18, the failing input: the value `"` of one character begins and ends
with a double quote, so `parseLine` takes `value.substr(1, value.length() - 2)`
with the length `1 - 2` wrapped around in `size_t`, and stores the empty text
where the claim keeps the value. Values wrapped in a pair of quotes lose
exactly the pair, and other values that are not empty are kept. -/
theorem lone_quote_is_stripped :
    stripQuotes "\"".toList = .ok [] ∧
      (parseSlangPreset {} "shader0=\"".toList).1 = ⟨{ shaders := [{ path := [] }] }⟩ ∧
      stripQuotes "\"foo.glsl\"".toList = .ok "foo.glsl".toList ∧
      stripQuotes "\"\"a\"\"".toList = .ok "\"a\"".toList ∧
      stripQuotes "\"\"".toList = .ok [] ∧
      stripQuotes "a\"".toList = .ok "a\"".toList ∧
      stripQuotes "\"a".toList = .ok "\"a".toList :=
  ⟨rfl, rfl, rfl, rfl, rfl, rfl, rfl⟩

/-- C19. For a path (a `std::string`, so shorter than 2^64 characters)
`loadShaderSource` returns the CRT shader when the stem of the path contains
`crt`, else the scanline shader when it contains `scanline`, else the LCD
shader when it contains `lcd`, else the passthrough shader, where the stem is
the text after the last `/` with everything from its last `.` on removed; the
result is never empty. -/
theorem placeholder_by_stem (path : Str) (hlen : path.length < 2 ^ 64) :
    loadShaderSource path =
        (if "crt".toList <:+: stem path then generateCRTShader
          else if "scanline".toList <:+: stem path then generateScanlineShader
          else if "lcd".toList <:+: stem path then generateLCDShader
          else generatePassthroughShader) ∧
      loadShaderSource path ≠ [] := by
  have h := generatePlaceholderShader_eq path hlen
  obtain ⟨n1, n2, n3, n4⟩ := placeholders_ne_nil
  unfold loadShaderSource
  refine ⟨h, ?_⟩
  rw [h]
  split
  · exact n1
  · split
    · exact n2
    · split
      · exact n3
      · exact n4

/-- C19, witness: `crt/foo.glsl` and `foo.crt` have the stem `foo` and give
the passthrough shader; `shaders/crt-geom.glsl` gives the CRT shader. -/
theorem placeholder_by_stem_witness :
    stem "crt/foo.glsl".toList = "foo".toList ∧
      stem "foo.crt".toList = "foo".toList ∧
      loadShaderSource "crt/foo.glsl".toList = generatePassthroughShader ∧
      loadShaderSource "foo.crt".toList = generatePassthroughShader ∧
      loadShaderSource "shaders/crt-geom.glsl".toList = generateCRTShader ∧
      (loadShaderSource "crt/foo.glsl".toList =
          (if "crt".toList <:+: stem "crt/foo.glsl".toList then generateCRTShader
            else if "scanline".toList <:+: stem "crt/foo.glsl".toList then generateScanlineShader
            else if "lcd".toList <:+: stem "crt/foo.glsl".toList then generateLCDShader
            else generatePassthroughShader) ∧
        loadShaderSource "crt/foo.glsl".toList ≠ []) :=
  ⟨rfl, rfl, rfl, rfl, rfl, placeholder_by_stem "crt/foo.glsl".toList (by decide)⟩

/-- C20: preprocessing twice gives what preprocessing once gives, for every
source text and stage; `replaceSlangKeywords` applied to its own result
changes nothing, for every line; and the output of `preprocessGLSL` always
has a line that holds `#version`, so that no header is written in front of
it again. -/
theorem preprocess_idempotent :
    (∀ (s : Str) (t : ShaderType), preprocessGLSL (preprocessGLSL s t) t = preprocessGLSL s t) ∧
    (∀ l : Str, replaceSlangKeywords (replaceSlangKeywords l) = replaceSlangKeywords l) ∧
    (∀ (s : Str) (t : ShaderType),
      ∃ l ∈ getLines (preprocessGLSL s t), "#version".toList <:+: l) := by
  refine ⟨preprocessGLSL_idem, replaceSlangKeywords_idem, ?_⟩
  intro s t
  obtain ⟨H, -, hl, -, hv⟩ := preprocessGLSL_lines s t
  rw [hl]
  exact hv

/-- C21: for every line, the result of `replaceSlangKeywords` holds no
`float2`, `float3`, `float4` and no `lerp(`, and every `saturate(` left in it
is without a matching closing parenthesis: no prefix of the text behind it
holds more `)` than `(`, and `findMatchingParen` reports none for it. The
nested call `saturate(saturate(x))` becomes
`clamp(clamp(x, 0.0, 1.0), 0.0, 1.0)`. -/
theorem rewriting_complete :
    (∀ l : Str,
      ¬ "float2".toList <:+: replaceSlangKeywords l ∧
        ¬ "float3".toList <:+: replaceSlangKeywords l ∧
        ¬ "float4".toList <:+: replaceSlangKeywords l ∧
        ¬ "lerp(".toList <:+: replaceSlangKeywords l ∧
        unmatchedOnly (replaceSlangKeywords l)) ∧
    (∀ l A V : Str, replaceSlangKeywords l = A ++ "saturate(".toList ++ V →
      findMatchingParen (replaceSlangKeywords l) (A.length + 9) = none) ∧
    replaceSlangKeywords "saturate(saturate(x))".toList
      = "clamp(clamp(x, 0.0, 1.0), 0.0, 1.0)".toList := by
  refine ⟨?_, ?_, by decide⟩
  · intro l
    obtain ⟨h2, h3, h4, hl, hs⟩ := replaceSlangKeywords_clean l
    refine ⟨h2, h3, h4, hl, ?_⟩
    intro A V hA
    exact (fm_none_iff_not_hasClosing V 0).mp (hs A V hA)
  · intro l A V hA
    rw [List.append_assoc] at hA
    have hn := (replaceSlangKeywords_clean l).2.2.2.2 A V hA
    rw [hA, findMatchingParen_decomposed]
    exact fm_none_shift V 0 _ 1 hn

/-- C21, at the line `x = saturate(a + b`: the `saturate(` that is left has no
matching closing parenthesis. -/
theorem rewriting_complete_witness :
    replaceSlangKeywords "x = saturate(a + b".toList
        = "x = ".toList ++ "saturate(".toList ++ "a + b".toList ∧
      findMatchingParen (replaceSlangKeywords "x = saturate(a + b".toList)
        ("x = ".toList.length + 9) = none :=
  ⟨by decide,
    rewriting_complete.2.1 "x = saturate(a + b".toList "x = ".toList "a + b".toList (by decide)⟩

/-- C22: a source that `validateShader` accepts for a stage is still accepted
after `preprocessGLSL`, for every source and stage: an occurrence of
`void main` or of `gl_FragColor` in the source is still in the output, and
the output is not empty. -/
theorem preprocess_keeps_valid (s : Str) (t : ShaderType) (h : validateShader s t = true) :
    validateShader (preprocessGLSL s t) t = true ∧
      ("void main".toList <:+: s → "void main".toList <:+: preprocessGLSL s t) ∧
      ("gl_FragColor".toList <:+: s → "gl_FragColor".toList <:+: preprocessGLSL s t) ∧
      preprocessGLSL s t ≠ [] := by
  have k1 : "void main".toList <:+: s → "void main".toList <:+: preprocessGLSL s t :=
    preprocessGLSL_keeps _ (by decide) (by decide) (by decide) s t
  have k2 : "gl_FragColor".toList <:+: s → "gl_FragColor".toList <:+: preprocessGLSL s t :=
    preprocessGLSL_keeps _ (by decide) (by decide) (by decide) s t
  have hne := preprocessGLSL_ne_nil s t
  refine ⟨?_, k1, k2, hne⟩
  have hiff : ∀ src : Str, validateShader src t = true ↔
      src ≠ [] ∧ "void main".toList <:+: src ∧
        (t = ShaderType.Vertex ∨ "gl_FragColor".toList <:+: src) := by
    intro src
    unfold validateShader
    cases src with
    | nil => simp
    | cons c cs =>
      simp only [List.isEmpty_cons, Bool.false_eq_true, if_false, ne_eq, reduceCtorEq,
        not_false_eq_true, true_and, find_eq_none_iff]
      cases t <;> by_cases h1 : "void main".toList <:+: c :: cs <;>
        by_cases h2 : "gl_FragColor".toList <:+: c :: cs <;> simp [h1, h2]
  obtain ⟨-, hv, hf⟩ := (hiff s).mp h
  exact (hiff _).mpr ⟨hne, k1 hv, hf.imp id k2⟩

/-- C22, at a fragment shader written in the dialect. -/
theorem preprocess_keeps_valid_witness :
    validateShader
        (preprocessGLSL "void main() { gl_FragColor = float4(saturate(c), 1.0); }".toList
          ShaderType.Fragment) ShaderType.Fragment = true :=
  (preprocess_keeps_valid "void main() { gl_FragColor = float4(saturate(c), 1.0); }".toList
    ShaderType.Fragment (by decide)).1

/-- C23: for every path, the text that `loadShaderSource` returns is accepted
by `validateShader` for the Fragment stage and is returned unchanged by
`preprocessGLSL`; it holds `#version`, ends with a newline, and holds none of
`float2`, `float3`, `float4`, `lerp(`, `saturate(`. -/
theorem placeholder_compiles_unchanged (p : Str) :
    validateShader (loadShaderSource p) ShaderType.Fragment = true ∧
      preprocessGLSL (loadShaderSource p) ShaderType.Fragment = loadShaderSource p ∧
      "#version".toList <:+: loadShaderSource p ∧
      (loadShaderSource p).getLast? = some '\n' ∧
      ∀ P ∈ ["float2".toList, "float3".toList, "float4".toList, "lerp(".toList,
        "saturate(".toList], ¬ P <:+: loadShaderSource p := by
  unfold loadShaderSource
  have hc := generatePlaceholderShader_cases p
  obtain ⟨hv, hl, hk⟩ := placeholders_portable _ hc
  refine ⟨?_, ?_, (find_isSome_iff _ _).mp hv, hl,
    fun P hP => (find_eq_none_iff _ P).mp (hk P hP)⟩
  · simp only [List.mem_cons, List.mem_singleton, List.not_mem_nil, or_false] at hc
    rcases hc with h | h | h | h <;> rw [h]
    · exact placeholders_valid.1
    · exact placeholders_valid.2.1
    · exact placeholders_valid.2.2.1
    · exact placeholders_valid.2.2.2
  · simp only [List.mem_cons, List.mem_singleton, List.not_mem_nil, or_false] at hc
    rcases hc with h | h | h | h <;> rw [h]
    · exact placeholders_fixed.1
    · exact placeholders_fixed.2.1
    · exact placeholders_fixed.2.2.1
    · exact placeholders_fixed.2.2.2

end Shaderlay
